import Mathlib

/-!
# JotterXpress: the file-backed note store and the note service

A shallow embedding of `internal/domain/entities/note.go`,
`internal/adapters/repository/file_repository.go`,
`internal/application/services/note_service.go` and the delete routine of
`internal/adapters/cli/cli.go`, and the properties of the store and of the
service proved over it.

Modelling conventions.

* Go strings are Lean strings; where the code works on the characters of a
  string (trimming, splitting, parsing a clock time) the functions work on
  `List Char`.
* A `time.Time` is the instant it denotes, counted in nanoseconds since the
  Unix epoch (`Time.After` compares instants). What a call reads from the
  clock is passed to it as a `Clock`.
* The file system is a map from path to directory entry. Every operation of
  the store takes the file system as an argument and returns the new file
  system next to its result. Directories have no entries of their own: a path
  with no entry whose way leads through no entry is free, and a directory is
  there or can be made; an entry on the way to a path blocks it.
* `encoding/json` is not modelled byte by byte: a file either holds the
  encoding of a note array, or other text. The encoder refuses a note with a
  time outside the years 0 to 9999, as `Time.MarshalJSON` does.
* `filepath.Join` cleans the joined path by its text, as on Unix.
* The service works on the `NoteRepository` interface: a record of the
  operations of a store over the state of that store.
-/

namespace JotterXpress

/-! ## entities/note.go -/

/-- A `time.Time`, as nanoseconds since the Unix epoch. -/
abbrev Time := Int

/-- The `NoteType` string type. -/
abbrev NoteType := String

def NoteTypeText : NoteType := "text"
def NoteTypeTask : NoteType := "task"
def NoteTypeContact : NoteType := "contact"
def NoteTypeIdea : NoteType := "idea"
def NoteTypeReminder : NoteType := "reminder"

/-- The `Priority` string type. -/
abbrev Priority := String

def PriorityLow : Priority := "low"
def PriorityHigh : Priority := "high"

/-- The `Status` string type. -/
abbrev Status := String

def StatusToDo : Status := "por_hacer"
def StatusCompleted : Status := "completed"

/-- The `Metadata` struct: additional fields for the different note types. -/
structure Metadata where
  Priority : Priority
  Status : Status
  DueDate : Option Time
  Assignee : String
  EstimatedHours : Int
  Phone : String
  Email : String
  Address : String
  ReminderTime : String
  Tags : List String
  Category : String
deriving DecidableEq, Repr

/-- The zero value `entities.Metadata{}`. -/
def Metadata.empty : Metadata :=
  { Priority := "", Status := "", DueDate := none, Assignee := "", EstimatedHours := 0,
    Phone := "", Email := "", Address := "", ReminderTime := "", Tags := [], Category := "" }

/-- The `Note` struct. -/
structure Note where
  ID : String
  Typ : NoteType
  Content : String
  CreatedAt : Time
  UpdatedAt : Time
  Date : String
  Metadata : Metadata
deriving DecidableEq, Repr

/-! ## The parts of the Go library the store uses -/

/-- Model of `unicode.IsSpace`. -/
def isSpace (c : Char) : Bool :=
  let n := c.toNat
  (9 ≤ n && n ≤ 13) || n == 32 || n == 0x85 || n == 0xA0 || n == 0x1680 ||
  (0x2000 ≤ n && n ≤ 0x200A) || n == 0x2028 || n == 0x2029 || n == 0x202F ||
  n == 0x205F || n == 0x3000

/-- Model of `strings.TrimSpace`. -/
def TrimSpace (s : List Char) : List Char :=
  ((s.dropWhile isSpace).reverse.dropWhile isSpace).reverse

/-- Model of `strings.HasPrefix`. -/
def HasPrefix (s p : List Char) : Bool := p.isPrefixOf s

/-- Model of `strings.TrimPrefix`. -/
def TrimPrefix (s p : List Char) : List Char :=
  if HasPrefix s p then s.drop p.length else s

/-- The text before and after the first occurrence of `sep` in a string, if
there is one (`strings.Cut`). -/
def cut (sep : List Char) : List Char → Option (List Char × List Char)
  | [] => if sep.isEmpty then some ([], []) else none
  | c :: cs =>
    if sep.isPrefixOf (c :: cs) then some ([], (c :: cs).drop sep.length)
    else match cut sep cs with
      | some (a, b) => some (c :: a, b)
      | none => none

/-- Model of `strings.SplitN(s, sep, 2)` for a non-empty separator: the whole
string when `sep` does not occur, else the two parts around its first
occurrence. -/
def SplitN2 (s sep : List Char) : List (List Char) :=
  match cut sep s with
  | some (a, b) => [a, b]
  | none => [s]

/-- Model of `strings.Replace(s, old, new, 1)` for a non-empty `old`. -/
def Replace1 (s old new : List Char) : List Char :=
  match cut old s with
  | some (a, b) => a ++ new ++ b
  | none => s

/-- The elements of a path: the pieces between its slashes. A path without
a slash is one element. -/
def splitSlash (s : List Char) : List (List Char) :=
  s.foldr (fun c acc =>
    if c = '/' then [] :: acc
    else match acc with
      | [] => [[c]]
      | l :: ls => (c :: l) :: ls) [[]]

/-- One round of the loop of `filepath.Clean`, on the next path element: an
empty element and `.` are passed over; `..` takes back the element written
last when that is not `..` itself, is passed over at the root, and is written
otherwise; every other element is written. -/
def cleanStep (rooted : Bool) (out : List (List Char)) (elem : List Char) :
    List (List Char) :=
  if elem = [] ∨ elem = ['.'] then out
  else if elem = ['.', '.'] then
    match out.getLast? with
    | some last => if last = ['.', '.'] then out ++ [elem] else out.dropLast
    | none => if rooted then out else out ++ [elem]
  else out ++ [elem]

/-- The path elements joined by slashes. -/
def joinSlash : List (List Char) → List Char
  | [] => []
  | [a] => a
  | a :: b :: rest => a ++ '/' :: joinSlash (b :: rest)

/-- Model of `filepath.Clean` on Unix: the shortest path that names the same
place by its text alone. -/
def Clean (path : String) : String :=
  let rooted := decide (path.data.head? = some '/')
  let out := (splitSlash path.data).foldl (cleanStep rooted) []
  if rooted then String.mk ('/' :: joinSlash out)
  else if out = [] then "."
  else String.mk (joinSlash out)

/-- The characters that `filepath.Join` puts before a file name that is one
path element, when the element before it is `dir`: the slash of a rooted
path, and the elements that `filepath.Clean` keeps of `dir`, a slash after
each. -/
def cleanPrefix (dir : List Char) : List Char :=
  (if dir.head? = some '/' then ['/'] else []) ++
    (((splitSlash dir).foldl (cleanStep (decide (dir.head? = some '/'))) []).map
      (fun e => e ++ ['/'])).flatten

/-- Model of `filepath.Join(dir, name)`: the elements from the first that is
not empty on are joined by the separator and the result is cleaned. -/
def filepathJoin (dir name : String) : String :=
  if dir ≠ "" then Clean (dir ++ "/" ++ name)
  else if name ≠ "" then Clean name
  else ""

/-- Insertion of `x` into a list ordered by `less`, before the first element
that is not less than `x`. -/
def insertSorted {α : Type} (less : α → α → Bool) (x : α) : List α → List α
  | [] => [x]
  | y :: ys => if less y x then y :: insertSorted less x ys else x :: y :: ys

/-- Model of `sort.Slice`: the elements of the slice, ordered by `less`. Go
leaves the order of elements that compare equal unspecified; this model keeps
them in their original order. -/
def sortSlice {α : Type} (less : α → α → Bool) : List α → List α
  | [] => []
  | x :: xs => insertSorted less x (sortSlice less xs)

/-! ### `time.Parse` with the layout `15:04:05` -/

/-- The value of a decimal digit character. -/
def digitVal (c : Char) : Nat := c.toNat - 48

/-- Model of `getnum` of package `time`: a two digit number at the head of
the text, or a one digit number when the width is not fixed. -/
def getnum (s : List Char) (fixed : Bool) : Option (Nat × List Char) :=
  match s with
  | [] => none
  | [a] => if a.isDigit then (if fixed then none else some (digitVal a, [])) else none
  | a :: b :: rest =>
    if a.isDigit then
      if b.isDigit then some (digitVal a * 10 + digitVal b, rest)
      else if fixed then none else some (digitVal a, b :: rest)
    else none

/-- The number written by a list of decimal digits. -/
def digitsVal (ds : List Char) : Nat := ds.foldl (fun acc c => acc * 10 + digitVal c) 0

/-- Model of `commaOrPeriod` of package `time`. -/
def commaOrPeriod (c : Char) : Bool := c == '.' || c == ','

/-- The fractional second that `time.Parse` accepts after the seconds of a
layout without one: a period or comma followed by digits, of which the first
nine count (`parseNanoseconds`). Returns the nanoseconds and the rest of
the text. -/
def parseFraction (value : List Char) : Nat × List Char :=
  match value with
  | c :: d :: rest =>
    if commaOrPeriod c && d.isDigit then
      let digits := (d :: rest).takeWhile Char.isDigit
      let used := digits.take 9
      (digitsVal used * 10 ^ (9 - used.length), (d :: rest).drop digits.length)
    else (0, value)
  | _ => (0, value)

/-- Seconds from the Unix epoch back to 0000-01-01T00:00:00Z, the day on
which `time.Parse` places a clock time that has no date. -/
def yearZeroUnix : Int := -62167219200

/-- Model of `time.Parse("15:04:05", s)`: the hour has one or two digits and
is below 24, minute and second have two digits and are below 60, a fractional
second may follow, and nothing else. -/
def parseClock (s : List Char) : Option Time :=
  match getnum s false with
  | none => none
  | some (hour, v1) =>
    if 24 ≤ hour then none else
    match v1 with
    | ':' :: v2 =>
      match getnum v2 true with
      | none => none
      | some (min, v3) =>
        if 60 ≤ min then none else
        match v3 with
        | ':' :: v4 =>
          match getnum v4 true with
          | none => none
          | some (sec, v5) =>
            if 60 ≤ sec then none else
            match parseFraction v5 with
            | (nsec, []) =>
              some ((yearZeroUnix + (hour * 3600 + min * 60 + sec : Nat)) * 1000000000 + nsec)
            | (_, _ :: _) => none
        | _ => none
    | _ => none

/-! ### Calendar dates: `time.Parse` and `Time.Format` with the layout `2006-01-02`

A `time.Time` that stands for a calendar day (midnight UTC) is the number of
that day, counted from 0000-01-01 in the proleptic Gregorian calendar. -/

/-- Model of `isLeap` of package `time`. -/
def isLeap (year : Nat) : Bool := year % 4 == 0 && (year % 100 != 0 || year % 400 == 0)

/-- Model of `daysIn` of package `time`: the length of a month. -/
def daysIn (month year : Nat) : Nat :=
  if month = 2 then (if isLeap year then 29 else 28)
  else if month = 4 || month = 6 || month = 9 || month = 11 then 30
  else 31

/-- The days of a year before the first of a month. -/
def daysBefore (month year : Nat) : Nat :=
  ((List.range (month - 1)).map (fun i => daysIn (i + 1) year)).sum

/-- The days from 0000-01-01 to the first of January of a year. -/
def daysBeforeYear (year : Nat) : Nat :=
  365 * year + (year + 3) / 4 - (year + 99) / 100 + (year + 399) / 400

/-- The number of the day `year-month-day`. -/
def dayNumber (year month day : Nat) : Nat :=
  daysBeforeYear year + daysBefore month year + (day - 1)

/-- The year a day falls in. -/
def yearOfDay (n : Nat) : Nat :=
  let y := n * 400 / 146097
  if daysBeforeYear (y + 1) ≤ n then y + 1
  else if n < daysBeforeYear y then y - 1
  else y

/-- Month and day of the month of the day with number `yday` (from 0) within
a year. -/
def monthDay (year yday : Nat) : Nat × Nat :=
  (List.range 11).foldl (fun (acc : Nat × Nat) _ =>
    if daysIn acc.1 year < acc.2 then (acc.1 + 1, acc.2 - daysIn acc.1 year) else acc)
    (1, yday + 1)

/-- Year, month and day of a day number (`Time.Date`). -/
def civil (n : Nat) : Nat × Nat × Nat :=
  let y := yearOfDay n
  let md := monthDay y (n - daysBeforeYear y)
  (y, md.1, md.2)

/-- A number in decimal, padded with zeros to a width (`appendInt`). -/
def padded (width n : Nat) : List Char :=
  let ds := (Nat.toDigits 10 n)
  List.replicate (width - ds.length) '0' ++ ds

/-- Model of `t.Format("2006-01-02")` for a calendar day. -/
def formatDate (n : Nat) : String :=
  let c := civil n
  String.mk (padded 4 c.1 ++ ['-'] ++ padded 2 c.2.1 ++ ['-'] ++ padded 2 c.2.2)

/-- Model of `time.Parse("2006-01-02", s)`: four digits of year, two of
month, two of day, separated by hyphens, naming a day that exists. -/
def parseDate (s : String) : Option Nat :=
  match s.data with
  | y1 :: y2 :: y3 :: y4 :: rest =>
    if y1.isDigit && y2.isDigit && y3.isDigit && y4.isDigit then
      let year := digitsVal [y1, y2, y3, y4]
      match rest with
      | '-' :: v1 =>
        match getnum v1 true with
        | none => none
        | some (month, v2) =>
          if month = 0 || 12 < month then none else
          match v2 with
          | '-' :: v3 =>
            match getnum v3 true with
            | none => none
            | some (day, v4) =>
              if v4 ≠ [] then none
              else if day < 1 || daysIn month year < day then none
              else some (dayNumber year month day)
          | _ => none
      | _ => none
    else none
  | _ => none

/-! ### `bufio.Scanner` -/

/-- The pieces of a text between its line feeds; a text that ends in a line
feed has no empty last piece. -/
def splitLines (s : List Char) : List (List Char) :=
  s.foldr (fun c acc =>
    if c = '\n' then [] :: acc
    else match acc with
      | [] => [[c]]
      | l :: ls => (c :: l) :: ls) []

/-- Model of `dropCR` of package `bufio`: one carriage return at the end of a
line is dropped. -/
def dropCR (line : List Char) : List Char :=
  if line.getLast? = some '\r' then line.dropLast else line

/-- The size of a text in bytes (UTF-8). -/
def byteLen (s : List Char) : Nat := (s.map Char.utf8Size).sum

/-- The constant `bufio.MaxScanTokenSize`. -/
def MaxScanTokenSize : Nat := 64 * 1024

/-- Model of a `bufio.Scanner` run over a whole text with the default line
splitter: the lines of the text, or `none` when the scanner stops with
`ErrTooLong` because a line does not fit its buffer. -/
def scanLines (text : List Char) : Option (List (List Char)) :=
  let raw := splitLines text
  if raw.all (fun l => byteLen l < MaxScanTokenSize) then some (raw.map dropCR) else none

/-! ### The file system -/

/-- The content of a file, as the store reads it: either the JSON encoding of
a note array (what `json.Decoder.Decode` into `[]*Note` accepts, with the
array it yields), or other text, which the decoder rejects. -/
inductive FileData where
  | notes (l : List Note)
  | text (s : String)
deriving DecidableEq, Repr

/-- The result of `json.NewDecoder(file).Decode(&notes)`. -/
def FileData.decode : FileData → Option (List Note)
  | .notes l => some l
  | .text _ => none

/-- What a line scanner reads from the file. An encoded note array is read by
its outer brackets alone: the encoder writes one line per bracket, brace and
field, and the lines between the outer brackets start with a brace or a
quote. -/
def FileData.scanText : FileData → String
  | .notes _ => "[\n]\n"
  | .text s => s

/-- A directory entry that is not a directory: a file with its content and
whether it may be written, an entry that can neither be opened nor created
(for want of permission, say), or a file that can be read but that the system
lets nobody write or remove (a file in a directory that allows no change, or
one that is held open where open files cannot be removed). -/
inductive Entry where
  | file (data : FileData) (writable : Bool)
  | denied
  | kept (data : FileData)
deriving DecidableEq, Repr

/-- The file system: the entry at each path, `none` where nothing exists.
Directories are implicit: they have no entry, and an entry at a path says
that the path is not a directory. -/
abbrev FS := String → Option Entry

/-- The errors of the store, by the place that raises them. -/
inductive StoreError where
  | createDir
  | openFile (path : String)
  | openTextFile (path : String)
  | readTextFile
  | createFile (path : String)
  | encodeNotes
  | readExisting (cause : StoreError)
  | writeNotes (cause : StoreError)
  | migrateWrite (cause : StoreError)
  | invalidStartDate
  | invalidEndDate
  | invalidMonth
  | deleteNotSupported
deriving DecidableEq, Repr

deriving instance DecidableEq for Except

/-- The prefixes of a path that end before one of its slashes, the empty one
left out, each after the text `pre`. -/
def ancestorsFrom (pre : List Char) : List Char → List (List Char)
  | [] => []
  | c :: cs =>
    if c = '/' ∧ pre ≠ [] then pre :: ancestorsFrom (pre ++ [c]) cs
    else ancestorsFrom (pre ++ [c]) cs

/-- The directories that the system walks through to reach a path, the root
left out. -/
def ancestors (path : String) : List String :=
  (ancestorsFrom [] path.data).map String.mk

/-- Whether the way to a path leads through something that is not a
directory: opening or creating the path then fails with `ENOTDIR`, which is
not an error of the kind `os.IsNotExist`. -/
def Blocked (fs : FS) (path : String) : Bool :=
  (ancestors path).any (fun a => (fs a).isSome)

/-- What `os.Open` gives: the file, open for reading, with what can be read
from it; an error of the kind `os.IsNotExist`; or another error. -/
inductive OpenResult where
  | opened (data : FileData)
  | notExist
  | failed
deriving DecidableEq, Repr

/-- Model of `os.Open`. -/
def Open (fs : FS) (path : String) : OpenResult :=
  match fs path with
  | some (.file data _) => .opened data
  | some (.kept data) => .opened data
  | some .denied => .failed
  | none => if Blocked fs path then .failed else .notExist

/-- Model of `os.MkdirAll`: it fails on the empty path, and when the path or
a directory on the way to it is taken by something that is not a directory;
otherwise it leaves the files as they are. -/
def MkdirAll (fs : FS) (dir : String) : Except StoreError FS :=
  if dir = "" then .error .createDir
  else
    match fs (Clean dir) with
    | some _ => .error .createDir
    | none => if Blocked fs (Clean dir) then .error .createDir else .ok fs

/-- Model of `os.Remove` on a path: the entry is gone afterwards, unless the
system keeps it. -/
def Remove (fs : FS) (path : String) : FS :=
  match fs path with
  | some (.kept _) => fs
  | _ => Function.update fs path none

/-- The first second of the year 10000, in seconds since the Unix epoch. -/
def yearTenThousandUnix : Int := 253402300800

/-- Whether `Time.MarshalJSON` takes a time: its year, in UTC, is from 0 to
9999. -/
def marshalable (t : Time) : Bool :=
  decide (yearZeroUnix * 1000000000 ≤ t) && decide (t < yearTenThousandUnix * 1000000000)

/-- Whether the encoder takes a note: it takes each of its times. -/
def Note.encodable (n : Note) : Bool :=
  marshalable n.CreatedAt && marshalable n.UpdatedAt &&
    match n.Metadata.DueDate with
    | none => true
    | some t => marshalable t

/-! ## repository/file_repository.go -/

/-- The `fileRepository` struct. -/
structure fileRepository where
  notesDir : String
deriving DecidableEq, Repr

/-- `NewFileRepository`. -/
def NewFileRepository (notesDir : String) : fileRepository := { notesDir := notesDir }

/-- The path of the JSON file of a date: `filepath.Join(r.notesDir, date + ".json")`. -/
def fileRepository.bucketPath (r : fileRepository) (date : String) : String :=
  filepathJoin r.notesDir (date ++ ".json")

/-- The part of `writeNotesToFile` after `os.Create` has truncated or created
the file: the notes are encoded into it, and when the encoder refuses one of
them the file stays empty. -/
def encodeInto (fs : FS) (filepath : String) (notes : List Note) :
    Except StoreError Unit × FS :=
  if notes.all Note.encodable then
    (.ok (), Function.update fs filepath (some (.file (.notes notes) true)))
  else (.error .encodeNotes, Function.update fs filepath (some (.file (.text "") true)))

/-- `writeNotesToFile`: `os.Create` truncates or creates the file, then the
notes are encoded into it. -/
def writeNotesToFile (fs : FS) (filepath : String) (notes : List Note) :
    Except StoreError Unit × FS :=
  match fs filepath with
  | some .denied => (.error (.createFile filepath), fs)
  | some (.kept _) => (.error (.createFile filepath), fs)
  | some (.file _ false) => (.error (.createFile filepath), fs)
  | some (.file _ true) => encodeInto fs filepath notes
  | none =>
    if Blocked fs filepath then (.error (.createFile filepath), fs)
    else encodeInto fs filepath notes

/-- The body of the scanner loop of `migrateFromTextFormat`: the note made
from one line of the legacy file, or `none` where the loop goes on without
adding one. -/
def legacyNote (date : String) (text : List Char) : Option Note :=
  let line := TrimSpace text
  if line = [] then none
  else if HasPrefix line ['['] then
    match SplitN2 line [']', ' '] with
    | [p0, p1] =>
      let timeStr := TrimPrefix p0 ['[']
      let content := p1
      match parseClock timeStr with
      | none => none
      | some createdAt =>
        some { ID := date ++ "-" ++ String.mk timeStr,
               Typ := NoteTypeText,
               Content := String.mk content,
               CreatedAt := createdAt,
               UpdatedAt := createdAt,
               Date := date,
               Metadata := Metadata.empty }
    | _ => none
  else none

/-- The scanner loop of `migrateFromTextFormat`, over the lines scanned. -/
def migrateLines (date : String) (lines : List (List Char)) : List Note :=
  lines.foldl (fun notes line =>
    match legacyNote date line with
    | some note => notes ++ [note]
    | none => notes) []

/-- The path of the legacy file: `strings.Replace(filepath, ".json", ".txt", 1)`. -/
def textPath (filepath : String) : String :=
  String.mk (Replace1 filepath.data ".json".data ".txt".data)

/-- `migrateFromTextFormat`. -/
def migrateFromTextFormat (fs : FS) (filepath date : String) :
    Except StoreError (List Note) × FS :=
  let textFilepath := textPath filepath
  match Open fs textFilepath with
  | .notExist => (.ok [], fs)
  | .failed => (.error (.openTextFile textFilepath), fs)
  | .opened data =>
    match scanLines data.scanText.data with
    | none => (.error .readTextFile, fs)
    | some lines =>
      let notes := migrateLines date lines
      if 0 < notes.length then
        match writeNotesToFile fs filepath notes with
        | (.error e, fs1) => (.error (.migrateWrite e), fs1)
        | (.ok _, fs1) => (.ok notes, Remove fs1 textFilepath)
      else (.ok notes, fs)

/-- Whether a note is a pending reminder, as the comparator of
`readNotesFromFile` computes it. -/
def isReminderPending (n : Note) : Bool :=
  n.Typ == NoteTypeReminder && (n.Metadata.Status == StatusToDo || n.Metadata.Status == "")

/-- Model of `Time.After`. -/
def After (t u : Time) : Bool := decide (u < t)

/-- The comparator that `readNotesFromFile` passes to `sort.Slice`. -/
def bucketLess (ni nj : Note) : Bool :=
  let isReminderPendingI := isReminderPending ni
  let isReminderPendingJ := isReminderPending nj
  if isReminderPendingI && !isReminderPendingJ then true
  else if !isReminderPendingI && isReminderPendingJ then false
  else if isReminderPendingI && isReminderPendingJ then After ni.UpdatedAt nj.UpdatedAt
  else After ni.UpdatedAt nj.UpdatedAt

/-- `readNotesFromFile`. -/
def readNotesFromFile (fs : FS) (filepath date : String) :
    Except StoreError (List Note) × FS :=
  match Open fs filepath with
  | .notExist => (.ok [], fs)
  | .failed => (.error (.openFile filepath), fs)
  | .opened data =>
    match data.decode with
    | none => migrateFromTextFormat fs filepath date
    | some notes => (.ok (sortSlice bucketLess notes), fs)

/-- The update loop of `Save`: the first note with the ID of `note` is
replaced by it; the flag tells whether there was one. -/
def replaceByID (note : Note) : List Note → List Note × Bool
  | [] => ([], false)
  | existingNote :: rest =>
    if existingNote.ID = note.ID then (note :: rest, true)
    else ((existingNote :: (replaceByID note rest).1), (replaceByID note rest).2)

/-- The notes that `Save` writes back: `note` in the place of the first note
with its ID, or at the end when there is none. -/
def upsert (notes : List Note) (note : Note) : List Note :=
  if (replaceByID note notes).2 then (replaceByID note notes).1
  else (replaceByID note notes).1 ++ [note]

/-- `Save`. -/
def Save (r : fileRepository) (fs : FS) (note : Note) : Except StoreError Unit × FS :=
  match MkdirAll fs r.notesDir with
  | .error _ => (.error .createDir, fs)
  | .ok fs0 =>
    let filepath := r.bucketPath note.Date
    match readNotesFromFile fs0 filepath note.Date with
    | (.error e, fs1) => (.error (.readExisting e), fs1)
    | (.ok notes, fs1) =>
      match writeNotesToFile fs1 filepath (upsert notes note) with
      | (.error e, fs2) => (.error (.writeNotes e), fs2)
      | (.ok _, fs2) => (.ok (), fs2)

/-- `GetNotesByDate`. -/
def GetNotesByDate (r : fileRepository) (fs : FS) (date : String) :
    Except StoreError (List Note) × FS :=
  readNotesFromFile fs (r.bucketPath date) date

/-- The comparator that `GetNotesByDateRange` passes to `sort.Slice`. -/
def rangeLess (ni nj : Note) : Bool := After ni.UpdatedAt nj.UpdatedAt

/-- The loop of `GetNotesByDateRange` over the days of the range: the notes
of each day are appended to those gathered so far, and a day whose bucket
cannot be read is passed over. -/
def rangeLoop (r : fileRepository) : FS → List Nat → List Note → List Note × FS
  | fs, [], allNotes => (allNotes, fs)
  | fs, d :: ds, allNotes =>
    match GetNotesByDate r fs (formatDate d) with
    | (.error _, fs1) => rangeLoop r fs1 ds allNotes
    | (.ok notes, fs1) => rangeLoop r fs1 ds (allNotes ++ notes)

/-- The days `start, start + 1, ..., end` that the loop
`for d := start; !d.After(end); d = d.AddDate(0, 0, 1)` visits. -/
def daysOfRange (start stop : Nat) : List Nat := List.range' start (stop + 1 - start)

/-- `GetNotesByDateRange`. -/
def GetNotesByDateRange (r : fileRepository) (fs : FS) (startDate endDate : String) :
    Except StoreError (List Note) × FS :=
  match parseDate startDate with
  | none => (.error .invalidStartDate, fs)
  | some start =>
    match parseDate endDate with
    | none => (.error .invalidEndDate, fs)
    | some stop =>
      let (allNotes, fs1) := rangeLoop r fs (daysOfRange start stop) []
      (.ok (sortSlice rangeLess allNotes), fs1)

/-- Model of `time.Parse("2006-01", s)`: four digits of year and two of
month, separated by a hyphen. Returns the year and the month. -/
def parseMonth (s : String) : Option (Nat × Nat) :=
  match s.data with
  | y1 :: y2 :: y3 :: y4 :: rest =>
    if y1.isDigit && y2.isDigit && y3.isDigit && y4.isDigit then
      let year := digitsVal [y1, y2, y3, y4]
      match rest with
      | '-' :: v1 =>
        match getnum v1 true with
        | none => none
        | some (month, v2) =>
          if month = 0 || 12 < month then none
          else if v2 ≠ [] then none
          else some (year, month)
      | _ => none
    else none
  | _ => none

/-- Model of `time.Date(year, month+1, 0, 0, 0, 0, 0, loc)`: the day before
the first of the month after `month`, where the month after December is the
January of the next year. -/
def lastDayOfMonth (year month : Nat) : Nat :=
  (if month = 12 then dayNumber (year + 1) 1 1 else dayNumber year (month + 1) 1) - 1

/-- `GetNotesByMonth`. -/
def GetNotesByMonth (r : fileRepository) (fs : FS) (monthStr : String) :
    Except StoreError (List Note) × FS :=
  match parseMonth monthStr with
  | none => (.error .invalidMonth, fs)
  | some (year, month) =>
    let startDate := dayNumber year month 1
    let endDate := lastDayOfMonth year month
    GetNotesByDateRange r fs (formatDate startDate) (formatDate endDate)

/-- `DeleteNote`. -/
def DeleteNote (_r : fileRepository) (fs : FS) (_id : String) : Except StoreError Unit × FS :=
  (.error .deleteNotSupported, fs)

/-! ## The clock and the constructors of entities/note.go -/

/-- The readings that one call takes from the clock: `now` is what the first
`time.Now()` of the call returns, `idNow` what the `time.Now()` of
`generateID` returns after it, and `zone` is the offset of the local time zone
from UTC at `now`, in seconds. -/
structure Clock where
  now : Time
  idNow : Time
  zone : Int
deriving DecidableEq, Repr

/-- Model of `now.Format("2006-01-02")` for a local time of year 0 or later:
the text of the calendar day that the instant falls on in the local zone. The
day with number 719528 is 1970-01-01. -/
def Clock.today (c : Clock) : String :=
  formatDate ((c.now / 1000000000 + c.zone) / 86400 + 719528).toNat

/-- `generateID`: the nanoseconds of the clock since the Unix epoch, in
decimal. -/
def generateID (c : Clock) : String := toString c.idNow

/-- `NewNote`. -/
def NewNote (c : Clock) (content : String) : Note :=
  { ID := generateID c,
    Typ := NoteTypeText,
    Content := content,
    CreatedAt := c.now,
    UpdatedAt := c.now,
    Date := c.today,
    Metadata := Metadata.empty }

/-- `Note.String`. The text of `n.CreatedAt.Format("15:04:05")` depends on the
location that the time value carries, which the model of `time.Time` leaves
out; it is taken as the parameter `clockText`. -/
def Note.String (clockText : Time → String) (n : Note) : String :=
  let base := "[" ++ clockText n.CreatedAt ++ "] " ++ n.Content
  if n.Typ = NoteTypeTask then
    base ++ " [" ++ n.Metadata.Priority ++ ", " ++ n.Metadata.Status ++ "]"
  else if n.Typ = NoteTypeContact then
    if n.Metadata.Phone ≠ "" then base ++ " [" ++ n.Metadata.Phone ++ "]"
    else if n.Metadata.Email ≠ "" then base ++ " [" ++ n.Metadata.Email ++ "]"
    else base
  else if n.Typ = NoteTypeReminder then
    let timeStr := if n.Metadata.ReminderTime = "" then "09:00" else n.Metadata.ReminderTime
    base ++ " [" ++ timeStr ++ ", " ++ n.Metadata.Status ++ "]"
  else base

/-- Model of `t.Format("15:04:05")` for a time whose location is `zone`
seconds east of UTC. -/
def clockText (zone : Int) (t : Time) : String :=
  let secs := ((t / 1000000000 + zone) % 86400).toNat
  String.mk (padded 2 (secs / 3600) ++ [':'] ++ padded 2 (secs / 60 % 60) ++ [':'] ++
    padded 2 (secs % 60))

/-! ## ports/note_repository.go and services/note_service.go -/

/-- The `NoteRepository` interface, over the state `σ` of the store behind
it. -/
structure NoteRepository (σ : Type) where
  Save : σ → Note → Except StoreError Unit × σ
  GetNotesByDate : σ → String → Except StoreError (List Note) × σ
  GetNotesByDateRange : σ → String → String → Except StoreError (List Note) × σ
  GetTodayNotes : σ → Clock → Except StoreError (List Note) × σ
  GetNotesByMonth : σ → String → Except StoreError (List Note) × σ
  DeleteNote : σ → String → Except StoreError Unit × σ

/-- `GetTodayNotes` of the file repository. -/
def GetTodayNotes (r : fileRepository) (fs : FS) (c : Clock) :
    Except StoreError (List Note) × FS :=
  GetNotesByDate r fs c.today

/-- The file repository as an implementation of the interface. -/
def fileRepository.asRepository (r : fileRepository) : NoteRepository FS :=
  { Save := Save r,
    GetNotesByDate := GetNotesByDate r,
    GetNotesByDateRange := GetNotesByDateRange r,
    GetTodayNotes := GetTodayNotes r,
    GetNotesByMonth := GetNotesByMonth r,
    DeleteNote := DeleteNote r }

/-- The `noteService` struct. -/
structure noteService (σ : Type) where
  repository : NoteRepository σ

/-- `NewNoteService`. -/
def NewNoteService {σ : Type} (repository : NoteRepository σ) : noteService σ :=
  { repository := repository }

/-- The errors of the service, by the place that raises them. -/
inductive ServiceError where
  | emptyContent
  | saveFailed (cause : StoreError)
  | todayFailed (cause : StoreError)
  | invalidDateFormat
  | dateFailed (date : String) (cause : StoreError)
  | invalidMonthFormat
  | monthFailed (month : String) (cause : StoreError)
deriving DecidableEq, Repr

/-- `noteService.CreateNote`. -/
def noteService.CreateNote {σ : Type} (s : noteService σ) (st : σ) (c : Clock)
    (content : String) : Except ServiceError Note × σ :=
  if TrimSpace content.data = [] then (.error .emptyContent, st)
  else
    let note := NewNote c content
    match s.repository.Save st note with
    | (.error e, st1) => (.error (.saveFailed e), st1)
    | (.ok _, st1) => (.ok note, st1)

/-- `noteService.SaveNote`. The note is passed by pointer and updated in
place: the second component of the result is the note as the caller sees it
after the call. -/
def noteService.SaveNote {σ : Type} (s : noteService σ) (st : σ) (c : Clock)
    (note : Note) : Except ServiceError Unit × Note × σ :=
  if TrimSpace note.Content.data = [] then (.error .emptyContent, note, st)
  else
    let note1 := { note with UpdatedAt := c.now }
    match s.repository.Save st note1 with
    | (.error e, st1) => (.error (.saveFailed e), note1, st1)
    | (.ok _, st1) => (.ok (), note1, st1)

/-- `noteService.GetTodayNotes`. -/
def noteService.GetTodayNotes {σ : Type} (s : noteService σ) (st : σ) (c : Clock) :
    Except ServiceError (List Note) × σ :=
  match s.repository.GetTodayNotes st c with
  | (.error e, st1) => (.error (.todayFailed e), st1)
  | (.ok notes, st1) => (.ok notes, st1)

/-- `noteService.GetNotesByDate`. -/
def noteService.GetNotesByDate {σ : Type} (s : noteService σ) (st : σ) (date : String) :
    Except ServiceError (List Note) × σ :=
  match parseDate date with
  | none => (.error .invalidDateFormat, st)
  | some _ =>
    match s.repository.GetNotesByDate st date with
    | (.error e, st1) => (.error (.dateFailed date e), st1)
    | (.ok notes, st1) => (.ok notes, st1)

/-- `noteService.GetNotesByMonth`. -/
def noteService.GetNotesByMonth {σ : Type} (s : noteService σ) (st : σ) (monthStr : String) :
    Except ServiceError (List Note) × σ :=
  match parseMonth monthStr with
  | none => (.error .invalidMonthFormat, st)
  | some _ =>
    match s.repository.GetNotesByMonth st monthStr with
    | (.error e, st1) => (.error (.monthFailed monthStr e), st1)
    | (.ok notes, st1) => (.ok notes, st1)

/-- The loop of `ListNotes`: one numbered line per note is written to the
builder. -/
def listLoop (clockText : Time → String) : List Note → Nat → String → String
  | [], _, result => result
  | note :: rest, i, result =>
    listLoop clockText rest (i + 1)
      (result ++ (toString (i + 1) ++ ". " ++ note.String clockText ++ "\n"))

/-- `noteService.ListNotes`. -/
def ListNotes (clockText : Time → String) (notes : List Note) : String :=
  if notes.length = 0 then "No notes found."
  else listLoop clockText notes 0 ("📝 Notes (" ++ toString notes.length ++ " found):\n\n")

/-! ## cli/cli.go: the delete routine of the front-end -/

/-- Whether a note is a pending reminder in the words of the data model: its
type is `reminder` and its status is empty or `por_hacer`. -/
def pendingReminder (n : Note) : Bool :=
  decide (n.Typ = "reminder") &&
    (decide (n.Metadata.Status = "") || decide (n.Metadata.Status = "por_hacer"))

/-- No element of the list is less than an earlier one. -/
def Ordered {α : Type} (less : α → α → Bool) (l : List α) : Prop :=
  l.Pairwise (fun a b => less b a = false)

/-- The notes of a result, none when it is an error. -/
def notesOf : Except StoreError (List Note) → List Note
  | .ok l => l
  | .error _ => []

/-- The characters that `filepath.Join` puts before the file name. -/
def dirPrefix (r : fileRepository) : List Char := cleanPrefix r.notesDir.data

/-- A date text whose paths the store keeps apart from those of other such
dates: ten characters, none of them in `.json` and none a slash. -/
def CleanDate (date : String) : Prop :=
  date.data.length = 10 ∧ (∀ c ∈ date.data, c ∉ ".json".data) ∧ '/' ∉ date.data

/-- A valid calendar date written `YYYY-MM-DD`: four digits, a hyphen, two
digits of a month from 01 to 12, a hyphen, and two digits of a day that the
month has in that year. -/
def isValidDateText (s : String) : Bool :=
  match s.data with
  | [y1, y2, y3, y4, '-', m1, m2, '-', d1, d2] =>
    y1.isDigit && y2.isDigit && y3.isDigit && y4.isDigit &&
    m1.isDigit && m2.isDigit && d1.isDigit && d2.isDigit &&
    decide (1 ≤ digitVal m1 * 10 + digitVal m2) &&
    decide (digitVal m1 * 10 + digitVal m2 ≤ 12) &&
    decide (1 ≤ digitVal d1 * 10 + digitVal d2) &&
    decide (digitVal d1 * 10 + digitVal d2 ≤
      daysIn (digitVal m1 * 10 + digitVal m2)
        (digitVal y1 * 1000 + digitVal y2 * 100 + digitVal y3 * 10 + digitVal y4))
  | _ => false

/-- A valid month written `YYYY-MM`: four digits, a hyphen, and two digits
of a month from 01 to 12. -/
def isValidMonthText (s : String) : Bool :=
  match s.data with
  | [y1, y2, y3, y4, '-', m1, m2] =>
    y1.isDigit && y2.isDigit && y3.isDigit && y4.isDigit &&
    m1.isDigit && m2.isDigit &&
    decide (1 ≤ digitVal m1 * 10 + digitVal m2) &&
    decide (digitVal m1 * 10 + digitVal m2 ≤ 12)
  | _ => false

/-- The notes of the list have pairwise distinct IDs. -/
def UniqueIDs (l : List Note) : Prop := (l.map (fun n => n.ID)).Nodup

/-- Every bucket file of the file system holds notes with pairwise distinct
IDs. -/
def AllBucketsUnique (fs : FS) : Prop :=
  ∀ path l w, fs path = some (.file (.notes l) w) → UniqueIDs l

/-- The file system after a sequence of calls of `Save`, whether they succeed
or not. -/
def saveAll (r : fileRepository) : FS → List Note → FS
  | fs, [] => fs
  | fs, n :: ns => saveAll r (Save r fs n).2 ns

/-! ## Example data -/

/-- A repository rooted at `/notes`. -/
def exRepo : fileRepository := NewFileRepository "/notes"

/-- A text note of 2025-01-01. -/
def exNoteA : Note :=
  { ID := "1735725600000000001", Typ := NoteTypeText, Content := "buy milk",
    CreatedAt := 1735725600000000001, UpdatedAt := 1735725600000000001,
    Date := "2025-01-01", Metadata := Metadata.empty }

/-- A second text note of 2025-01-01, written later. -/
def exNoteB : Note :=
  { ID := "1735729200000000002", Typ := NoteTypeText, Content := "call the bank",
    CreatedAt := 1735729200000000002, UpdatedAt := 1735729200000000002,
    Date := "2025-01-01", Metadata := Metadata.empty }

/-- The note `exNoteA` after an edit: same ID, new content and update time. -/
def exNoteA2 : Note :=
  { exNoteA with Content := "buy oat milk", UpdatedAt := 1735732800000000003 }

/-- A file system whose only file is the bucket of 2025-01-01, holding
`exNoteA` and `exNoteB`. -/
def exFS : FS := fun path =>
  if path = "/notes/2025-01-01.json" then some (.file (.notes [exNoteA, exNoteB]) true)
  else none

/-- The empty file system. -/
def emptyFS : FS := fun _ => none

/-- A pending reminder of 2025-01-02, the oldest of the three notes of that
day. -/
def exPending : Note :=
  { ID := "1735808400000000001", Typ := NoteTypeReminder, Content := "dentist",
    CreatedAt := 1735808400000000001, UpdatedAt := 1735808400000000001,
    Date := "2025-01-02",
    Metadata := { Metadata.empty with ReminderTime := "09:00", Status := StatusToDo } }

/-- A completed reminder of 2025-01-02, updated after `exPending`. -/
def exCompleted : Note :=
  { ID := "1735812000000000002", Typ := NoteTypeReminder, Content := "pay rent",
    CreatedAt := 1735812000000000002, UpdatedAt := 1735812000000000002,
    Date := "2025-01-02",
    Metadata := { Metadata.empty with ReminderTime := "10:00", Status := StatusCompleted } }

/-- A task of 2025-01-02, updated last. -/
def exTask : Note :=
  { ID := "1735815600000000003", Typ := NoteTypeTask, Content := "write report",
    CreatedAt := 1735815600000000003, UpdatedAt := 1735815600000000003,
    Date := "2025-01-02",
    Metadata := { Metadata.empty with Priority := PriorityHigh, Status := StatusToDo } }

/-- A file system with the bucket of 2025-01-02, holding the completed
reminder, the task and the pending reminder, in that order. -/
def exFS2 : FS := fun path =>
  if path = "/notes/2025-01-02.json" then
    some (.file (.notes [exCompleted, exTask, exPending]) true)
  else none

/-- The text of a legacy file: a well-formed line and a malformed one. -/
def exLegacyText : String := "[09:00:00] buy milk\nnot a note\n"

/-- A file system whose only file is the legacy text file of 2025-01-03. -/
def exFSLegacyOnly : FS := fun path =>
  if path = "/notes/2025-01-03.txt" then some (.file (.text exLegacyText) true)
  else none

/-- A file system with the legacy text file of 2025-01-03 and an empty JSON
file for that date, which does not decode. -/
def exFSMigrate : FS := fun path =>
  if path = "/notes/2025-01-03.json" then some (.file (.text "") true)
  else if path = "/notes/2025-01-03.txt" then some (.file (.text exLegacyText) true)
  else none

/-- The note that the first line of `exLegacyText` migrates to. -/
def exMigrated : Note :=
  { ID := "2025-01-03-09:00:00", Typ := NoteTypeText, Content := "buy milk",
    CreatedAt := -62167186800000000000, UpdatedAt := -62167186800000000000,
    Date := "2025-01-03", Metadata := Metadata.empty }

/-- A note of the last day of February 2025. -/
def exFebNote : Note :=
  { ID := "1740736800000000001", Typ := NoteTypeText, Content := "end of month",
    CreatedAt := 1740736800000000001, UpdatedAt := 1740736800000000001,
    Date := "2025-02-28", Metadata := Metadata.empty }

/-- A note of the first day of March 2025. -/
def exMarNote : Note :=
  { ID := "1740823200000000002", Typ := NoteTypeText, Content := "start of month",
    CreatedAt := 1740823200000000002, UpdatedAt := 1740823200000000002,
    Date := "2025-03-01", Metadata := Metadata.empty }

/-- A file system with the buckets of 2025-02-28 and 2025-03-01, one note
each. -/
def exFSMonth : FS := fun path =>
  if path = "/notes/2025-02-28.json" then some (.file (.notes [exFebNote]) true)
  else if path = "/notes/2025-03-01.json" then some (.file (.notes [exMarNote]) true)
  else none

/-- A repository that counts the calls of `Save` and holds no notes. -/
def countingRepository : NoteRepository Nat :=
  { Save := fun k _ => (.ok (), k + 1),
    GetNotesByDate := fun k _ => (.ok [], k),
    GetNotesByDateRange := fun k _ _ => (.ok [], k),
    GetTodayNotes := fun k _ => (.ok [], k),
    GetNotesByMonth := fun k _ => (.ok [], k),
    DeleteNote := fun k _ => (.error .deleteNotSupported, k) }

/-- The clock at 2025-01-01T10:00:00Z in a zone one hour east of UTC. -/
def exClock : Clock :=
  { now := 1735725600000000001, idNow := 1735725600000000777, zone := 3600 }

/-! ## Further notions used in the statements -/

/-- One line of the listing: the number of the note, counted from 1, and its
rendering. -/
def listLine (clockText : Time → String) (p : Nat × Note) : String :=
  toString (p.1 + 1) ++ ". " ++ p.2.String clockText ++ "\n"

/-- Every entry of the file system is a writable bucket file that holds notes
with pairwise distinct IDs, or a writable file left empty by an encoder that
refused a note: the state of a store that only `Save` has written to. -/
def SavedStore (fs : FS) : Prop :=
  ∀ path e, fs path = some e →
    (∃ l, e = .file (.notes l) true ∧ UniqueIDs l) ∨ e = .file (.text "") true

/-! ## Further example data -/

/-- A reminder of 2025-01-06 whose status is the text `to-do`. -/
def exToDoReminder : Note :=
  { ID := "1736150400000000001", Typ := NoteTypeReminder, Content := "call the bank",
    CreatedAt := 1736150400000000001, UpdatedAt := 1736150400000000001,
    Date := "2025-01-06", Metadata := { Metadata.empty with Status := "to-do" } }

/-- A reminder of 2025-01-06 whose status is `StatusToDo`. -/
def exPorHacerReminder : Note :=
  { ID := "1736150400000000002", Typ := NoteTypeReminder, Content := "pay the rent",
    CreatedAt := 1736150400000000002, UpdatedAt := 1736150400000000002,
    Date := "2025-01-06", Metadata := { Metadata.empty with Status := StatusToDo } }

/-- A text note of 2025-01-06, updated after the two reminders. -/
def exLaterText : Note :=
  { ID := "1736154000000000003", Typ := NoteTypeText, Content := "later note",
    CreatedAt := 1736154000000000003, UpdatedAt := 1736154000000000003,
    Date := "2025-01-06", Metadata := Metadata.empty }

/-- A file system whose only file is the bucket of 2025-01-06, with the
reminder of status `to-do` and the later text note. -/
def exFSToDo : FS := fun path =>
  if path = "/notes/2025-01-06.json" then
    some (.file (.notes [exToDoReminder, exLaterText]) true)
  else none

/-- A file system whose only file is the bucket of 2025-01-06, with the later
text note and the reminder of status `StatusToDo`. -/
def exFSPorHacer : FS := fun path =>
  if path = "/notes/2025-01-06.json" then
    some (.file (.notes [exLaterText, exPorHacerReminder]) true)
  else none

/-- The text of a legacy file with two well-formed lines, the earlier time
first. -/
def exTwoLineText : String := "[09:00:00] first\n[10:00:00] second\n"

/-- A file system with the legacy text file of 2025-01-05 and an empty JSON
file for that date, which does not decode. -/
def exFSTwoLines : FS := fun path =>
  if path = "/notes/2025-01-05.json" then some (.file (.text "") true)
  else if path = "/notes/2025-01-05.txt" then some (.file (.text exTwoLineText) true)
  else none

/-- The note that the first line of `exTwoLineText` migrates to. -/
def exFirstLine : Note :=
  { ID := "2025-01-05-09:00:00", Typ := NoteTypeText, Content := "first",
    CreatedAt := -62167186800000000000, UpdatedAt := -62167186800000000000,
    Date := "2025-01-05", Metadata := Metadata.empty }

/-- The note that the second line of `exTwoLineText` migrates to. -/
def exSecondLine : Note :=
  { ID := "2025-01-05-10:00:00", Typ := NoteTypeText, Content := "second",
    CreatedAt := -62167183200000000000, UpdatedAt := -62167183200000000000,
    Date := "2025-01-05", Metadata := Metadata.empty }

/-- The text of a legacy file with two well-formed lines of the same time. -/
def exTwinText : String := "[09:00:00] first\n[09:00:00] second\n"

/-- A file system with the legacy text file of 2025-01-07 and an empty JSON
file for that date, which does not decode. -/
def exFSTwins : FS := fun path =>
  if path = "/notes/2025-01-07.json" then some (.file (.text "") true)
  else if path = "/notes/2025-01-07.txt" then some (.file (.text exTwinText) true)
  else none

/-- The note that the first line of `exTwinText` migrates to. -/
def exTwinA : Note :=
  { ID := "2025-01-07-09:00:00", Typ := NoteTypeText, Content := "first",
    CreatedAt := -62167186800000000000, UpdatedAt := -62167186800000000000,
    Date := "2025-01-07", Metadata := Metadata.empty }

/-- The note that the second line of `exTwinText` migrates to. -/
def exTwinB : Note :=
  { ID := "2025-01-07-09:00:00", Typ := NoteTypeText, Content := "second",
    CreatedAt := -62167186800000000000, UpdatedAt := -62167186800000000000,
    Date := "2025-01-07", Metadata := Metadata.empty }

/-- A repository rooted at a directory whose path contains `.json`. -/
def exJsonDirRepo : fileRepository := NewFileRepository "/data.json/notes"

/-- A file system with the legacy text file of 2025-01-08 in the directory of
`exJsonDirRepo`, holding one well-formed line, and an empty JSON file for
that date, which does not decode. -/
def exFSJsonDir : FS := fun path =>
  if path = "/data.json/notes/2025-01-08.json" then some (.file (.text "") true)
  else if path = "/data.json/notes/2025-01-08.txt" then
    some (.file (.text "[09:00:00] buy milk\n") true)
  else none

/-- The note that the line `[09:00:00] buy milk` migrates to in the bucket of
2025-01-08. -/
def exMilk8 : Note :=
  { ID := "2025-01-08-09:00:00", Typ := NoteTypeText, Content := "buy milk",
    CreatedAt := -62167186800000000000, UpdatedAt := -62167186800000000000,
    Date := "2025-01-08", Metadata := Metadata.empty }

/-- A file system with an empty JSON file for 2025-01-08 in the directory of
`exJsonDirRepo` and a file of one well-formed line at the path
`/data.txt/notes/2025-01-08.json`. -/
def exFSJsonDirOther : FS := fun path =>
  if path = "/data.json/notes/2025-01-08.json" then some (.file (.text "") true)
  else if path = "/data.txt/notes/2025-01-08.json" then
    some (.file (.text "[09:00:00] buy milk\n") true)
  else none

/-- The characters of a legacy line of 65536 letters, one more than a line
scanner takes. -/
def exLongLineChars : List Char := List.replicate 65536 'x'

/-- The text of a legacy file whose only line is `exLongLineChars`. -/
def exLongLine : String := String.mk exLongLineChars

/-- A file system with the legacy text file of 2025-01-09, which holds the
long line, and an empty JSON file for that date, which does not decode. -/
def exFSLongLine : FS := fun path =>
  if path = "/notes/2025-01-09.json" then some (.file (.text "") true)
  else if path = "/notes/2025-01-09.txt" then some (.file (.text exLongLine) true)
  else none

/-- A file system with a legacy text file of 2025-01-10 that holds a blank
line and a malformed line, and an empty JSON file for that date. -/
def exFSBlankLegacy : FS := fun path =>
  if path = "/notes/2025-01-10.json" then some (.file (.text "") true)
  else if path = "/notes/2025-01-10.txt" then some (.file (.text "  \nnot a note\n") true)
  else none

/-- A file system whose only file is an empty JSON file for 2025-01-11, which
does not decode. -/
def exFSUndecodable : FS := fun path =>
  if path = "/notes/2025-01-11.json" then some (.file (.text "") true)
  else none

/-- A note of 2025-01-11. -/
def exNote11 : Note :=
  { ID := "1736589600000000001", Typ := NoteTypeText, Content := "fresh start",
    CreatedAt := 1736589600000000001, UpdatedAt := 1736589600000000001,
    Date := "2025-01-11", Metadata := Metadata.empty }

/-- A third text note of 2025-01-01, with an ID of its own. -/
def exNoteC : Note :=
  { ID := "1735736400000000004", Typ := NoteTypeText, Content := "water the plants",
    CreatedAt := 1735736400000000004, UpdatedAt := 1735736400000000004,
    Date := "2025-01-01", Metadata := Metadata.empty }

/-- A file system in which the path of the notes directory is taken by a
regular file. -/
def exFSNotesIsFile : FS := fun path =>
  if path = "/notes" then some (.file (.text "") true) else none

/-- A file system with an empty JSON file for 2025-01-12, which does not
decode, and the legacy text file of that date, which the system keeps. -/
def exFSKept : FS := fun path =>
  if path = "/notes/2025-01-12.json" then some (.file (.text "") true)
  else if path = "/notes/2025-01-12.txt" then some (.kept (.text "[09:00:00] buy milk\n"))
  else none

/-- The note that the line `[09:00:00] buy milk` migrates to in the bucket of
2025-01-12. -/
def exMilk12 : Note :=
  { ID := "2025-01-12-09:00:00", Typ := NoteTypeText, Content := "buy milk",
    CreatedAt := -62167186800000000000, UpdatedAt := -62167186800000000000,
    Date := "2025-01-12", Metadata := Metadata.empty }

/-- A note whose date text is `./2025-01-01`. -/
def exDotNote : Note :=
  { ID := "1735740000000000005", Typ := NoteTypeText, Content := "dotted",
    CreatedAt := 1735740000000000005, UpdatedAt := 1735740000000000005,
    Date := "./2025-01-01", Metadata := Metadata.empty }

/-- A note of 2025-01-11 that was updated on the third day of the year
10000. -/
def exFarNote : Note :=
  { ID := "1736589600000000009", Typ := NoteTypeText, Content := "far away",
    CreatedAt := 1736589600000000009, UpdatedAt := 253402473600000000000,
    Date := "2025-01-11", Metadata := Metadata.empty }

/-! ## ports/note_service.go, cli/cli.go and cmd/cli/main.go: the root command -/

/-- Model of `strings.Join`. -/
def Join : List String → String → String
  | [], _ => ""
  | [a], _ => a
  | a :: b :: rest, sep => a ++ sep ++ Join (b :: rest) sep

/-- Model of `strings.Contains`. -/
def Contains (s substr : String) : Bool := (cut substr.data s.data).isSome

/-- The `NoteService` interface, over the state `σ` of the store behind it.
`ListNotes` takes the rendering of a clock time in the local zone. -/
structure NoteService (σ : Type) where
  CreateNote : σ → Clock → String → Except ServiceError Note × σ
  SaveNote : σ → Clock → Note → Except ServiceError Unit × Note × σ
  GetTodayNotes : σ → Clock → Except ServiceError (List Note) × σ
  GetNotesByDate : σ → String → Except ServiceError (List Note) × σ
  GetNotesByMonth : σ → String → Except ServiceError (List Note) × σ
  ListNotes : (Time → String) → List Note → String

/-- The service of `note_service.go` as an implementation of the interface. -/
def noteService.asService {σ : Type} (s : noteService σ) : NoteService σ :=
  { CreateNote := s.CreateNote,
    SaveNote := s.SaveNote,
    GetTodayNotes := s.GetTodayNotes,
    GetNotesByDate := s.GetNotesByDate,
    GetNotesByMonth := s.GetNotesByMonth,
    ListNotes := ListNotes }

/-- The `CLI` struct. -/
structure CLI (σ : Type) where
  noteService : NoteService σ
  repository : NoteRepository σ

/-- The values of the flags of the root command, as `handleRootCommand` reads
them: the texts are empty and the switches off where a flag is not given. -/
structure RootFlags where
  list : Bool
  listDate : String
  listMonth : String
  note : Bool
  task : Bool
  contact : Bool
  reminder : Bool
  interactive : Bool
deriving DecidableEq, Repr

/-- One piece of what a handler of the root command prints, without the
styling: `onlyOneFlag` is the error `Error: Only one command flag can be used
at a time`, `usage` the text of `cmd.Help()`, `help` the box of `showHelp`,
`notValidCommand` the error that the content `is not a valid command`,
`quoteHint` and `flagsHint` the two lines of advice that follow it,
`createError` the error `Error creating note:` with its cause, and `noteSaved`
the message `Note saved successfully!`. -/
inductive Output where
  | onlyOneFlag
  | usage
  | help
  | notValidCommand (content : String)
  | quoteHint
  | flagsHint
  | createError (cause : ServiceError)
  | noteSaved
deriving DecidableEq, Repr

/-- What a run of a handler leaves: the state of the store, what was printed,
and the status given to `os.Exit` when the handler ended the process there
(`none` when it returned). -/
structure Outcome (σ : Type) where
  state : σ
  printed : List Output
  exit : Option Nat

/-- The handlers that `handleRootCommand` hands a selector flag to, with
their arguments. They list notes or run forms on the terminal; the root
command takes what they do as a parameter. -/
inductive Selected where
  | listNotesByDate (args : List String)
  | listNotesByMonth (monthStr : String)
  | listTodayNotes (args : List String)
  | createNoteInteractive
  | createTaskInteractive
  | createContactInteractive
  | createReminderInteractive
  | openInteractiveList (args : List String)
deriving DecidableEq, Repr

/-- The count of the flags that are set, as `handleRootCommand` computes
it. -/
def flagCount (f : RootFlags) : Nat :=
  let flagCount := 0
  let flagCount := if f.listDate ≠ "" then flagCount + 1 else flagCount
  let flagCount := if f.listMonth ≠ "" then flagCount + 1 else flagCount
  let flagCount := if f.list then flagCount + 1 else flagCount
  let flagCount := if f.note then flagCount + 1 else flagCount
  let flagCount := if f.task then flagCount + 1 else flagCount
  let flagCount := if f.contact then flagCount + 1 else flagCount
  let flagCount := if f.reminder then flagCount + 1 else flagCount
  let flagCount := if f.interactive then flagCount + 1 else flagCount
  flagCount

/-- `CLI.addNote`. -/
def CLI.addNote {σ : Type} (cli : CLI σ) (st : σ) (c : Clock) (args : List String) :
    Outcome σ :=
  if args.length = 0 then { state := st, printed := [.usage], exit := none }
  else
    let content := Join args " "
    match cli.noteService.CreateNote st c content with
    | (.error e, st1) => { state := st1, printed := [.createError e], exit := some 1 }
    | (.ok _, st1) => { state := st1, printed := [.noteSaved], exit := none }

/-- `CLI.handleRootCommand`, the `Run` of the root command, on the values of
the flags and the arguments that are left. -/
def CLI.handleRootCommand {σ : Type} (cli : CLI σ)
    (handlers : Selected → σ → Clock → Outcome σ) (st : σ) (c : Clock)
    (flags : RootFlags) (args : List String) : Outcome σ :=
  if flagCount flags > 1 then
    { state := st, printed := [.onlyOneFlag, .usage], exit := none }
  else if flags.listDate ≠ "" then handlers (.listNotesByDate [flags.listDate]) st c
  else if flags.listMonth ≠ "" then handlers (.listNotesByMonth flags.listMonth) st c
  else if flags.list then handlers (.listTodayNotes args) st c
  else if flags.note then handlers .createNoteInteractive st c
  else if flags.task then handlers .createTaskInteractive st c
  else if flags.contact then handlers .createContactInteractive st c
  else if flags.reminder then handlers .createReminderInteractive st c
  else if flags.interactive then handlers (.openInteractiveList args) st c
  else if args.length = 0 then { state := st, printed := [.help], exit := none }
  else
    let content := Join args " "
    if !Contains content " " then
      { state := st, printed := [.notValidCommand content, .quoteHint, .flagsHint],
        exit := none }
    else cli.addNote st c args

/-- The exit status of the process and the state of the store after `main`
has executed the root command, whose flags were parsed without an error. A
handler that calls `os.Exit` ends the process with the status it gives;
when the handler returns, `Execute` returns no error and `main` returns, so
the status is 0. -/
def main {σ : Type} (cli : CLI σ) (handlers : Selected → σ → Clock → Outcome σ)
    (st : σ) (c : Clock) (flags : RootFlags) (args : List String) : Nat × σ :=
  let out := cli.handleRootCommand handlers st c flags args
  match out.exit with
  | some status => (status, out.state)
  | none => (0, out.state)

/-! ## Example data of the root command -/

/-- The flags of the root command when none is given. -/
def noFlags : RootFlags :=
  { list := false, listDate := "", listMonth := "", note := false, task := false,
    contact := false, reminder := false, interactive := false }

/-- The front-end over the file repository rooted at `/notes`. -/
def exCLI : CLI FS :=
  { noteService := (NewNoteService exRepo.asRepository).asService,
    repository := exRepo.asRepository }

/-- Handlers that create a note and end the process with status 1, to tell
a run that reaches them from one that does not. -/
def exHandlers : Selected → FS → Clock → Outcome FS := fun _ st c =>
  { state := ((NewNoteService exRepo.asRepository).CreateNote st c "from a handler").2,
    printed := [], exit := some 1 }

/-- The front-end over the service of a repository that counts the calls of
`Save`. -/
def exCountingCLI : CLI Nat :=
  { noteService := (NewNoteService countingRepository).asService,
    repository := countingRepository }

/-- Handlers that do nothing. -/
def exIdleHandlers : Selected → Nat → Clock → Outcome Nat := fun _ st _ =>
  { state := st, printed := [], exit := none }

/-- The flags `--list` and `--note` together. -/
def exTwoFlags : RootFlags := { noFlags with list := true, note := true }

/-! ## Lemmas on the library models -/

theorem mem_insertSorted {α : Type} (less : α → α → Bool) (x a : α) (l : List α) :
    a ∈ insertSorted less x l ↔ a = x ∨ a ∈ l := by
  induction l with
  | nil => simp [insertSorted]
  | cons y ys ih =>
    unfold insertSorted
    split
    · simp only [List.mem_cons, ih]; tauto
    · simp only [List.mem_cons]

theorem perm_insertSorted {α : Type} (less : α → α → Bool) (x : α) (l : List α) :
    (insertSorted less x l).Perm (x :: l) := by
  induction l with
  | nil => simp [insertSorted]
  | cons y ys ih =>
    unfold insertSorted
    split
    · exact (List.Perm.cons y ih).trans (List.Perm.swap x y ys)
    · exact List.Perm.refl _

theorem perm_sortSlice {α : Type} (less : α → α → Bool) (l : List α) :
    (sortSlice less l).Perm l := by
  induction l with
  | nil => exact List.Perm.refl _
  | cons x xs ih =>
    exact (perm_insertSorted less x (sortSlice less xs)).trans (List.Perm.cons x ih)

theorem mem_sortSlice {α : Type} (less : α → α → Bool) (a : α) (l : List α) :
    a ∈ sortSlice less l ↔ a ∈ l :=
  (perm_sortSlice less l).mem_iff

/-! ### Paths, directories and what `os.Open` finds -/

theorem splitSlash_ne_nil (s : List Char) : splitSlash s ≠ [] := by
  cases s with
  | nil => simp [splitSlash]
  | cons c cs =>
    unfold splitSlash
    simp only [List.foldr_cons]
    split
    · simp
    · split <;> simp

theorem splitSlash_cons (c : Char) (s : List Char) :
    splitSlash (c :: s) =
      if c = '/' then [] :: splitSlash s
      else match splitSlash s with
        | [] => [[c]]
        | l :: ls => (c :: l) :: ls := rfl

/-- The elements of a text with no slash in it. -/
theorem splitSlash_plain (s : List Char) (h : '/' ∉ s) : splitSlash s = [s] := by
  induction s with
  | nil => rfl
  | cons c cs ih =>
    have hc : c ≠ '/' := fun e => h (by simp [e])
    have hcs : '/' ∉ cs := fun e => h (List.mem_cons_of_mem _ e)
    rw [splitSlash_cons, if_neg hc, ih hcs]

/-- The elements of a text followed by a text with no slash in it. -/
theorem splitSlash_append_plain (a b : List Char) (h : '/' ∉ b) :
    splitSlash (a ++ b) = (splitSlash a).dropLast ++
      [(splitSlash a).getLast (splitSlash_ne_nil a) ++ b] := by
  induction a with
  | nil =>
    have hnil : splitSlash [] = [[]] := rfl
    simp only [List.nil_append, splitSlash_plain b h, hnil]
    rfl
  | cons c cs ih =>
    rw [List.cons_append, splitSlash_cons]
    by_cases hc : c = '/'
    · rw [if_pos hc]
      have : splitSlash (c :: cs) = [] :: splitSlash cs := by rw [splitSlash_cons, if_pos hc]
      simp only [this]
      rw [ih]
      have hne := splitSlash_ne_nil cs
      rw [List.dropLast_cons_of_ne_nil hne, List.getLast_cons hne]
      simp
    · rw [if_neg hc]
      have hne := splitSlash_ne_nil cs
      obtain ⟨l, ls, hl⟩ := List.exists_cons_of_ne_nil hne
      have h2 : splitSlash (c :: cs) = (c :: l) :: ls := by
        rw [splitSlash_cons, if_neg hc, hl]
      simp only [h2]
      rw [ih]
      simp only [hl]
      cases ls with
      | nil => simp
      | cons m ms =>
        simp [List.dropLast, List.getLast]

theorem splitSlash_append_slash (a b : List Char) (h : '/' ∉ b) :
    splitSlash (a ++ '/' :: b) = splitSlash a ++ [b] := by
  induction a with
  | nil =>
    have hnil : splitSlash [] = [[]] := rfl
    rw [List.nil_append, splitSlash_cons, if_pos rfl, splitSlash_plain b h, hnil]
    rfl
  | cons c cs ih =>
    rw [List.cons_append, splitSlash_cons, ih, splitSlash_cons]
    by_cases hc : c = '/'
    · simp [hc]
    · simp only [if_neg hc]
      have hne := splitSlash_ne_nil cs
      obtain ⟨l, ls, hl⟩ := List.exists_cons_of_ne_nil hne
      simp [hl]

theorem cleanStep_plain (rooted : Bool) (out : List (List Char)) (e : List Char)
    (h1 : e ≠ []) (h2 : e ≠ ['.']) (h3 : e ≠ ['.', '.']) :
    cleanStep rooted out e = out ++ [e] := by
  unfold cleanStep
  rw [if_neg (by simp [h1, h2]), if_neg h3]

theorem joinSlash_concat (out : List (List Char)) (e : List Char) :
    joinSlash (out ++ [e]) = (out.map (fun x => x ++ ['/'])).flatten ++ e := by
  induction out with
  | nil => simp [joinSlash]
  | cons a rest ih =>
    cases rest with
    | nil => simp [joinSlash]
    | cons b more =>
      have : joinSlash (a :: b :: more ++ [e]) = a ++ '/' :: joinSlash (b :: more ++ [e]) := rfl
      rw [this, ih]
      simp

theorem clean_of_elems (path : List Char) (st : List (List Char)) (e : List Char)
    (h : (splitSlash path).foldl (cleanStep (decide (path.head? = some '/'))) [] = st ++ [e]) :
    (Clean (String.mk path)).data =
      (if path.head? = some '/' then ['/'] else []) ++
        (st.map (fun x => x ++ ['/'])).flatten ++ e := by
  unfold Clean
  simp only [h]
  by_cases hr : path.head? = some '/'
  · simp [hr, joinSlash_concat]
  · simp [hr, joinSlash_concat]

theorem filepathJoin_plain (dir name : String) (h0 : '/' ∉ name.data)
    (h1 : name.data ≠ []) (h2 : name.data ≠ ['.']) (h3 : name.data ≠ ['.', '.']) :
    (filepathJoin dir name).data = cleanPrefix dir.data ++ name.data := by
  unfold filepathJoin
  by_cases hd : dir = ""
  · have hn : name ≠ "" := by
      intro e
      rw [e] at h1
      exact h1 rfl
    rw [if_neg (by simpa using hd), if_pos hn]
    have hsplit : (splitSlash name.data).foldl
        (cleanStep (decide (name.data.head? = some '/'))) [] = [] ++ [name.data] := by
      rw [splitSlash_plain _ h0]
      simp [cleanStep_plain _ _ _ h1 h2 h3]
    have hc := clean_of_elems name.data [] name.data hsplit
    have hhead : ¬ name.data.head? = some '/' := by
      intro e
      cases hnd : name.data with
      | nil => rw [hnd] at e; simp at e
      | cons c cs =>
        rw [hnd] at e h0
        simp at e
        exact h0 (by simp [e])
    rw [hd]
    simpa [hhead, cleanPrefix, splitSlash, cleanStep] using hc
  · rw [if_pos hd]
    have hdd : dir.data ≠ [] := by
      intro e
      apply hd
      exact String.ext e
    have hdata : (dir ++ "/" ++ name).data = dir.data ++ '/' :: name.data := by
      simp [String.data_append]
    have hhead : (dir.data ++ '/' :: name.data).head? = dir.data.head? := by
      cases hx : dir.data with
      | nil => exact absurd hx hdd
      | cons c cs => rfl
    have hsplit : (splitSlash (dir.data ++ '/' :: name.data)).foldl
        (cleanStep (decide ((dir.data ++ '/' :: name.data).head? = some '/'))) [] =
          (splitSlash dir.data).foldl (cleanStep (decide (dir.data.head? = some '/'))) [] ++
            [name.data] := by
      rw [splitSlash_append_slash _ _ h0, hhead, List.foldl_append]
      simp [cleanStep_plain _ _ _ h1 h2 h3]
    have hc := clean_of_elems _ _ _ hsplit
    have he : dir ++ "/" ++ name = String.mk (dir.data ++ '/' :: name.data) :=
      String.ext hdata
    rw [he, hc, hhead]
    rfl

theorem filepathJoin_suffix (dir name : String) (x suffix : List Char)
    (hname : name.data = x ++ suffix) (h0 : '/' ∉ suffix) (hlen : 3 ≤ suffix.length) :
    ∃ y, (filepathJoin dir name).data = y ++ suffix := by
  have key : ∀ path : List Char, ∀ z, path = z ++ suffix →
      ∃ y, (Clean (String.mk path)).data = y ++ suffix := by
    intro path z hp
    have hs := splitSlash_append_plain z suffix h0
    set last := (splitSlash z).getLast (splitSlash_ne_nil z) with hlast
    have hl1 : last ++ suffix ≠ [] := by
      intro e
      have := congrArg List.length e
      simp only [List.length_append, List.length_cons, List.length_nil] at this
      omega
    have hl2 : last ++ suffix ≠ ['.'] := by
      intro e
      have := congrArg List.length e
      simp only [List.length_append, List.length_cons, List.length_nil] at this
      omega
    have hl3 : last ++ suffix ≠ ['.', '.'] := by
      intro e
      have := congrArg List.length e
      simp only [List.length_append, List.length_cons, List.length_nil] at this
      omega
    have hsplit : (splitSlash path).foldl
        (cleanStep (decide (path.head? = some '/'))) [] =
          (splitSlash z).dropLast.foldl (cleanStep (decide (path.head? = some '/'))) [] ++
            [last ++ suffix] := by
      rw [hp, hs, List.foldl_append]
      simp [cleanStep_plain _ _ _ hl1 hl2 hl3]
    have hc := clean_of_elems _ _ _ hsplit
    exact ⟨_, by rw [hc, ← List.append_assoc]⟩
  unfold filepathJoin
  by_cases hd : dir = ""
  · have hn : name ≠ "" := by
      intro e
      rw [e] at hname
      have h' : (x ++ suffix).length = 0 := by rw [← hname]; rfl
      rw [List.length_append] at h'
      omega
    rw [if_neg (by simpa using hd), if_pos hn]
    have : name = String.mk name.data := rfl
    rw [this]
    exact key name.data x hname
  · rw [if_pos hd]
    have hdata : (dir ++ "/" ++ name).data = (dir.data ++ '/' :: x) ++ suffix := by
      simp [String.data_append, hname]
    have he : dir ++ "/" ++ name = String.mk ((dir.data ++ '/' :: x) ++ suffix) :=
      String.ext hdata
    rw [he]
    exact key _ _ rfl

theorem mem_ancestorsFrom (s : List Char) : ∀ (pre a : List Char),
    a ∈ ancestorsFrom pre s → ∃ s1 s2, s = s1 ++ '/' :: s2 ∧ a = pre ++ s1 := by
  induction s with
  | nil => intro pre a h; simp [ancestorsFrom] at h
  | cons c cs ih =>
    intro pre a h
    unfold ancestorsFrom at h
    split_ifs at h with hc
    · rcases List.mem_cons.mp h with h1 | h1
      · exact ⟨[], cs, by simp [hc.1], by simp [h1]⟩
      · obtain ⟨s1, s2, hs, ha⟩ := ih _ _ h1
        exact ⟨c :: s1, s2, by simp [hs], by simp [ha]⟩
    · obtain ⟨s1, s2, hs, ha⟩ := ih _ _ h
      exact ⟨c :: s1, s2, by simp [hs], by simp [ha]⟩

/-- A directory on the way to a path is a part of the path before one of its
slashes. -/
theorem mem_ancestors (path a : String) (h : a ∈ ancestors path) :
    ∃ rest, path.data = a.data ++ '/' :: rest := by
  unfold ancestors at h
  obtain ⟨l, hl, rfl⟩ := List.mem_map.mp h
  obtain ⟨s1, s2, hs, ha⟩ := mem_ancestorsFrom _ _ _ hl
  exact ⟨s2, by simp [hs, ha]⟩

/-- A directory on the way to a path that ends in a text without a slash is
shorter than what comes before that text. -/
theorem ancestor_length_lt (path a : String) (q tail : List Char)
    (hp : path.data = q ++ tail) (ht : '/' ∉ tail) (h : a ∈ ancestors path) :
    a.data.length < q.length := by
  obtain ⟨rest, hr⟩ := mem_ancestors path a h
  rw [hp] at hr
  by_contra hlt
  push_neg at hlt
  obtain ⟨m, hm1, hm2⟩ | ⟨m, hm1, hm2⟩ := List.append_eq_append_iff.mp hr
  · apply ht
    rw [hm2]
    simp
  · have hm : m = [] := by
      have := congrArg List.length hm1
      rw [List.length_append] at this
      exact List.length_eq_zero.mp (by omega)
    rw [hm] at hm2
    have h2 : tail = '/' :: rest := by simpa using hm2.symm
    apply ht
    rw [h2]
    simp

theorem Blocked_congr (fs fs' : FS) (path : String)
    (h : ∀ a ∈ ancestors path, fs a = fs' a) : Blocked fs path = Blocked fs' path := by
  unfold Blocked
  have key : ∀ l : List String, (∀ a ∈ l, fs a = fs' a) →
      l.any (fun a => (fs a).isSome) = l.any (fun a => (fs' a).isSome) := by
    intro l
    induction l with
    | nil => intro _; rfl
    | cons x xs ih =>
      intro hl
      simp only [List.any_cons]
      rw [hl x (List.mem_cons_self _ _), ih (fun a ha => hl a (List.mem_cons_of_mem _ ha))]
  exact key _ h

theorem mem_ancestorsFrom_of (s1 s2 : List Char) : ∀ pre : List Char, pre ++ s1 ≠ [] →
    pre ++ s1 ∈ ancestorsFrom pre (s1 ++ '/' :: s2) := by
  induction s1 with
  | nil =>
    intro pre h
    simp only [List.append_nil] at h ⊢
    simp only [List.nil_append]
    unfold ancestorsFrom
    rw [if_pos ⟨rfl, h⟩]
    exact List.mem_cons_self _ _
  | cons c cs ih =>
    intro pre h
    have h2 : pre ++ c :: cs = (pre ++ [c]) ++ cs := by simp
    rw [List.cons_append]
    unfold ancestorsFrom
    rw [h2]
    have := ih (pre ++ [c]) (by simp)
    split_ifs
    · exact List.mem_cons_of_mem _ this
    · exact this

/-- The way to a path is blocked exactly when a text that stands before one
of the slashes of the path, and is not empty, names an entry of the file
system. -/
theorem Blocked_iff (fs : FS) (path : String) :
    Blocked fs path = true ↔
      ∃ a rest, path.data = a ++ '/' :: rest ∧ a ≠ [] ∧ (fs (String.mk a)).isSome = true := by
  unfold Blocked ancestors
  rw [List.any_eq_true]
  constructor
  · rintro ⟨x, hx, hs⟩
    obtain ⟨l, hl, rfl⟩ := List.mem_map.mp hx
    obtain ⟨s1, s2, hp, ha⟩ := mem_ancestorsFrom _ _ _ hl
    simp only [List.nil_append] at ha
    subst ha
    refine ⟨l, s2, hp, ?_, hs⟩
    intro he
    subst he
    have : ∀ (s pre : List Char), pre = [] ∨ pre ≠ [] → [] ∈ ancestorsFrom pre s → False := by
      intro s
      induction s with
      | nil => intro pre _ h; simp [ancestorsFrom] at h
      | cons c cs ih =>
        intro pre _ h
        unfold ancestorsFrom at h
        split_ifs at h with hc
        · rcases List.mem_cons.mp h with h1 | h1
          · exact hc.2 h1.symm
          · exact ih _ (Or.inr (by simp)) h1
        · exact ih _ (Or.inr (by simp)) h
    exact this _ _ (Or.inl rfl) hl
  · rintro ⟨a, rest, hp, hne, hs⟩
    refine ⟨String.mk a, ?_, hs⟩
    apply List.mem_map.mpr
    refine ⟨a, ?_, rfl⟩
    have := mem_ancestorsFrom_of a rest [] (by simpa using hne)
    rw [hp]
    simpa using this

theorem MkdirAll_ok (fs fs0 : FS) (dir : String) (h : MkdirAll fs dir = .ok fs0) :
    fs0 = fs ∧ dir ≠ "" ∧ fs (Clean dir) = none ∧ Blocked fs (Clean dir) = false := by
  unfold MkdirAll at h
  by_cases hd : dir = ""
  · rw [if_pos hd] at h
    cases h
  · rw [if_neg hd] at h
    cases hc : fs (Clean dir) with
    | some e => rw [hc] at h; cases h
    | none =>
      rw [hc] at h
      simp only at h
      cases hb : Blocked fs (Clean dir) with
      | true => rw [hb] at h; simp at h
      | false =>
        rw [hb] at h
        simp at h
        exact ⟨h.symm, hd, rfl, rfl⟩

/-- What `os.Open` gives depends on the entry at the path and, where there
is none, on whether the way to it is blocked. -/
theorem Open_congr (fs fs' : FS) (p : String) (h : fs p = fs' p)
    (hb : Blocked fs p = Blocked fs' p) : Open fs p = Open fs' p := by
  unfold Open
  rw [h, hb]

theorem Open_cases (fs : FS) (p : String) :
    (∃ data w, fs p = some (.file data w) ∧ Open fs p = .opened data) ∨
    (∃ data, fs p = some (.kept data) ∧ Open fs p = .opened data) ∨
    (fs p = some .denied ∧ Open fs p = .failed) ∨
    (fs p = none ∧ Blocked fs p = true ∧ Open fs p = .failed) ∨
    (fs p = none ∧ Blocked fs p = false ∧ Open fs p = .notExist) := by
  unfold Open
  cases h : fs p with
  | none =>
    cases hb : Blocked fs p <;> simp
  | some e =>
    cases e with
    | denied => simp
    | kept data => simp
    | file data w => simp

theorem Open_file (fs : FS) (p : String) (d : FileData) (w : Bool)
    (h : fs p = some (.file d w)) : Open fs p = .opened d := by
  simp [Open, h]

theorem Open_absent (fs : FS) (p : String) (h : fs p = none) (hb : Blocked fs p = false) :
    Open fs p = .notExist := by
  simp [Open, h, hb]

theorem Open_blocked (fs : FS) (p : String) (h : fs p = none) (hb : Blocked fs p = true) :
    Open fs p = .failed := by
  simp [Open, h, hb]

theorem Remove_of_ne (fs : FS) (p q : String) (h : q ≠ p) : (Remove fs p) q = fs q := by
  unfold Remove
  cases hp : fs p with
  | none => simp [Function.update_noteq h]
  | some e =>
    cases e with
    | kept data => rfl
    | denied => simp [Function.update_noteq h]
    | file data w => simp [Function.update_noteq h]

theorem Remove_cases (fs : FS) (p : String) :
    ((∃ data, fs p = some (.kept data)) ∧ Remove fs p = fs) ∨
    ((∀ data, fs p ≠ some (.kept data)) ∧ Remove fs p = Function.update fs p none) := by
  unfold Remove
  cases hp : fs p with
  | none => right; exact ⟨by simp, rfl⟩
  | some e =>
    cases e with
    | kept data => left; exact ⟨⟨data, rfl⟩, rfl⟩
    | denied => right; exact ⟨by simp, rfl⟩
    | file data w => right; exact ⟨by simp, rfl⟩

/-! ## Lemmas on `Save` -/

theorem replaceByID_of_mem (note : Note) (notes : List Note)
    (h : ∃ e ∈ notes, e.ID = note.ID) :
    ∃ pre e post, notes = pre ++ e :: post ∧ e.ID = note.ID ∧ (∀ x ∈ pre, x.ID ≠ note.ID) ∧
      replaceByID note notes = (pre ++ note :: post, true) := by
  induction notes with
  | nil => simp at h
  | cons y ys ih =>
    by_cases hy : y.ID = note.ID
    · exact ⟨[], y, ys, rfl, hy, by simp, by simp [replaceByID, hy]⟩
    · have h' : ∃ e ∈ ys, e.ID = note.ID := by
        obtain ⟨e, he, hid⟩ := h
        rcases List.mem_cons.mp he with rfl | he'
        · exact absurd hid hy
        · exact ⟨e, he', hid⟩
      obtain ⟨pre, e, post, hsplit, hid, hpre, hrep⟩ := ih h'
      refine ⟨y :: pre, e, post, by simp [hsplit], hid, ?_, ?_⟩
      · intro x hx
        rcases List.mem_cons.mp hx with rfl | hx'
        · exact hy
        · exact hpre x hx'
      · simp [replaceByID, hy, hrep]

theorem replaceByID_of_not_mem (note : Note) (notes : List Note)
    (h : ∀ e ∈ notes, e.ID ≠ note.ID) : replaceByID note notes = (notes, false) := by
  induction notes with
  | nil => rfl
  | cons y ys ih =>
    have hy : y.ID ≠ note.ID := h y (List.mem_cons_self _ _)
    have ih' := ih (fun e he => h e (List.mem_cons_of_mem _ he))
    simp [replaceByID, hy, ih']

theorem mem_upsert (notes : List Note) (note : Note) : note ∈ upsert notes note := by
  by_cases h : ∃ e ∈ notes, e.ID = note.ID
  · obtain ⟨pre, e, post, _, _, _, hrep⟩ := replaceByID_of_mem note notes h
    simp [upsert, hrep]
  · have h' : ∀ e ∈ notes, e.ID ≠ note.ID := fun e he hid => h ⟨e, he, hid⟩
    simp [upsert, replaceByID_of_not_mem note notes h']

/-- A write either fails and leaves the files alone, or puts the notes at the
path. -/
theorem writeNotesToFile_cases (fs : FS) (filepath : String) (notes : List Note) :
    (∃ e, writeNotesToFile fs filepath notes = (.error e, fs)) ∨
    (notes.all Note.encodable = true ∧ writeNotesToFile fs filepath notes =
      (.ok (), Function.update fs filepath (some (.file (.notes notes) true)))) ∨
    writeNotesToFile fs filepath notes =
      (.error .encodeNotes, Function.update fs filepath (some (.file (.text "") true))) := by
  have henc : (notes.all Note.encodable = true ∧ encodeInto fs filepath notes =
      (.ok (), Function.update fs filepath (some (.file (.notes notes) true)))) ∨
      encodeInto fs filepath notes =
        (.error .encodeNotes, Function.update fs filepath (some (.file (.text "") true))) := by
    unfold encodeInto
    by_cases h : notes.all Note.encodable = true
    · left; exact ⟨h, by rw [if_pos h]⟩
    · right; rw [if_neg h]
  unfold writeNotesToFile
  cases h : fs filepath with
  | none =>
    simp only
    by_cases hb : Blocked fs filepath = true
    · left; exact ⟨_, by rw [if_pos hb]⟩
    · right; rw [if_neg hb]; exact henc
  | some e =>
    cases e with
    | denied => left; exact ⟨_, rfl⟩
    | kept data => left; exact ⟨_, rfl⟩
    | file data w =>
      cases w with
      | false => left; exact ⟨_, rfl⟩
      | true => right; exact henc

/-- A successful `Save` has read the bucket and written the updated list to
the bucket path of the note's date. -/
theorem Save_ok_inv (r : fileRepository) (fs fs' : FS) (note : Note)
    (h : Save r fs note = (.ok (), fs')) :
    ∃ notes fs1, readNotesFromFile fs (r.bucketPath note.Date) note.Date = (.ok notes, fs1) ∧
      fs' = Function.update fs1 (r.bucketPath note.Date)
        (some (.file (.notes (upsert notes note)) true)) := by
  unfold Save at h
  cases hd : MkdirAll fs r.notesDir with
  | error e => simp [hd] at h
  | ok fs0 =>
    have hfs0 : fs0 = fs := (MkdirAll_ok fs fs0 _ hd).1
    subst hfs0
    simp only [hd] at h
    cases hr : readNotesFromFile fs0 (r.bucketPath note.Date) note.Date with
    | mk res fs1 =>
      cases res with
      | error e => simp [hr] at h
      | ok notes =>
        refine ⟨notes, fs1, rfl, ?_⟩
        simp only [hr] at h
        rcases writeNotesToFile_cases fs1 (r.bucketPath note.Date) (upsert notes note) with
          ⟨e, hw⟩ | ⟨_, hw⟩ | hw
        · simp [hw] at h
        · simp [hw] at h
          exact h.symm
        · simp [hw] at h

/-! ## Lemmas on the sort order -/

theorem ordered_insertSorted {α : Type} (less : α → α → Bool)
    (hasymm : ∀ a b, less a b = true → less b a = false)
    (htrans : ∀ a b c, less a b = false → less b c = false → less a c = false)
    (x : α) (l : List α) (h : Ordered less l) : Ordered less (insertSorted less x l) := by
  induction l with
  | nil => simp [insertSorted, Ordered]
  | cons y ys ih =>
    unfold Ordered at h
    rw [List.pairwise_cons] at h
    unfold insertSorted
    by_cases hyx : less y x = true
    · simp only [hyx, if_true]
      unfold Ordered
      rw [List.pairwise_cons]
      refine ⟨?_, ih h.2⟩
      intro b hb
      rcases (mem_insertSorted less x b ys).mp hb with rfl | hb'
      · exact hasymm _ _ hyx
      · exact h.1 b hb'
    · have hyx' : less y x = false := by simpa using hyx
      simp only [hyx', Bool.false_eq_true, if_false]
      unfold Ordered
      rw [List.pairwise_cons, List.pairwise_cons]
      refine ⟨?_, h.1, h.2⟩
      intro b hb
      rcases List.mem_cons.mp hb with rfl | hb'
      · exact hyx'
      · exact htrans _ _ _ (h.1 b hb') hyx'

theorem ordered_sortSlice {α : Type} (less : α → α → Bool)
    (hasymm : ∀ a b, less a b = true → less b a = false)
    (htrans : ∀ a b c, less a b = false → less b c = false → less a c = false)
    (l : List α) : Ordered less (sortSlice less l) := by
  induction l with
  | nil => simp [sortSlice, Ordered]
  | cons x xs ih => exact ordered_insertSorted less hasymm htrans x _ ih

theorem After_false_iff (t u : Time) : After t u = false ↔ t ≤ u := by
  unfold After
  simp

theorem After_asymm (t u : Time) (h : After t u = true) : After u t = false := by
  unfold After at *
  simp only [decide_eq_true_eq] at h
  simp only [decide_eq_false_iff_not, not_lt]
  exact le_of_lt h

theorem After_negtrans (t u v : Time) (h1 : After t u = false) (h2 : After u v = false) :
    After t v = false := by
  rw [After_false_iff] at *
  exact le_trans h1 h2

theorem bucketLess_asymm (a b : Note) (h : bucketLess a b = true) : bucketLess b a = false := by
  unfold bucketLess at *
  cases ha : isReminderPending a <;> cases hb : isReminderPending b <;>
    simp [ha, hb] at h ⊢ <;> exact After_asymm _ _ h

theorem bucketLess_negtrans (a b c : Note) (h1 : bucketLess a b = false)
    (h2 : bucketLess b c = false) : bucketLess a c = false := by
  unfold bucketLess at *
  cases ha : isReminderPending a <;> cases hb : isReminderPending b <;>
    cases hc : isReminderPending c <;> simp [ha, hb, hc] at h1 h2 ⊢ <;>
    exact After_negtrans _ _ _ h1 h2

theorem rangeLess_asymm (a b : Note) (h : rangeLess a b = true) : rangeLess b a = false :=
  After_asymm _ _ h

theorem rangeLess_negtrans (a b c : Note) (h1 : rangeLess a b = false)
    (h2 : rangeLess b c = false) : rangeLess a c = false :=
  After_negtrans _ _ _ h1 h2

/-- A list in which no element that satisfies `p` follows one that does not
is its `p` elements followed by the others. -/
theorem eq_filter_append_of_pairwise {α : Type} (p : α → Bool) (l : List α)
    (h : l.Pairwise (fun a b => p b = true → p a = true)) :
    l = l.filter p ++ l.filter (fun a => !p a) := by
  induction l with
  | nil => rfl
  | cons x xs ih =>
    rw [List.pairwise_cons] at h
    have ih' := ih h.2
    cases hx : p x with
    | true =>
      simp only [List.filter_cons, hx, if_true, Bool.not_true, Bool.false_eq_true, if_false,
        List.cons_append]
      rw [← ih']
    | false =>
      have hnone : xs.filter p = [] := by
        rw [List.filter_eq_nil_iff]
        intro a ha hpa
        have := h.1 a ha hpa
        rw [hx] at this
        exact Bool.false_ne_true this
      have hall : xs.filter (fun a => !p a) = xs := by
        rw [hnone] at ih'
        simpa using ih'.symm
      simp [List.filter_cons, hx, hnone, hall]

/-- In the order of `bucketLess`, a pending reminder never follows a note that
is not one. -/
theorem pending_first_of_ordered (l : List Note) (h : Ordered bucketLess l) :
    l.Pairwise (fun a b => isReminderPending b = true → isReminderPending a = true) := by
  unfold Ordered at h
  refine h.imp ?_
  intro a b hba hb
  unfold bucketLess at hba
  cases ha : isReminderPending a with
  | true => rfl
  | false => simp [ha, hb] at hba

/-- In the order of `bucketLess`, two notes of the same group are in descending
order of `UpdatedAt`. -/
theorem descending_of_ordered (l : List Note) (h : Ordered bucketLess l) :
    l.Pairwise (fun a b => isReminderPending a = isReminderPending b →
      b.UpdatedAt ≤ a.UpdatedAt) := by
  unfold Ordered at h
  refine h.imp ?_
  intro a b hba hab
  unfold bucketLess at hba
  cases hb : isReminderPending b <;> simp [hab, hb] at hba <;>
    exact (After_false_iff _ _).mp hba

theorem filter_descending (p : Note → Bool) (g : Bool)
    (hp : ∀ n, p n = true → isReminderPending n = g) (l : List Note)
    (h : Ordered bucketLess l) :
    (l.filter p).Pairwise (fun a b => b.UpdatedAt ≤ a.UpdatedAt) := by
  have h1 := (descending_of_ordered l h).filter p
  rw [List.pairwise_iff_forall_sublist] at h1 ⊢
  intro a b hab
  have ha : a ∈ l.filter p := hab.subset (by simp)
  have hb : b ∈ l.filter p := hab.subset (by simp)
  have ha' := hp a (List.mem_filter.mp ha).2
  have hb' := hp b (List.mem_filter.mp hb).2
  exact h1 hab (by rw [ha', hb'])

/-- Reading a bucket file that decodes returns its notes in the order of
`bucketLess` and leaves the files alone. -/
theorem GetNotesByDate_decoded (r : fileRepository) (fs : FS) (date : String)
    (l : List Note) (w : Bool) (hfile : fs (r.bucketPath date) = some (.file (.notes l) w)) :
    GetNotesByDate r fs date = (.ok (sortSlice bucketLess l), fs) := by
  simp [GetNotesByDate, readNotesFromFile, Open, hfile, FileData.decode]

/-! ## Lemmas on paths and on the migration -/

theorem cut_eq_some (sep : List Char) (s a b : List Char) (h : cut sep s = some (a, b)) :
    s = a ++ sep ++ b := by
  induction s generalizing a with
  | nil =>
    unfold cut at h
    split at h
    · rename_i hs
      have : sep = [] := by simpa using hs
      simp at h
      simp [this, h.1, h.2]
    · simp at h
  | cons c cs ih =>
    unfold cut at h
    split at h
    · rename_i hpre
      rw [List.isPrefixOf_iff_prefix] at hpre
      obtain ⟨t, ht⟩ := hpre
      simp at h
      obtain ⟨rfl, rfl⟩ := h
      rw [← ht]
      simp
    · cases hc : cut sep cs with
      | none => simp [hc] at h
      | some ab =>
        obtain ⟨a', b'⟩ := ab
        simp [hc] at h
        obtain ⟨rfl, rfl⟩ := h
        have := ih a' hc
        simp [this]

theorem cut_isSome_of_append (sep x y : List Char) : (cut sep (x ++ sep ++ y)).isSome = true := by
  induction x with
  | nil =>
    cases hs : sep ++ y with
    | nil =>
      have : sep = [] := by
        cases sep with
        | nil => rfl
        | cons a as => simp at hs
      have hy : y = [] := by simpa [this] using hs
      simp [cut, this, hy]
    | cons c cs =>
      have hpre : sep.isPrefixOf (c :: cs) = true := by
        rw [List.isPrefixOf_iff_prefix, ← hs]
        exact List.prefix_append _ _
      simp [cut, hs, hpre]
  | cons c cs ih =>
    simp only [List.cons_append]
    unfold cut
    split
    · rfl
    · simp only [List.append_assoc] at ih
      cases hc : cut sep (cs ++ (sep ++ y)) with
      | none => simp [hc] at ih
      | some ab => simp [hc]

theorem Replace1_length (s : List Char) (x : List Char) (hs : s = x ++ ".json".data) :
    (Replace1 s ".json".data ".txt".data).length + 1 = s.length := by
  have hsome := cut_isSome_of_append ".json".data x []
  simp only [List.append_nil] at hsome
  rw [← hs] at hsome
  unfold Replace1
  cases hc : cut ".json".data s with
  | none => simp [hc] at hsome
  | some ab =>
    obtain ⟨a, b⟩ := ab
    have := cut_eq_some _ _ _ _ hc
    simp only
    rw [this]
    simp
    omega

theorem bucketPath_data (r : fileRepository) (date : String) :
    ∃ x, (r.bucketPath date).data = x ++ ".json".data := by
  unfold fileRepository.bucketPath
  exact filepathJoin_suffix r.notesDir (date ++ ".json") date.data ".json".data
    (by simp [String.data_append]) (by decide) (by decide)

theorem textPath_ne (r : fileRepository) (date : String) :
    textPath (r.bucketPath date) ≠ r.bucketPath date := by
  obtain ⟨x, hx⟩ := bucketPath_data r date
  intro h
  have hlen := Replace1_length _ x hx
  have : (textPath (r.bucketPath date)).data = (r.bucketPath date).data := by rw [h]
  unfold textPath at this
  simp only at this
  rw [this] at hlen
  omega

theorem migrateLines_foldl (date : String) (lines : List (List Char)) (acc : List Note) :
    lines.foldl (fun notes line =>
      match legacyNote date line with
      | some note => notes ++ [note]
      | none => notes) acc = acc ++ lines.filterMap (legacyNote date) := by
  induction lines generalizing acc with
  | nil => simp
  | cons l ls ih =>
    simp only [List.foldl_cons, List.filterMap_cons]
    cases h : legacyNote date l with
    | none => simp [ih]
    | some n => simp [ih]

theorem migrateLines_eq (date : String) (lines : List (List Char)) :
    migrateLines date lines = lines.filterMap (legacyNote date) := by
  have h := migrateLines_foldl date lines []
  simpa [migrateLines] using h

theorem ne_bracket_of_isDigit (c : Char) (h : c.isDigit = true) : ']' ≠ c := by
  intro hc
  subst hc
  simp [Char.isDigit] at h

theorem legacyNote_wellFormed (date : String) (text content : List Char)
    (h1 h2 m1 m2 s1 s2 : Char)
    (hd : h1.isDigit = true ∧ h2.isDigit = true ∧ m1.isDigit = true ∧ m2.isDigit = true ∧
      s1.isDigit = true ∧ s2.isDigit = true)
    (hh : digitVal h1 * 10 + digitVal h2 < 24)
    (hm : digitVal m1 * 10 + digitVal m2 < 60)
    (hs : digitVal s1 * 10 + digitVal s2 < 60)
    (htext : TrimSpace text = ['[', h1, h2, ':', m1, m2, ':', s1, s2, ']', ' '] ++ content) :
    legacyNote date text = some
      { ID := date ++ "-" ++ String.mk [h1, h2, ':', m1, m2, ':', s1, s2],
        Typ := NoteTypeText,
        Content := String.mk content,
        CreatedAt := (yearZeroUnix + ((digitVal h1 * 10 + digitVal h2) * 3600 +
          (digitVal m1 * 10 + digitVal m2) * 60 + (digitVal s1 * 10 + digitVal s2) : Nat))
            * 1000000000,
        UpdatedAt := (yearZeroUnix + ((digitVal h1 * 10 + digitVal h2) * 3600 +
          (digitVal m1 * 10 + digitVal m2) * 60 + (digitVal s1 * 10 + digitVal s2) : Nat))
            * 1000000000,
        Date := date,
        Metadata := Metadata.empty } := by
  obtain ⟨d1, d2, d3, d4, d5, d6⟩ := hd
  have b1 := ne_bracket_of_isDigit h1 d1
  have b3 := ne_bracket_of_isDigit m1 d3
  have b5 := ne_bracket_of_isDigit s1 d5
  have hcut : cut [']', ' '] ('[' :: h1 :: h2 :: ':' :: m1 :: m2 :: ':' :: s1 :: s2 :: ']' ::
      ' ' :: content) = some (['[', h1, h2, ':', m1, m2, ':', s1, s2], content) := by
    simp [cut, List.isPrefixOf, b1, b3, b5]
  have hclock : parseClock [h1, h2, ':', m1, m2, ':', s1, s2] = some
      ((yearZeroUnix + ((digitVal h1 * 10 + digitVal h2) * 3600 +
          (digitVal m1 * 10 + digitVal m2) * 60 + (digitVal s1 * 10 + digitVal s2) : Nat))
            * 1000000000) := by
    simp [parseClock, getnum, d1, d2, d3, d4, d5, d6, Nat.not_le.mpr hh, Nat.not_le.mpr hm,
      Nat.not_le.mpr hs, parseFraction]
  unfold legacyNote
  simp only [htext, List.cons_append, List.nil_append]
  simp [HasPrefix, SplitN2, hcut, TrimPrefix, hclock, List.isPrefixOf]

theorem legacyNote_eq_some_iff (date : String) (text : List Char) (n : Note) :
    legacyNote date text = some n ↔
      ∃ timeStr content t, cut [']', ' '] (TrimSpace text) = some ('[' :: timeStr, content) ∧
        parseClock timeStr = some t ∧
        n = { ID := date ++ "-" ++ String.mk timeStr, Typ := NoteTypeText,
              Content := String.mk content, CreatedAt := t, UpdatedAt := t, Date := date,
              Metadata := Metadata.empty } := by
  unfold legacyNote
  cases hline : TrimSpace text with
  | nil =>
    simp [cut]
  | cons c rest =>
    by_cases hc : c = '['
    · subst hc
      simp only [HasPrefix, List.isPrefixOf, beq_self_eq_true, Bool.true_and, SplitN2]
      cases hr : cut [']', ' '] rest with
      | none =>
        have hcut : cut [']', ' '] ('[' :: rest) = none := by
          simp [cut, List.isPrefixOf, hr]
        simp [hcut]
      | some ab =>
        obtain ⟨a, b⟩ := ab
        have hcut : cut [']', ' '] ('[' :: rest) = some ('[' :: a, b) := by
          simp [cut, List.isPrefixOf, hr]
        simp only [hcut, TrimPrefix, HasPrefix, List.isPrefixOf, beq_self_eq_true, Bool.true_and]
        cases hp : parseClock a with
        | none =>
          simp [hp]
        | some t =>
          simp [hp]
          constructor
          · intro h
            exact ⟨a, b, ⟨rfl, rfl⟩, t, hp, h.symm⟩
          · rintro ⟨x, y, ⟨rfl, rfl⟩, z, hz, rfl⟩
            rw [hp] at hz
            simp at hz
            subst hz
            rfl
    · have hpre : HasPrefix (c :: rest) ['['] = false := by
        simp [HasPrefix, List.isPrefixOf]
        exact fun h => hc h.symm
      simp only [hpre]
      simp
      intro x y hxy
      have := cut_eq_some _ _ _ _ hxy
      simp at this
      exact absurd this.1 hc

/-- A migration that returns notes either found none and changed nothing, or
wrote the notes to the JSON file and removed the legacy file. -/
theorem migrate_ok_inv (fs fs' : FS) (filepath date : String) (notes : List Note)
    (h : migrateFromTextFormat fs filepath date = (.ok notes, fs')) :
    (notes = [] ∧ fs' = fs) ∨
    (notes ≠ [] ∧ fs' = Remove (Function.update fs filepath (some (.file (.notes notes) true)))
      (textPath filepath)) := by
  unfold migrateFromTextFormat at h
  simp only at h
  cases ht : Open fs (textPath filepath) with
  | notExist =>
    simp [ht] at h
    exact Or.inl ⟨h.1, h.2.symm⟩
  | failed => simp [ht] at h
  | opened data =>
    simp only [ht] at h
    cases hs : scanLines data.scanText.data with
    | none => simp [hs] at h
    | some lines =>
      simp only [hs] at h
      by_cases hlen : 0 < (migrateLines date lines).length
      · simp only [hlen, if_true] at h
        rcases writeNotesToFile_cases fs filepath (migrateLines date lines) with
          ⟨e, hw⟩ | ⟨_, hw⟩ | hw
        · simp [hw] at h
        · simp [hw] at h
          obtain ⟨rfl, rfl⟩ := h
          exact Or.inr ⟨List.ne_nil_of_length_pos hlen, rfl⟩
        · simp [hw] at h
      · simp only [hlen, if_false] at h
        have hnil : migrateLines date lines = [] := by
          cases hm : migrateLines date lines with
          | nil => rfl
          | cons a l => rw [hm] at hlen; simp at hlen
        simp at h
        exact Or.inl ⟨by rw [← h.1, hnil], h.2.symm⟩

/-! ## Lemmas on calendar dates -/

theorem yearOfDay_spec (n : Nat) :
    daysBeforeYear (yearOfDay n) ≤ n ∧ n < daysBeforeYear (yearOfDay n + 1) := by
  unfold yearOfDay
  simp only
  split_ifs with h1 h2
  · refine ⟨h1, ?_⟩
    unfold daysBeforeYear at *
    omega
  · refine ⟨?_, ?_⟩
    · unfold daysBeforeYear at *
      omega
    · have : 0 < n * 400 / 146097 := by
        rcases Nat.eq_zero_or_pos (n * 400 / 146097) with h | h
        · rw [h] at h2; simp [daysBeforeYear] at h2
        · exact h
      have e : n * 400 / 146097 - 1 + 1 = n * 400 / 146097 := by omega
      rw [e]; exact h2
  · exact ⟨by omega, by omega⟩

theorem isLeap_iff (y : Nat) :
    isLeap y = true ↔ (y % 4 = 0 ∧ (y % 100 ≠ 0 ∨ y % 400 = 0)) := by
  simp [isLeap]

theorem yearLength_aux1 (y : Nat) (h4 : y % 4 ≠ 0) :
    365 * (y + 1) + (y + 1 + 3) / 4 - (y + 1 + 99) / 100 + (y + 1 + 399) / 400 =
      365 * y + (y + 3) / 4 - (y + 99) / 100 + (y + 399) / 400 + 365 + 0 := by
  have e1 : (y + 1 + 3) / 4 = (y + 3) / 4 := by omega
  have e2 : (y + 1 + 99) / 100 = (y + 99) / 100 := by omega
  have e3 : (y + 1 + 399) / 400 = (y + 399) / 400 := by omega
  have e4 : (y + 99) / 100 ≤ (y + 3) / 4 := by omega
  rw [e1, e2, e3]
  omega
theorem yearLength_aux2 (y : Nat) (h100 : y % 100 = 0) (h400 : y % 400 ≠ 0) :
    365 * (y + 1) + (y + 1 + 3) / 4 - (y + 1 + 99) / 100 + (y + 1 + 399) / 400 =
      365 * y + (y + 3) / 4 - (y + 99) / 100 + (y + 399) / 400 + 365 + 0 := by
  have e1 : (y + 1 + 3) / 4 = (y + 3) / 4 + 1 := by omega
  have e2 : (y + 1 + 99) / 100 = (y + 99) / 100 + 1 := by omega
  have e3 : (y + 1 + 399) / 400 = (y + 399) / 400 := by omega
  have e4 : (y + 99) / 100 ≤ (y + 3) / 4 := by omega
  rw [e1, e2, e3]
  omega
theorem yearLength_aux3 (y : Nat) (h4 : y % 4 = 0) (h100 : y % 100 ≠ 0) :
    365 * (y + 1) + (y + 1 + 3) / 4 - (y + 1 + 99) / 100 + (y + 1 + 399) / 400 =
      365 * y + (y + 3) / 4 - (y + 99) / 100 + (y + 399) / 400 + 365 + 1 := by
  have e1 : (y + 1 + 3) / 4 = (y + 3) / 4 + 1 := by omega
  have e2 : (y + 1 + 99) / 100 = (y + 99) / 100 := by omega
  have e3 : (y + 1 + 399) / 400 = (y + 399) / 400 := by omega
  have e4 : (y + 99) / 100 ≤ (y + 3) / 4 := by omega
  rw [e1, e2, e3]
  omega
theorem yearLength_aux4 (y : Nat) (h400 : y % 400 = 0) :
    365 * (y + 1) + (y + 1 + 3) / 4 - (y + 1 + 99) / 100 + (y + 1 + 399) / 400 =
      365 * y + (y + 3) / 4 - (y + 99) / 100 + (y + 399) / 400 + 365 + 1 := by
  have e1 : (y + 1 + 3) / 4 = (y + 3) / 4 + 1 := by omega
  have e2 : (y + 1 + 99) / 100 = (y + 99) / 100 + 1 := by omega
  have e3 : (y + 1 + 399) / 400 = (y + 399) / 400 + 1 := by omega
  have e4 : (y + 99) / 100 ≤ (y + 3) / 4 := by omega
  rw [e1, e2, e3]
  omega

theorem yearLength (y : Nat) :
    daysBeforeYear (y + 1) = daysBeforeYear y + 365 + (if isLeap y then 1 else 0) := by
  unfold daysBeforeYear
  cases h : isLeap y with
  | true =>
    obtain ⟨h4, h' | h'⟩ := (isLeap_iff y).mp h
    · simpa using yearLength_aux3 y h4 h'
    · simpa using yearLength_aux4 y h'
  | false =>
    have h' : ¬ (y % 4 = 0 ∧ (y % 100 ≠ 0 ∨ y % 400 = 0)) := by
      intro c
      rw [(isLeap_iff y).mpr c] at h
      exact Bool.noConfusion h
    by_cases h4 : y % 4 = 0
    · have h100 : y % 100 = 0 := by
        by_contra hc
        exact h' ⟨h4, Or.inl hc⟩
      have h400 : y % 400 ≠ 0 := fun hc => h' ⟨h4, Or.inr hc⟩
      simpa using yearLength_aux2 y h100 h400
    · simpa using yearLength_aux1 y h4

theorem daysBefore_succ (m y : Nat) (hm : 1 ≤ m) :
    daysBefore (m + 1) y = daysBefore m y + daysIn m y := by
  unfold daysBefore
  obtain ⟨k, rfl⟩ : ∃ k, m = k + 1 := ⟨m - 1, by omega⟩
  simp [List.range_succ]

theorem monthDay_foldl (y : Nat) (L : List Nat) (m0 d0 : Nat) (hm0 : 1 ≤ m0) :
    let res := L.foldl (fun (acc : Nat × Nat) _ =>
      if daysIn acc.1 y < acc.2 then (acc.1 + 1, acc.2 - daysIn acc.1 y) else acc) (m0, d0)
    m0 ≤ res.1 ∧ res.1 ≤ m0 + L.length ∧ daysBefore res.1 y + res.2 = daysBefore m0 y + d0 ∧
      (res.1 < m0 + L.length → res.2 ≤ daysIn res.1 y) ∧ (1 ≤ d0 → 1 ≤ res.2) := by
  induction L generalizing m0 d0 with
  | nil => simp
  | cons x xs ih =>
    simp only [List.foldl_cons, List.length_cons]
    by_cases hlt : daysIn m0 y < d0
    · simp only [hlt, if_true]
      have := ih (m0 + 1) (d0 - daysIn m0 y) (by omega)
      simp only at this
      obtain ⟨a1, a2, a3, a4, a5⟩ := this
      rw [daysBefore_succ m0 y hm0] at a3
      refine ⟨by omega, by omega, by omega, ?_, ?_⟩
      · intro h; exact a4 (by omega)
      · intro h
        have hpos : 1 ≤ daysIn m0 y := by unfold daysIn; split_ifs <;> omega
        exact a5 (by omega)
    · simp only [hlt, if_false]
      have hfix : xs.foldl (fun (acc : Nat × Nat) _ =>
          if daysIn acc.1 y < acc.2 then (acc.1 + 1, acc.2 - daysIn acc.1 y) else acc) (m0, d0)
          = (m0, d0) := by
        clear ih
        induction xs with
        | nil => rfl
        | cons z zs ihz => simp only [List.foldl_cons, hlt, if_false]; exact ihz
      rw [hfix]
      exact ⟨le_refl _, by omega, rfl, fun _ => Nat.le_of_not_lt hlt, fun h => h⟩

theorem daysBefore_twelve (y : Nat) : daysBefore 12 y = 334 + (if isLeap y then 1 else 0) := by
  unfold daysBefore
  cases h : isLeap y <;> simp [List.range_succ, daysIn, h]

theorem monthDay_spec (y yday : Nat) (hy : yday < 365 + (if isLeap y then 1 else 0)) :
    1 ≤ (monthDay y yday).1 ∧ (monthDay y yday).1 ≤ 12 ∧ 1 ≤ (monthDay y yday).2 ∧
      (monthDay y yday).2 ≤ daysIn (monthDay y yday).1 y ∧
      daysBefore (monthDay y yday).1 y + (monthDay y yday).2 = yday + 1 := by
  have h := monthDay_foldl y (List.range 11) 1 (yday + 1) (le_refl 1)
  simp only [List.length_range] at h
  obtain ⟨a1, a2, a3, a4, a5⟩ := h
  have hd1 : daysBefore 1 y = 0 := by simp [daysBefore]
  rw [hd1] at a3
  unfold monthDay
  refine ⟨a1, by omega, a5 (by omega), ?_, by omega⟩
  by_cases h12 : ((List.range 11).foldl (fun (acc : Nat × Nat) _ =>
      if daysIn acc.1 y < acc.2 then (acc.1 + 1, acc.2 - daysIn acc.1 y) else acc)
      (1, yday + 1)).1 < 12
  · exact a4 (by omega)
  · have e : ((List.range 11).foldl (fun (acc : Nat × Nat) _ =>
      if daysIn acc.1 y < acc.2 then (acc.1 + 1, acc.2 - daysIn acc.1 y) else acc)
      (1, yday + 1)).1 = 12 := by omega
    rw [e] at a3 ⊢
    rw [daysBefore_twelve] at a3
    have : daysIn 12 y = 31 := by simp [daysIn]
    rw [this]
    split_ifs at hy a3 <;> omega

theorem civil_spec (n : Nat) :
    1 ≤ (civil n).2.1 ∧ (civil n).2.1 ≤ 12 ∧ 1 ≤ (civil n).2.2 ∧
      (civil n).2.2 ≤ daysIn (civil n).2.1 (civil n).1 ∧
      dayNumber (civil n).1 (civil n).2.1 (civil n).2.2 = n := by
  obtain ⟨hlo, hhi⟩ := yearOfDay_spec n
  rw [yearLength] at hhi
  have h := monthDay_spec (yearOfDay n) (n - daysBeforeYear (yearOfDay n)) (by omega)
  obtain ⟨b1, b2, b3, b4, b5⟩ := h
  unfold civil dayNumber
  simp only
  exact ⟨b1, b2, b3, b4, by omega⟩

theorem civil_year_le (n : Nat) (hn : n < daysBeforeYear 10000) : (civil n).1 ≤ 9999 := by
  obtain ⟨hlo, _⟩ := yearOfDay_spec n
  show yearOfDay n ≤ 9999
  generalize yearOfDay n = y at hlo
  unfold daysBeforeYear at *
  omega

/-! ## Lemmas on the text of a date -/

theorem toDigitsCore_one (fuel n : Nat) (ds : List Char) (hn : n < 10) :
    Nat.toDigitsCore 10 (fuel + 1) n ds = Nat.digitChar n :: ds := by
  have h0 : n / 10 = 0 := by omega
  have h1 : n % 10 = n := by omega
  simp [Nat.toDigitsCore, h0, h1]

theorem toDigitsCore_step (fuel n : Nat) (ds : List Char) (hn : 10 ≤ n) :
    Nat.toDigitsCore 10 (fuel + 1) n ds =
      Nat.toDigitsCore 10 fuel (n / 10) (Nat.digitChar (n % 10) :: ds) := by
  have h0 : n / 10 ≠ 0 := by omega
  simp [Nat.toDigitsCore, h0]

theorem digitChar_zero : Nat.digitChar 0 = '0' := rfl

theorem padded_two (n : Nat) (hn : n < 100) :
    padded 2 n = [Nat.digitChar (n / 10), Nat.digitChar (n % 10)] := by
  unfold padded Nat.toDigits
  by_cases h : n < 10
  · rw [toDigitsCore_one n n [] h]
    have h0 : n / 10 = 0 := by omega
    have h1 : n % 10 = n := by omega
    simp [h0, h1, List.replicate, digitChar_zero]
  · obtain ⟨k, rfl⟩ : ∃ k, n = k + 1 := ⟨n - 1, by omega⟩
    rw [toDigitsCore_step (k + 1) (k + 1) [] (by omega),
      toDigitsCore_one k ((k + 1) / 10) _ (by omega)]
    simp

theorem padded_four (n : Nat) (hn : n < 10000) :
    padded 4 n = [Nat.digitChar (n / 1000), Nat.digitChar (n / 100 % 10),
      Nat.digitChar (n / 10 % 10), Nat.digitChar (n % 10)] := by
  unfold padded Nat.toDigits
  by_cases h1 : n < 10
  · rw [toDigitsCore_one n n [] h1]
    have e1 : n / 1000 = 0 := by omega
    have e2 : n / 100 % 10 = 0 := by omega
    have e3 : n / 10 % 10 = 0 := by omega
    have e4 : n % 10 = n := by omega
    simp [e1, e2, e3, e4, List.replicate, digitChar_zero]
  · by_cases h2 : n < 100
    · obtain ⟨k, rfl⟩ : ∃ k, n = k + 1 := ⟨n - 1, by omega⟩
      rw [toDigitsCore_step (k + 1) (k + 1) [] (by omega),
        toDigitsCore_one k ((k + 1) / 10) _ (by omega)]
      have e1 : (k + 1) / 1000 = 0 := by omega
      have e2 : (k + 1) / 100 % 10 = 0 := by omega
      have e3 : (k + 1) / 10 % 10 = (k + 1) / 10 := by omega
      simp [e1, e2, e3, List.replicate, digitChar_zero]
    · by_cases h3 : n < 1000
      · obtain ⟨k, rfl⟩ : ∃ k, n = k + 2 := ⟨n - 2, by omega⟩
        rw [toDigitsCore_step (k + 2) (k + 2) [] (by omega),
          toDigitsCore_step (k + 1) ((k + 2) / 10) _ (by omega),
          toDigitsCore_one k ((k + 2) / 10 / 10) _ (by omega)]
        have e1 : (k + 2) / 1000 = 0 := by omega
        have e2 : (k + 2) / 100 % 10 = (k + 2) / 10 / 10 := by omega
        simp [e1, e2, List.replicate, digitChar_zero]
      · obtain ⟨k, rfl⟩ : ∃ k, n = k + 3 := ⟨n - 3, by omega⟩
        rw [toDigitsCore_step (k + 3) (k + 3) [] (by omega),
          toDigitsCore_step (k + 2) ((k + 3) / 10) _ (by omega),
          toDigitsCore_step (k + 1) ((k + 3) / 10 / 10) _ (by omega),
          toDigitsCore_one k ((k + 3) / 10 / 10 / 10) _ (by omega)]
        have e1 : (k + 3) / 1000 = (k + 3) / 10 / 10 / 10 := by omega
        have e2 : (k + 3) / 100 % 10 = (k + 3) / 10 / 10 % 10 := by omega
        simp [e1, e2]

theorem daysIn_le (m y : Nat) : daysIn m y ≤ 31 := by
  unfold daysIn
  split_ifs <;> omega

theorem formatDate_data (n : Nat) (hn : n < daysBeforeYear 10000) :
    (formatDate n).data =
      [Nat.digitChar ((civil n).1 / 1000), Nat.digitChar ((civil n).1 / 100 % 10),
       Nat.digitChar ((civil n).1 / 10 % 10), Nat.digitChar ((civil n).1 % 10), '-',
       Nat.digitChar ((civil n).2.1 / 10), Nat.digitChar ((civil n).2.1 % 10), '-',
       Nat.digitChar ((civil n).2.2 / 10), Nat.digitChar ((civil n).2.2 % 10)] := by
  obtain ⟨_, hm, _, hd, _⟩ := civil_spec n
  have hd' := daysIn_le (civil n).2.1 (civil n).1
  unfold formatDate
  simp only
  rw [padded_four _ (by have := civil_year_le n hn; omega), padded_two _ (by omega),
    padded_two _ (by omega)]
  rfl

theorem digitChar_inj : ∀ a < 10, ∀ b < 10, Nat.digitChar a = Nat.digitChar b → a = b := by
  decide

theorem digitChar_clean : ∀ a < 10, Nat.digitChar a ∉ ".json".data := by
  decide

theorem formatDate_length (n : Nat) (hn : n < daysBeforeYear 10000) :
    (formatDate n).data.length = 10 := by
  rw [formatDate_data n hn]
  rfl

theorem dash_clean : '-' ∉ ".json".data := by decide

theorem dateText_clean (y m d : Nat) (hy : y ≤ 9999) (hm : m ≤ 12) (hd : d ≤ 31) :
    ∀ c ∈ [Nat.digitChar (y / 1000), Nat.digitChar (y / 100 % 10),
       Nat.digitChar (y / 10 % 10), Nat.digitChar (y % 10), '-',
       Nat.digitChar (m / 10), Nat.digitChar (m % 10), '-',
       Nat.digitChar (d / 10), Nat.digitChar (d % 10)], c ∉ ".json".data := by
  have b1 : y / 1000 < 10 := by omega
  have b2 : y / 100 % 10 < 10 := by omega
  have b3 : y / 10 % 10 < 10 := by omega
  have b4 : y % 10 < 10 := by omega
  have b5 : m / 10 < 10 := by omega
  have b6 : m % 10 < 10 := by omega
  have b7 : d / 10 < 10 := by omega
  have b8 : d % 10 < 10 := by omega
  intro c hc
  simp only [List.mem_cons, List.mem_singleton, List.not_mem_nil, or_false] at hc
  rcases hc with rfl | rfl | rfl | rfl | rfl | rfl | rfl | rfl | rfl | rfl
  · exact digitChar_clean _ b1
  · exact digitChar_clean _ b2
  · exact digitChar_clean _ b3
  · exact digitChar_clean _ b4
  · exact dash_clean
  · exact digitChar_clean _ b5
  · exact digitChar_clean _ b6
  · exact dash_clean
  · exact digitChar_clean _ b7
  · exact digitChar_clean _ b8

theorem formatDate_clean (n : Nat) (hn : n < daysBeforeYear 10000) :
    ∀ c ∈ (formatDate n).data, c ∉ ".json".data := by
  obtain ⟨_, hm, _, hd, _⟩ := civil_spec n
  have hd' := daysIn_le (civil n).2.1 (civil n).1
  have hy := civil_year_le n hn
  rw [formatDate_data n hn]
  exact dateText_clean _ _ _ hy hm (le_trans hd hd')

theorem dateText_inj (y m d y' m' d' : Nat) (hy : y ≤ 9999) (hm : m ≤ 12) (hd : d ≤ 31)
    (hy' : y' ≤ 9999) (hm' : m' ≤ 12) (hd' : d' ≤ 31)
    (h : [Nat.digitChar (y / 1000), Nat.digitChar (y / 100 % 10),
       Nat.digitChar (y / 10 % 10), Nat.digitChar (y % 10), '-',
       Nat.digitChar (m / 10), Nat.digitChar (m % 10), '-',
       Nat.digitChar (d / 10), Nat.digitChar (d % 10)] =
      [Nat.digitChar (y' / 1000), Nat.digitChar (y' / 100 % 10),
       Nat.digitChar (y' / 10 % 10), Nat.digitChar (y' % 10), '-',
       Nat.digitChar (m' / 10), Nat.digitChar (m' % 10), '-',
       Nat.digitChar (d' / 10), Nat.digitChar (d' % 10)]) :
    y = y' ∧ m = m' ∧ d = d' := by
  simp only [List.cons.injEq, and_true, true_and] at h
  obtain ⟨e1, e2, e3, e4, e5, e6, e7, e8⟩ := h
  have f1 := digitChar_inj _ (by omega) _ (by omega) e1
  have f2 := digitChar_inj _ (by omega) _ (by omega) e2
  have f3 := digitChar_inj _ (by omega) _ (by omega) e3
  have f4 := digitChar_inj _ (by omega) _ (by omega) e4
  have f5 := digitChar_inj _ (by omega) _ (by omega) e5
  have f6 := digitChar_inj _ (by omega) _ (by omega) e6
  have f7 := digitChar_inj _ (by omega) _ (by omega) e7
  have f8 := digitChar_inj _ (by omega) _ (by omega) e8
  exact ⟨by omega, by omega, by omega⟩

theorem formatDate_inj (n n' : Nat) (hn : n < daysBeforeYear 10000)
    (hn' : n' < daysBeforeYear 10000) (h : formatDate n = formatDate n') : n = n' := by
  have hdata : (formatDate n).data = (formatDate n').data := by rw [h]
  rw [formatDate_data n hn, formatDate_data n' hn'] at hdata
  obtain ⟨_, hm, _, hd, hnum⟩ := civil_spec n
  obtain ⟨_, hm', _, hd', hnum'⟩ := civil_spec n'
  have hy := civil_year_le n hn
  have hy' := civil_year_le n' hn'
  have hdl := daysIn_le (civil n).2.1 (civil n).1
  have hdl' := daysIn_le (civil n').2.1 (civil n').1
  obtain ⟨gy, gm, gd⟩ := dateText_inj _ _ _ _ _ _ hy hm (le_trans hd hdl) hy' hm'
    (le_trans hd' hdl') hdata
  rw [← hnum, ← hnum', gy, gm, gd]

theorem daysBefore_add_daysIn_le (m y : Nat) (hm1 : 1 ≤ m) (hm : m ≤ 12) :
    daysBefore m y + daysIn m y ≤ 365 + (if isLeap y then 1 else 0) := by
  rw [← daysBefore_succ m y hm1]
  interval_cases m <;> cases h : isLeap y <;>
    simp [daysBefore, List.range_succ, daysIn, h]

theorem dayNumber_bounds (y m d : Nat) (hm1 : 1 ≤ m) (hm : m ≤ 12) (hd1 : 1 ≤ d)
    (hd : d ≤ daysIn m y) :
    daysBeforeYear y ≤ dayNumber y m d ∧ dayNumber y m d < daysBeforeYear (y + 1) := by
  have h := daysBefore_add_daysIn_le m y hm1 hm
  rw [yearLength]
  unfold dayNumber
  constructor <;> omega

theorem daysBeforeYear_mono (y y' : Nat) (h : y ≤ y') : daysBeforeYear y ≤ daysBeforeYear y' := by
  induction y' with
  | zero =>
    have : y = 0 := by omega
    rw [this]
  | succ k ih =>
    rcases Nat.lt_or_ge y (k + 1) with hlt | hge
    · have := ih (by omega)
      rw [yearLength]
      omega
    · have : y = k + 1 := by omega
      rw [this]

theorem digitVal_le (c : Char) (h : c.isDigit = true) : digitVal c ≤ 9 := by
  unfold digitVal
  simp [Char.isDigit] at h
  have h2 := h.2
  have : c.val.toNat ≤ 57 := by
    have := UInt32.le_def.mp h2
    simpa using this
  show c.val.toNat - 48 ≤ 9
  omega

theorem digitsVal_four (a b c d : Char) :
    digitsVal [a, b, c, d] = digitVal a * 1000 + digitVal b * 100 + digitVal c * 10 + digitVal d := by
  simp [digitsVal]
  ring

theorem getnum_fixed (s : List Char) (v : Nat) (rest : List Char)
    (h : getnum s true = some (v, rest)) :
    ∃ a b, s = a :: b :: rest ∧ a.isDigit = true ∧ b.isDigit = true ∧
      v = digitVal a * 10 + digitVal b := by
  match s, h with
  | [], h => simp [getnum] at h
  | [a], h =>
    simp only [getnum] at h
    split_ifs at h
  | a :: b :: r, h =>
    simp only [getnum] at h
    split_ifs at h with ha hb
    simp at h
    exact ⟨a, b, by rw [h.2], ha, hb, h.1.symm⟩

/-- A date that parses is ten characters, of a year up to 9999, a month and
a day of that month. -/
theorem parseDate_inv (s : String) (n : Nat) (h : parseDate s = some n) :
    ∃ y1 y2 y3 y4 m1 m2 d1 d2 : Char,
      s.data = [y1, y2, y3, y4, '-', m1, m2, '-', d1, d2] ∧
      (y1.isDigit = true ∧ y2.isDigit = true ∧ y3.isDigit = true ∧ y4.isDigit = true ∧
       m1.isDigit = true ∧ m2.isDigit = true ∧ d1.isDigit = true ∧ d2.isDigit = true) ∧
      1 ≤ digitVal m1 * 10 + digitVal m2 ∧ digitVal m1 * 10 + digitVal m2 ≤ 12 ∧
      1 ≤ digitVal d1 * 10 + digitVal d2 ∧
      digitVal d1 * 10 + digitVal d2 ≤
        daysIn (digitVal m1 * 10 + digitVal m2) (digitsVal [y1, y2, y3, y4]) ∧
      n = dayNumber (digitsVal [y1, y2, y3, y4]) (digitVal m1 * 10 + digitVal m2)
        (digitVal d1 * 10 + digitVal d2) := by
  unfold parseDate at h
  split at h
  · rename_i y1 y2 y3 y4 rest hdata
    split_ifs at h with hy
    simp only [Bool.and_eq_true] at hy
    obtain ⟨⟨⟨hy1, hy2⟩, hy3⟩, hy4⟩ := hy
    split at h
    · rename_i v1
      split at h
      · simp at h
      · rename_i month v2 hg1
        obtain ⟨m1, m2, rfl, hm1, hm2, rfl⟩ := getnum_fixed _ _ _ hg1
        split_ifs at h with hmr
        split at h
        · rename_i v3
          split at h
          · simp at h
          · rename_i day v4 hg2
            obtain ⟨d1, d2, rfl, hd1, hd2, rfl⟩ := getnum_fixed _ _ _ hg2
            by_cases hv4 : v4 = []
            · subst hv4
              simp at h
              simp only [Bool.or_eq_true, decide_eq_true_eq, not_or, not_lt] at hmr
              obtain ⟨⟨h1, h2⟩, h3⟩ := h
              refine ⟨y1, y2, y3, y4, m1, m2, d1, d2, hdata,
                ⟨hy1, hy2, hy3, hy4, hm1, hm2, hd1, hd2⟩,
                by omega, by omega, by omega, h2, h3.symm⟩
            · simp [hv4] at h
        · simp at h
    · simp at h
  · simp at h

theorem parseDate_lt (s : String) (n : Nat) (h : parseDate s = some n) :
    n < daysBeforeYear 10000 := by
  obtain ⟨y1, y2, y3, y4, m1, m2, d1, d2, _, ⟨hy1, hy2, hy3, hy4, _⟩, a1, a2, a3, a4, rfl⟩ :=
    parseDate_inv s n h
  have hb := (dayNumber_bounds _ _ _ a1 a2 a3 a4).2
  have hy : digitsVal [y1, y2, y3, y4] + 1 ≤ 10000 := by
    rw [digitsVal_four]
    have := digitVal_le y1 hy1
    have := digitVal_le y2 hy2
    have := digitVal_le y3 hy3
    have := digitVal_le y4 hy4
    omega
  exact lt_of_lt_of_le hb (daysBeforeYear_mono _ _ hy)

/-! ## Lemmas on the first occurrence of a separator -/

theorem isPrefixOf_append_of_le (sep l x : List Char) (h : sep.length ≤ l.length) :
    sep.isPrefixOf (l ++ x) = sep.isPrefixOf l := by
  induction sep generalizing l with
  | nil => simp
  | cons a as ih =>
    cases l with
    | nil => simp at h
    | cons b bs =>
      have := ih bs (by simpa using h)
      simp [List.isPrefixOf, this]

theorem cut_length_le (sep s a b : List Char) (h : cut sep s = some (a, b)) :
    sep.length ≤ s.length := by
  have := cut_eq_some sep s a b h
  rw [this]
  simp
  omega

/-- An occurrence of the separator in a text is still the first one when more
text follows. -/
theorem cut_append_of_some (sep p x a b : List Char) (h : cut sep p = some (a, b)) :
    cut sep (p ++ x) = some (a, b ++ x) := by
  induction p generalizing a with
  | nil =>
    unfold cut at h
    split at h
    · rename_i hs
      have hsep : sep = [] := by simpa using hs
      simp at h
      obtain ⟨rfl, rfl⟩ := h
      subst hsep
      cases x with
      | nil => simp [cut]
      | cons c cs => simp [cut]
    · simp at h
  | cons c cs ih =>
    have hlen := cut_length_le sep _ a b h
    unfold cut at h
    simp only [List.cons_append]
    unfold cut
    have hpre : sep.isPrefixOf (c :: (cs ++ x)) = sep.isPrefixOf (c :: cs) := by
      have := isPrefixOf_append_of_le sep (c :: cs) x hlen
      simpa using this
    rw [hpre]
    split at h
    · rename_i hp
      simp only [hp, if_true]
      simp at h
      obtain ⟨rfl, rfl⟩ := h
      have hl : sep.length ≤ (c :: cs).length := hlen
      have hdrop : List.drop sep.length ((c :: cs) ++ x) = List.drop sep.length (c :: cs) ++ x :=
        List.drop_append_of_le_length hl
      simpa using hdrop
    · rename_i hp
      simp only [hp, if_false]
      cases hc : cut sep cs with
      | none => simp [hc] at h
      | some ab =>
        obtain ⟨a', b'⟩ := ab
        simp [hc] at h
        obtain ⟨rfl, rfl⟩ := h
        simp [ih a' hc]

/-- In a text whose characters are not in the separator, followed by the
separator, the separator occurs first at the end. -/
theorem cut_clean (sep d : List Char) (hsep : sep ≠ []) (hd : ∀ c ∈ d, c ∉ sep) :
    cut sep (d ++ sep) = some (d, []) := by
  induction d with
  | nil =>
    cases sep with
    | nil => exact absurd rfl hsep
    | cons a as =>
      have : (a :: as).isPrefixOf (a :: as) = true := by
        rw [List.isPrefixOf_iff_prefix]
      simp [cut, this]
  | cons c cs ih =>
    have hc : c ∉ sep := hd c (List.mem_cons_self _ _)
    have hnot : sep.isPrefixOf (c :: (cs ++ sep)) = false := by
      cases sep with
      | nil => exact absurd rfl hsep
      | cons a as =>
        have hac : (a == c) = false := by
          simp only [beq_eq_false_iff_ne]
          intro h
          exact hc (by simp [h])
        simp [List.isPrefixOf, hac]
    simp only [List.cons_append]
    unfold cut
    simp only [hnot]
    rw [ih (fun x hx => hd x (List.mem_cons_of_mem _ hx))]
    simp

/-- A text without the separator, followed by a long enough text whose
characters are not in the separator and then by the separator: the separator
occurs first at the end. -/
theorem cut_none_append_clean (sep p d : List Char) (hsep : sep ≠ [])
    (hp : cut sep p = none) (hd : ∀ c ∈ d, c ∉ sep) (hlen : sep.length ≤ d.length + 1) :
    cut sep (p ++ d ++ sep) = some (p ++ d, []) := by
  induction p with
  | nil => simpa using cut_clean sep d hsep hd
  | cons c cs ih =>
    unfold cut at hp
    split at hp
    · simp at hp
    · rename_i hnp
      have hcs : cut sep cs = none := by
        cases hc : cut sep cs with
        | none => rfl
        | some ab => simp [hc] at hp
      have hnot : sep.isPrefixOf (c :: (cs ++ d ++ sep)) = false := by
        cases hb : sep.isPrefixOf (c :: (cs ++ d ++ sep)) with
        | false => rfl
        | true =>
          exfalso
          rw [List.isPrefixOf_iff_prefix] at hb
          have hb' : sep <+: (c :: cs) ++ (d ++ sep) := by simpa using hb
          have hpl : (c :: cs) <+: (c :: cs) ++ (d ++ sep) := List.prefix_append _ _
          by_cases hl : sep.length ≤ (c :: cs).length
          · have hpre := List.prefix_of_prefix_length_le hb' hpl hl
            rw [← List.isPrefixOf_iff_prefix] at hpre
            exact hnp hpre
          · have hpre := List.prefix_of_prefix_length_le hpl hb' (by omega)
            obtain ⟨t, ht⟩ := hpre
            have hb2 : (c :: cs) ++ t <+: (c :: cs) ++ (d ++ sep) := by rw [ht]; exact hb'
            have ht' : t <+: d ++ sep := (List.prefix_append_right_inj _).mp hb2
            have htl : t.length ≤ d.length := by
              have : sep.length = (c :: cs).length + t.length := by
                rw [← ht, List.length_append]
              have hpos : 1 ≤ (c :: cs).length := by simp
              omega
            have htd : t <+: d := List.prefix_of_prefix_length_le ht' (List.prefix_append _ _) htl
            cases t with
            | nil =>
              simp at ht
              rw [← ht] at hl
              exact hl (le_refl _)
            | cons t0 ts =>
              have h1 : t0 ∈ d := htd.subset (List.mem_cons_self _ _)
              have h2 : t0 ∈ sep := by rw [← ht]; simp
              exact hd t0 h1 h2
      have ih' := ih hcs
      simp only [List.cons_append]
      unfold cut
      simp only [hnot]
      rw [ih']
      simp

theorem daysBefore_mono (a b y : Nat) (ha : 1 ≤ a) (hab : a ≤ b) :
    daysBefore a y ≤ daysBefore b y := by
  induction b with
  | zero => omega
  | succ k ih =>
    rcases Nat.lt_or_ge a (k + 1) with hlt | hge
    · have := ih (by omega)
      rw [daysBefore_succ k y (by omega)]
      omega
    · have : a = k + 1 := by omega
      rw [this]

/-- A day of the calendar is the day that its number stands for. -/
theorem civil_dayNumber (y m d : Nat) (hm1 : 1 ≤ m) (hm : m ≤ 12) (hd1 : 1 ≤ d)
    (hd : d ≤ daysIn m y) : civil (dayNumber y m d) = (y, m, d) := by
  obtain ⟨c1, c2, c3, c4, c5⟩ := civil_spec (dayNumber y m d)
  obtain ⟨b1, b2⟩ := dayNumber_bounds y m d hm1 hm hd1 hd
  generalize civil (dayNumber y m d) = c at c1 c2 c3 c4 c5
  obtain ⟨y', m', d'⟩ := c
  simp only at c1 c2 c3 c4 c5
  obtain ⟨b1', b2'⟩ := dayNumber_bounds y' m' d' c1 c2 c3 c4
  rw [c5] at b1' b2'
  have hy : y' = y := by
    rcases Nat.lt_trichotomy y' y with h | h | h
    · have := daysBeforeYear_mono (y' + 1) y h
      omega
    · exact h
    · have := daysBeforeYear_mono (y + 1) y' h
      omega
  subst hy
  have hsum : daysBefore m' y' + d' = daysBefore m y' + d := by
    unfold dayNumber at c5
    omega
  have hmm : m' = m := by
    rcases Nat.lt_trichotomy m' m with h | h | h
    · have h1 := daysBefore_mono (m' + 1) m y' (by omega) h
      rw [daysBefore_succ m' y' c1] at h1
      omega
    · exact h
    · have h1 := daysBefore_mono (m + 1) m' y' (by omega) h
      rw [daysBefore_succ m y' hm1] at h1
      omega
  subst hmm
  have hdd : d' = d := by omega
  rw [hdd]

theorem isDigit_cases (c : Char) (h : c.isDigit = true) :
    c = '0' ∨ c = '1' ∨ c = '2' ∨ c = '3' ∨ c = '4' ∨ c = '5' ∨ c = '6' ∨ c = '7' ∨
      c = '8' ∨ c = '9' := by
  simp [Char.isDigit] at h
  have h1 : 48 ≤ c.val.toNat := by
    have := UInt32.le_def.mp h.1
    simpa using this
  have h2 : c.val.toNat ≤ 57 := by
    have := UInt32.le_def.mp h.2
    simpa using this
  have hc : Char.ofNat c.toNat = c := Char.ofNat_toNat c
  have h1' : 48 ≤ c.toNat := h1
  have h2' : c.toNat ≤ 57 := h2
  generalize c.toNat = k at hc h1' h2'
  interval_cases k <;> simp [← hc]

theorem digitChar_digitVal (c : Char) (h : c.isDigit = true) :
    Nat.digitChar (digitVal c) = c := by
  rcases isDigit_cases c h with rfl | rfl | rfl | rfl | rfl | rfl | rfl | rfl | rfl | rfl <;> rfl

/-- A date that parses is the text of the day it parses to. -/
theorem formatDate_parseDate (s : String) (n : Nat) (h : parseDate s = some n) :
    formatDate n = s := by
  obtain ⟨y1, y2, y3, y4, m1, m2, d1, d2, hdata, ⟨hy1, hy2, hy3, hy4, hm1, hm2, hd1, hd2⟩,
    a1, a2, a3, a4, rfl⟩ := parseDate_inv s n h
  have hlt := parseDate_lt s _ h
  apply String.ext
  rw [formatDate_data _ hlt, civil_dayNumber _ _ _ a1 a2 a3 a4, hdata]
  simp only
  have q1 := digitVal_le y1 hy1
  have q2 := digitVal_le y2 hy2
  have q3 := digitVal_le y3 hy3
  have q4 := digitVal_le y4 hy4
  have q5 := digitVal_le m1 hm1
  have q6 := digitVal_le m2 hm2
  have q7 := digitVal_le d1 hd1
  have q8 := digitVal_le d2 hd2
  rw [digitsVal_four]
  have e1 : (digitVal y1 * 1000 + digitVal y2 * 100 + digitVal y3 * 10 + digitVal y4) / 1000 =
      digitVal y1 := by omega
  have e2 : (digitVal y1 * 1000 + digitVal y2 * 100 + digitVal y3 * 10 + digitVal y4) / 100 % 10 =
      digitVal y2 := by omega
  have e3 : (digitVal y1 * 1000 + digitVal y2 * 100 + digitVal y3 * 10 + digitVal y4) / 10 % 10 =
      digitVal y3 := by omega
  have e4 : (digitVal y1 * 1000 + digitVal y2 * 100 + digitVal y3 * 10 + digitVal y4) % 10 =
      digitVal y4 := by omega
  have e5 : (digitVal m1 * 10 + digitVal m2) / 10 = digitVal m1 := by omega
  have e6 : (digitVal m1 * 10 + digitVal m2) % 10 = digitVal m2 := by omega
  have e7 : (digitVal d1 * 10 + digitVal d2) / 10 = digitVal d1 := by omega
  have e8 : (digitVal d1 * 10 + digitVal d2) % 10 = digitVal d2 := by omega
  rw [e1, e2, e3, e4, e5, e6, e7, e8, digitChar_digitVal y1 hy1, digitChar_digitVal y2 hy2,
    digitChar_digitVal y3 hy3, digitChar_digitVal y4 hy4, digitChar_digitVal m1 hm1,
    digitChar_digitVal m2 hm2, digitChar_digitVal d1 hd1, digitChar_digitVal d2 hd2]

/-! ## Lemmas on the paths of the buckets -/

theorem bucketPath_data_eq (r : fileRepository) (date : String) (h : '/' ∉ date.data) :
    (r.bucketPath date).data = dirPrefix r ++ date.data ++ ".json".data := by
  unfold fileRepository.bucketPath dirPrefix
  have hd : (date ++ ".json").data = date.data ++ ".json".data := by
    simp [String.data_append]
  rw [filepathJoin_plain r.notesDir (date ++ ".json"), hd, List.append_assoc]
  · rw [hd]
    intro hm
    rcases List.mem_append.mp hm with h1 | h1
    · exact h h1
    · exact absurd h1 (by decide)
  · rw [hd]
    intro e
    have := congrArg List.length e
    simp at this
  · rw [hd]
    intro e
    have := congrArg List.length e
    simp only [List.length_append, List.length_cons, List.length_nil] at this
    have h5 : ".json".data.length = 5 := by decide
    omega
  · rw [hd]
    intro e
    have := congrArg List.length e
    simp only [List.length_append, List.length_cons, List.length_nil] at this
    have h5 : ".json".data.length = 5 := by decide
    omega

theorem bucketPath_inj (r : fileRepository) (d1 d2 : String)
    (h1 : '/' ∉ d1.data) (h2 : '/' ∉ d2.data)
    (h : r.bucketPath d1 = r.bucketPath d2) : d1 = d2 := by
  have hd : (r.bucketPath d1).data = (r.bucketPath d2).data := by rw [h]
  rw [bucketPath_data_eq r d1 h1, bucketPath_data_eq r d2 h2] at hd
  have := List.append_cancel_left (List.append_cancel_right hd)
  exact String.ext this

theorem textPath_data_length (r : fileRepository) (date : String) :
    (textPath (r.bucketPath date)).data.length + 1 = (r.bucketPath date).data.length := by
  obtain ⟨x, hx⟩ := bucketPath_data r date
  exact Replace1_length _ x hx

theorem textPath_ne_bucketPath (r : fileRepository) (d1 d2 : String)
    (h1 : CleanDate d1) (h2 : CleanDate d2) :
    textPath (r.bucketPath d1) ≠ r.bucketPath d2 := by
  intro h
  have hl := textPath_data_length r d1
  rw [h, bucketPath_data_eq r d1 h1.2.2, bucketPath_data_eq r d2 h2.2.2] at hl
  simp only [List.length_append, h1.1, h2.1] at hl
  omega

theorem textPath_data_eq (r : fileRepository) (date : String) (h : CleanDate date) :
    (∃ a b, cut ".json".data (dirPrefix r) = some (a, b) ∧
      (textPath (r.bucketPath date)).data = a ++ ".txt".data ++ b ++ date.data ++ ".json".data) ∨
    (cut ".json".data (dirPrefix r) = none ∧
      (textPath (r.bucketPath date)).data = dirPrefix r ++ date.data ++ ".txt".data) := by
  unfold textPath
  simp only
  rw [bucketPath_data_eq r date h.2.2]
  cases hc : cut ".json".data (dirPrefix r) with
  | some ab =>
    obtain ⟨a, b⟩ := ab
    left
    refine ⟨a, b, rfl, ?_⟩
    have := cut_append_of_some ".json".data (dirPrefix r) (date.data ++ ".json".data) a b hc
    unfold Replace1
    rw [List.append_assoc, this]
    simp
  | none =>
    right
    refine ⟨rfl, ?_⟩
    have := cut_none_append_clean ".json".data (dirPrefix r) date.data (by decide) hc h.2.1
      (by rw [h.1]; decide)
    unfold Replace1
    rw [this]
    simp

theorem textPath_inj (r : fileRepository) (d1 d2 : String)
    (h1 : CleanDate d1) (h2 : CleanDate d2)
    (h : textPath (r.bucketPath d1) = textPath (r.bucketPath d2)) : d1 = d2 := by
  have hd : (textPath (r.bucketPath d1)).data = (textPath (r.bucketPath d2)).data := by rw [h]
  rcases textPath_data_eq r d1 h1 with ⟨a, b, hc, e1⟩ | ⟨hc, e1⟩ <;>
    rcases textPath_data_eq r d2 h2 with ⟨a', b', hc', e2⟩ | ⟨hc', e2⟩
  · rw [hc] at hc'
    simp only [Option.some.injEq, Prod.mk.injEq] at hc'
    obtain ⟨rfl, rfl⟩ := hc'
    rw [e1, e2] at hd
    exact String.ext (List.append_cancel_left (List.append_cancel_right hd))
  · rw [hc] at hc'; simp at hc'
  · rw [hc] at hc'; simp at hc'
  · rw [e1, e2] at hd
    exact String.ext (List.append_cancel_left (List.append_cancel_right hd))

theorem digitChar_ne_slash : ∀ a < 10, Nat.digitChar a ≠ '/' := by
  decide

theorem formatDate_no_slash (n : Nat) (hn : n < daysBeforeYear 10000) :
    '/' ∉ (formatDate n).data := by
  obtain ⟨_, hm, _, hd, _⟩ := civil_spec n
  have hd' := daysIn_le (civil n).2.1 (civil n).1
  have hy := civil_year_le n hn
  rw [formatDate_data n hn]
  intro hc
  simp only [List.mem_cons, List.mem_singleton, List.not_mem_nil, or_false] at hc
  rcases hc with h | h | h | h | h | h | h | h | h | h
  · exact digitChar_ne_slash _ (by omega) h.symm
  · exact digitChar_ne_slash _ (by omega) h.symm
  · exact digitChar_ne_slash _ (by omega) h.symm
  · exact digitChar_ne_slash _ (by omega) h.symm
  · exact absurd h (by decide)
  · exact digitChar_ne_slash _ (by omega) h.symm
  · exact digitChar_ne_slash _ (by omega) h.symm
  · exact absurd h (by decide)
  · exact digitChar_ne_slash _ (by omega) h.symm
  · exact digitChar_ne_slash _ (by omega) h.symm

theorem formatDate_cleanDate (n : Nat) (hn : n < daysBeforeYear 10000) :
    CleanDate (formatDate n) :=
  ⟨formatDate_length n hn, formatDate_clean n hn, formatDate_no_slash n hn⟩

/-! ## Lemmas on what a read depends on and changes -/

theorem writeNotesToFile_frame (fs : FS) (p q : String) (notes : List Note) (hq : q ≠ p) :
    (writeNotesToFile fs p notes).2 q = fs q := by
  rcases writeNotesToFile_cases fs p notes with ⟨e, hw⟩ | ⟨_, hw⟩ | hw
  · rw [hw]
  · rw [hw]; simp [Function.update_noteq hq]
  · rw [hw]; simp [Function.update_noteq hq]

theorem writeNotesToFile_congr (fs fs' : FS) (p : String) (notes : List Note)
    (h : fs p = fs' p) (hb : Blocked fs p = Blocked fs' p) :
    (writeNotesToFile fs p notes).1 = (writeNotesToFile fs' p notes).1 := by
  unfold writeNotesToFile encodeInto
  rw [h, hb]
  cases fs' p with
  | none => simp only; split_ifs <;> rfl
  | some e =>
    cases e with
    | denied => rfl
    | kept data => rfl
    | file data w =>
      cases w
      · rfl
      · simp only; split_ifs <;> rfl

theorem migrate_frame (fs : FS) (p date q : String) (hq1 : q ≠ p) (hq2 : q ≠ textPath p) :
    (migrateFromTextFormat fs p date).2 q = fs q := by
  unfold migrateFromTextFormat
  simp only
  cases Open fs (textPath p) with
  | notExist => rfl
  | failed => rfl
  | opened data =>
    simp only
    cases scanLines data.scanText.data with
    | none => rfl
    | some lines =>
      simp only
      split_ifs
      · rcases writeNotesToFile_cases fs p (migrateLines date lines) with
          ⟨e, hw⟩ | ⟨_, hw⟩ | hw
        · rw [hw]
        · rw [hw]
          simp only
          rw [Remove_of_ne _ _ _ hq2, Function.update_noteq hq1]
        · rw [hw]
          simp [Function.update_noteq hq1]
      · rfl

theorem migrate_congr (fs fs' : FS) (p date : String) (h1 : fs p = fs' p)
    (hb1 : Blocked fs p = Blocked fs' p)
    (h2 : fs (textPath p) = fs' (textPath p))
    (hb2 : Blocked fs (textPath p) = Blocked fs' (textPath p)) :
    (migrateFromTextFormat fs p date).1 = (migrateFromTextFormat fs' p date).1 := by
  unfold migrateFromTextFormat
  simp only
  rw [Open_congr fs fs' _ h2 hb2]
  cases Open fs' (textPath p) with
  | notExist => rfl
  | failed => rfl
  | opened data =>
    simp only
    cases scanLines data.scanText.data with
    | none => rfl
    | some lines =>
      simp only
      split_ifs
      · have hw := writeNotesToFile_congr fs fs' p (migrateLines date lines) h1 hb1
        rcases writeNotesToFile_cases fs p (migrateLines date lines) with
          ⟨e, hw1⟩ | ⟨_, hw1⟩ | hw1 <;>
          rcases writeNotesToFile_cases fs' p (migrateLines date lines) with
            ⟨e', hw2⟩ | ⟨_, hw2⟩ | hw2 <;>
          rw [hw1, hw2] at hw <;> rw [hw1, hw2] <;> simp at hw ⊢ <;> exact hw
      · rfl

theorem read_frame (fs : FS) (p date q : String) (hq1 : q ≠ p) (hq2 : q ≠ textPath p) :
    (readNotesFromFile fs p date).2 q = fs q := by
  unfold readNotesFromFile
  cases Open fs p with
  | notExist => rfl
  | failed => rfl
  | opened data =>
    simp only
    cases data.decode with
    | none => exact migrate_frame fs p date q hq1 hq2
    | some notes => rfl

theorem read_congr (fs fs' : FS) (p date : String) (h1 : fs p = fs' p)
    (hb1 : Blocked fs p = Blocked fs' p)
    (h2 : fs (textPath p) = fs' (textPath p))
    (hb2 : Blocked fs (textPath p) = Blocked fs' (textPath p)) :
    (readNotesFromFile fs p date).1 = (readNotesFromFile fs' p date).1 := by
  have hm := migrate_congr fs fs' p date h1 hb1 h2 hb2
  unfold readNotesFromFile
  rw [Open_congr fs fs' p h1 hb1]
  cases Open fs' p with
  | notExist => rfl
  | failed => rfl
  | opened data =>
    simp only
    cases data.decode with
    | none => exact hm
    | some notes => rfl

theorem bucketPath_length (r : fileRepository) (d : String) (h : CleanDate d) :
    (r.bucketPath d).data.length = (dirPrefix r).length + 15 := by
  rw [bucketPath_data_eq r d h.2.2]
  simp only [List.length_append, h.1]
  rfl

theorem textPath_length (r : fileRepository) (d : String) (h : CleanDate d) :
    (textPath (r.bucketPath d)).data.length = (dirPrefix r).length + 14 := by
  have := textPath_data_length r d
  rw [bucketPath_length r d h] at this
  omega

theorem no_slash_of_clean (d : String) (h : CleanDate d) (ext : List Char)
    (he : '/' ∉ ext) : '/' ∉ d.data ++ ext := by
  intro hm
  rcases List.mem_append.mp hm with h1 | h1
  · exact h.2.2 h1
  · exact he h1

/-- The directories on the way to the bucket file or the legacy file of a
clean date are shorter than the prefix of the bucket paths. -/
theorem ancestor_short (r : fileRepository) (x : String) (hx : CleanDate x) (a : String)
    (h : a ∈ ancestors (r.bucketPath x) ∨ a ∈ ancestors (textPath (r.bucketPath x))) :
    a.data.length < (dirPrefix r).length := by
  rcases h with h | h
  · exact ancestor_length_lt _ a (dirPrefix r) (x.data ++ ".json".data)
      (by rw [bucketPath_data_eq r x hx.2.2, List.append_assoc])
      (no_slash_of_clean x hx _ (by decide)) h
  · rcases textPath_data_eq r x hx with ⟨a0, b0, hc, e1⟩ | ⟨_, e1⟩
    · have hp := cut_eq_some _ _ _ _ hc
      have := ancestor_length_lt _ a (a0 ++ ".txt".data ++ b0) (x.data ++ ".json".data)
        (by rw [e1]; simp only [List.append_assoc])
        (no_slash_of_clean x hx _ (by decide)) h
      rw [hp]
      have h4 : ".txt".data.length = 4 := by decide
      have h5 : ".json".data.length = 5 := by decide
      simp only [List.length_append, h4] at this
      simp only [List.length_append, h5]
      omega
    · exact ancestor_length_lt _ a (dirPrefix r) (x.data ++ ".txt".data)
        (by rw [e1, List.append_assoc])
        (no_slash_of_clean x hx _ (by decide)) h

/-- Reading the bucket of one clean date leaves the way to the files of every
clean date as it was. -/
theorem read_keeps_blocked (r : fileRepository) (fs : FS) (d x date : String)
    (hd : CleanDate d) (hx : CleanDate x) :
    Blocked (readNotesFromFile fs (r.bucketPath d) date).2 (r.bucketPath x) =
      Blocked fs (r.bucketPath x) ∧
    Blocked (readNotesFromFile fs (r.bucketPath d) date).2 (textPath (r.bucketPath x)) =
      Blocked fs (textPath (r.bucketPath x)) := by
  have key : ∀ a : String, a.data.length < (dirPrefix r).length →
      (readNotesFromFile fs (r.bucketPath d) date).2 a = fs a := by
    intro a ha
    apply read_frame
    · intro e
      have := bucketPath_length r d hd
      rw [← e] at this
      omega
    · intro e
      have := textPath_length r d hd
      rw [← e] at this
      omega
  constructor
  · exact Blocked_congr _ _ _ (fun a ha => key a (ancestor_short r x hx a (Or.inl ha)))
  · exact Blocked_congr _ _ _ (fun a ha => key a (ancestor_short r x hx a (Or.inr ha)))

theorem rangeLoop_cons (r : fileRepository) (fs : FS) (d : Nat) (ds : List Nat)
    (acc : List Note) :
    rangeLoop r fs (d :: ds) acc =
      rangeLoop r (GetNotesByDate r fs (formatDate d)).2 ds
        (acc ++ notesOf (GetNotesByDate r fs (formatDate d)).1) := by
  cases h : GetNotesByDate r fs (formatDate d) with
  | mk res fs1 =>
    cases res with
    | error e => simp [rangeLoop, h, notesOf]
    | ok notes => simp [rangeLoop, h, notesOf]

/-- The notes that the loop of the range query gathers are those that
`GetNotesByDate` returns for each day on the file system the query started
from: reading one day does not touch the files of another. -/
theorem rangeLoop_fst (r : fileRepository) (fs0 : FS) (days : List Nat) :
    ∀ (fs : FS) (acc : List Note), days.Nodup → (∀ d ∈ days, d < daysBeforeYear 10000) →
      (∀ d ∈ days, fs (r.bucketPath (formatDate d)) = fs0 (r.bucketPath (formatDate d)) ∧
        fs (textPath (r.bucketPath (formatDate d))) =
          fs0 (textPath (r.bucketPath (formatDate d))) ∧
        Blocked fs (r.bucketPath (formatDate d)) = Blocked fs0 (r.bucketPath (formatDate d)) ∧
        Blocked fs (textPath (r.bucketPath (formatDate d))) =
          Blocked fs0 (textPath (r.bucketPath (formatDate d)))) →
      (rangeLoop r fs days acc).1 =
        acc ++ (days.map (fun d => notesOf (GetNotesByDate r fs0 (formatDate d)).1)).flatten := by
  induction days with
  | nil => intro fs acc _ _ _; simp [rangeLoop]
  | cons d ds ih =>
    intro fs acc hnd hlt hag
    rw [rangeLoop_cons]
    have hd := hlt d (List.mem_cons_self _ _)
    have hcd := formatDate_cleanDate d hd
    obtain ⟨hag1, hag2, hag3, hag4⟩ := hag d (List.mem_cons_self _ _)
    have hres : (GetNotesByDate r fs (formatDate d)).1 = (GetNotesByDate r fs0 (formatDate d)).1 :=
      read_congr fs fs0 _ _ hag1 hag3 hag2 hag4
    have hnd' := (List.nodup_cons.mp hnd)
    rw [ih (GetNotesByDate r fs (formatDate d)).2 _ hnd'.2
      (fun x hx => hlt x (List.mem_cons_of_mem _ hx)) ?_, hres]
    · simp
    · intro x hx
      have hxlt := hlt x (List.mem_cons_of_mem _ hx)
      have hcx := formatDate_cleanDate x hxlt
      have hne : formatDate x ≠ formatDate d := by
        intro he
        have := formatDate_inj x d hxlt hd he
        rw [this] at hx
        exact hnd'.1 hx
      obtain ⟨hx1, hx2, hx3, hx4⟩ := hag x (List.mem_cons_of_mem _ hx)
      have hb := read_keeps_blocked r fs (formatDate d) (formatDate x) (formatDate d) hcd hcx
      refine ⟨?_, ?_, ?_, ?_⟩
      · rw [← hx1]
        exact read_frame fs _ _ _ (fun he => hne (bucketPath_inj r _ _ hcx.2.2 hcd.2.2 he))
          (fun he => textPath_ne_bucketPath r _ _ hcd hcx he.symm)
      · rw [← hx2]
        exact read_frame fs _ _ _ (fun he => textPath_ne_bucketPath r _ _ hcx hcd he)
          (fun he => hne (textPath_inj r _ _ hcx hcd he))
      · rw [← hx3]
        exact hb.1
      · rw [← hx4]
        exact hb.2

/-! ## Lemmas on the range query -/

/-- The result of `GetNotesByDateRange` on two dates that parse. -/
theorem GetNotesByDateRange_eq (r : fileRepository) (fs : FS) (startDate endDate : String)
    (start stop : Nat) (hs : parseDate startDate = some start)
    (he : parseDate endDate = some stop) :
    GetNotesByDateRange r fs startDate endDate =
      (.ok (sortSlice rangeLess (rangeLoop r fs (daysOfRange start stop) []).1),
        (rangeLoop r fs (daysOfRange start stop) []).2) := by
  simp [GetNotesByDateRange, hs, he]

/-- A list sorted with `rangeLess` is in descending order of `UpdatedAt`. -/
theorem sortSlice_rangeLess_descending (l : List Note) :
    (sortSlice rangeLess l).Pairwise (fun a b => b.UpdatedAt ≤ a.UpdatedAt) := by
  have h := ordered_sortSlice rangeLess rangeLess_asymm rangeLess_negtrans l
  unfold Ordered at h
  exact h.imp (fun hba => (After_false_iff _ _).mp hba)

/-- Whatever list `GetNotesByDateRange` returns is in descending order of
`UpdatedAt`. -/
theorem GetNotesByDateRange_descending (r : fileRepository) (fs fs' : FS)
    (startDate endDate : String) (out : List Note)
    (h : GetNotesByDateRange r fs startDate endDate = (.ok out, fs')) :
    out.Pairwise (fun a b => b.UpdatedAt ≤ a.UpdatedAt) := by
  cases hs : parseDate startDate with
  | none => simp [GetNotesByDateRange, hs] at h
  | some start =>
    cases he : parseDate endDate with
    | none => simp [GetNotesByDateRange, hs, he] at h
    | some stop =>
      rw [GetNotesByDateRange_eq r fs startDate endDate start stop hs he] at h
      have hout : sortSlice rangeLess (rangeLoop r fs (daysOfRange start stop) []).1 = out := by
        simpa using (congrArg Prod.fst h)
      rw [← hout]
      exact sortSlice_rangeLess_descending _

/-! ## Lemmas on months -/

/-- A month that parses is seven characters, of a year up to 9999 and a month
from 1 to 12. -/
theorem parseMonth_inv (s : String) (y m : Nat) (h : parseMonth s = some (y, m)) :
    ∃ y1 y2 y3 y4 m1 m2 : Char,
      s.data = [y1, y2, y3, y4, '-', m1, m2] ∧
      (y1.isDigit = true ∧ y2.isDigit = true ∧ y3.isDigit = true ∧ y4.isDigit = true ∧
       m1.isDigit = true ∧ m2.isDigit = true) ∧
      y = digitsVal [y1, y2, y3, y4] ∧ m = digitVal m1 * 10 + digitVal m2 ∧
      1 ≤ m ∧ m ≤ 12 := by
  unfold parseMonth at h
  split at h
  · rename_i y1 y2 y3 y4 rest hdata
    split_ifs at h with hy
    simp only [Bool.and_eq_true] at hy
    obtain ⟨⟨⟨hy1, hy2⟩, hy3⟩, hy4⟩ := hy
    split at h
    · rename_i v1
      split at h
      · simp at h
      · rename_i month v2 hg1
        obtain ⟨m1, m2, rfl, hm1, hm2, rfl⟩ := getnum_fixed _ _ _ hg1
        by_cases hv2 : v2 = []
        · subst hv2
          simp at h
          obtain ⟨⟨h1, h2⟩, h3, h4⟩ := h
          refine ⟨y1, y2, y3, y4, m1, m2, hdata, ⟨hy1, hy2, hy3, hy4, hm1, hm2⟩,
            h3.symm, h4.symm, by omega, by omega⟩
        · simp [hv2] at h
    · simp at h
  · simp at h

/-- The parser accepts the text of a valid date and returns its day. -/
theorem parseDate_of_chars (s : String) (y1 y2 y3 y4 m1 m2 d1 d2 : Char)
    (hdata : s.data = [y1, y2, y3, y4, '-', m1, m2, '-', d1, d2])
    (hy1 : y1.isDigit = true) (hy2 : y2.isDigit = true) (hy3 : y3.isDigit = true)
    (hy4 : y4.isDigit = true) (hm1 : m1.isDigit = true) (hm2 : m2.isDigit = true)
    (hd1 : d1.isDigit = true) (hd2 : d2.isDigit = true)
    (a1 : 1 ≤ digitVal m1 * 10 + digitVal m2) (a2 : digitVal m1 * 10 + digitVal m2 ≤ 12)
    (a3 : 1 ≤ digitVal d1 * 10 + digitVal d2)
    (a4 : digitVal d1 * 10 + digitVal d2 ≤
      daysIn (digitVal m1 * 10 + digitVal m2) (digitsVal [y1, y2, y3, y4])) :
    parseDate s = some (dayNumber (digitsVal [y1, y2, y3, y4]) (digitVal m1 * 10 + digitVal m2)
      (digitVal d1 * 10 + digitVal d2)) := by
  unfold parseDate
  rw [hdata]
  have b1 : ¬ (digitVal m1 * 10 + digitVal m2 = 0) := by omega
  have b2 : ¬ (12 < digitVal m1 * 10 + digitVal m2) := by omega
  have b3 : ¬ (digitVal d1 * 10 + digitVal d2 < 1) := by omega
  have b4 : ¬ (daysIn (digitVal m1 * 10 + digitVal m2) (digitsVal [y1, y2, y3, y4]) <
      digitVal d1 * 10 + digitVal d2) := by omega
  simp [hy1, hy2, hy3, hy4, getnum, hm1, hm2, hd1, hd2, b1, b2, b3, b4]

theorem daysIn_pos (m y : Nat) : 28 ≤ daysIn m y := by
  unfold daysIn
  split_ifs <;> omega

theorem dayNumber_first (y : Nat) : dayNumber y 1 1 = daysBeforeYear y := by
  simp [dayNumber, daysBefore]

/-- The day before the first of the next month is the last day of the
month. -/
theorem lastDayOfMonth_eq (y m : Nat) (hm1 : 1 ≤ m) (hm : m ≤ 12) :
    lastDayOfMonth y m = dayNumber y m (daysIn m y) := by
  have hpos := daysIn_pos m y
  unfold lastDayOfMonth
  by_cases h12 : m = 12
  · subst h12
    simp only [if_true]
    rw [dayNumber_first, yearLength]
    have hd : daysIn 12 y = 31 := by simp [daysIn]
    unfold dayNumber
    rw [daysBefore_twelve, hd]
    omega
  · simp only [h12, if_false]
    unfold dayNumber
    rw [daysBefore_succ m y hm1]
    omega

theorem digitChar_isDigit : ∀ a < 10, (Nat.digitChar a).isDigit = true ∧
    digitVal (Nat.digitChar a) = a := by
  decide

/-- The text of a month that parses, followed by `-01`, is the date of the
first day of the month. -/
theorem parseDate_month_first (s : String) (y m : Nat) (h : parseMonth s = some (y, m)) :
    parseDate (s ++ "-01") = some (dayNumber y m 1) := by
  obtain ⟨y1, y2, y3, y4, m1, m2, hdata, ⟨hy1, hy2, hy3, hy4, hm1, hm2⟩, rfl, rfl, a1, a2⟩ :=
    parseMonth_inv s y m h
  have hd : (s ++ "-01").data = [y1, y2, y3, y4, '-', m1, m2, '-', '0', '1'] := by
    rw [String.data_append, hdata]; rfl
  have h0 : digitVal '0' * 10 + digitVal '1' = 1 := by decide
  have hpos := daysIn_pos (digitVal m1 * 10 + digitVal m2) (digitsVal [y1, y2, y3, y4])
  have := parseDate_of_chars (s ++ "-01") y1 y2 y3 y4 m1 m2 '0' '1' hd hy1 hy2 hy3 hy4 hm1 hm2
    (by decide) (by decide) a1 a2 (by rw [h0]) (by rw [h0]; omega)
  rw [h0] at this
  exact this

/-- The text of a month that parses, followed by a hyphen and the two digits
of the length of the month, is the date of the last day of the month. -/
theorem parseDate_month_last (s : String) (y m : Nat) (h : parseMonth s = some (y, m)) :
    parseDate (s ++ "-" ++ String.mk (padded 2 (daysIn m y))) =
      some (dayNumber y m (daysIn m y)) := by
  obtain ⟨y1, y2, y3, y4, m1, m2, hdata, ⟨hy1, hy2, hy3, hy4, hm1, hm2⟩, rfl, rfl, a1, a2⟩ :=
    parseMonth_inv s y m h
  generalize hk : daysIn (digitVal m1 * 10 + digitVal m2) (digitsVal [y1, y2, y3, y4]) = k
  have hk1 : 28 ≤ k := by rw [← hk]; exact daysIn_pos _ _
  have hk2 : k ≤ 31 := by rw [← hk]; exact daysIn_le _ _
  have hp := padded_two k (by omega)
  have hd : (s ++ "-" ++ String.mk (padded 2 k)).data =
      [y1, y2, y3, y4, '-', m1, m2, '-', Nat.digitChar (k / 10), Nat.digitChar (k % 10)] := by
    rw [String.data_append, String.data_append, hdata, hp]; rfl
  obtain ⟨c1, c2⟩ := digitChar_isDigit (k / 10) (by omega)
  obtain ⟨c3, c4⟩ := digitChar_isDigit (k % 10) (by omega)
  have hv : digitVal (Nat.digitChar (k / 10)) * 10 + digitVal (Nat.digitChar (k % 10)) = k := by
    rw [c2, c4]; omega
  have := parseDate_of_chars _ y1 y2 y3 y4 m1 m2 _ _ hd hy1 hy2 hy3 hy4 hm1 hm2
    c1 c3 a1 a2 (by rw [hv]; omega) (by rw [hv, hk])
  rw [hv] at this
  exact this

/-- `GetNotesByMonth` is the range query from the first to the last day of
the month. -/
theorem GetNotesByMonth_eq (r : fileRepository) (fs : FS) (s : String) (y m : Nat)
    (h : parseMonth s = some (y, m)) :
    GetNotesByMonth r fs s =
      GetNotesByDateRange r fs (s ++ "-01") (s ++ "-" ++ String.mk (padded 2 (daysIn m y))) := by
  obtain ⟨_, _, _, _, _, _, _, _, _, _, a1, a2⟩ := parseMonth_inv s y m h
  unfold GetNotesByMonth
  simp only [h]
  rw [lastDayOfMonth_eq y m a1 a2,
    formatDate_parseDate _ _ (parseDate_month_first s y m h),
    formatDate_parseDate _ _ (parseDate_month_last s y m h)]

/-! ## Lemmas on the delete routine and on the service -/

/-- A text trims to nothing exactly when all its characters are white
space. -/
theorem TrimSpace_eq_nil_iff (l : List Char) :
    TrimSpace l = [] ↔ ∀ c ∈ l, isSpace c = true := by
  unfold TrimSpace
  rw [List.reverse_eq_nil_iff, List.dropWhile_eq_nil_iff]
  constructor
  · intro h
    have hall : ∀ x ∈ l.dropWhile isSpace, isSpace x = true := by
      intro x hx
      exact h x (List.mem_reverse.mpr hx)
    have hnil : l.dropWhile isSpace = [] := by
      cases hd : l.dropWhile isSpace with
      | nil => rfl
      | cons a as =>
        exfalso
        have h1 : isSpace a = true := hall a (by rw [hd]; exact List.mem_cons_self _ _)
        have h2 := List.head_dropWhile_not isSpace l (by rw [hd]; simp)
        simp [hd] at h2
        rw [h1] at h2
        exact Bool.noConfusion h2
    exact List.dropWhile_eq_nil_iff.mp hnil
  · intro h
    have hnil : l.dropWhile isSpace = [] := List.dropWhile_eq_nil_iff.mpr h
    rw [hnil]
    simp

/-- The parser of dates accepts exactly the valid date texts. -/
theorem parseDate_isSome_iff (s : String) :
    (parseDate s).isSome = true ↔ isValidDateText s = true := by
  constructor
  · intro h
    obtain ⟨n, hn⟩ := Option.isSome_iff_exists.mp h
    obtain ⟨y1, y2, y3, y4, m1, m2, d1, d2, hdata, ⟨hy1, hy2, hy3, hy4, hm1, hm2, hd1, hd2⟩,
      a1, a2, a3, a4, _⟩ := parseDate_inv s n hn
    rw [digitsVal_four] at a4
    unfold isValidDateText
    rw [hdata]
    simp [hy1, hy2, hy3, hy4, hm1, hm2, hd1, hd2, a1, a2, a3, a4]
  · intro h
    unfold isValidDateText at h
    split at h
    · rename_i y1 y2 y3 y4 m1 m2 d1 d2 hdata
      simp only [Bool.and_eq_true, decide_eq_true_eq] at h
      obtain ⟨⟨⟨⟨⟨⟨⟨⟨⟨⟨⟨hy1, hy2⟩, hy3⟩, hy4⟩, hm1⟩, hm2⟩, hd1⟩, hd2⟩, a1⟩, a2⟩, a3⟩, a4⟩ := h
      rw [← digitsVal_four] at a4
      rw [parseDate_of_chars s y1 y2 y3 y4 m1 m2 d1 d2 hdata hy1 hy2 hy3 hy4 hm1 hm2 hd1 hd2
        a1 a2 a3 a4]
      rfl
    · exact absurd h (by simp)

theorem parseMonth_of_chars (s : String) (y1 y2 y3 y4 m1 m2 : Char)
    (hdata : s.data = [y1, y2, y3, y4, '-', m1, m2])
    (hy1 : y1.isDigit = true) (hy2 : y2.isDigit = true) (hy3 : y3.isDigit = true)
    (hy4 : y4.isDigit = true) (hm1 : m1.isDigit = true) (hm2 : m2.isDigit = true)
    (a1 : 1 ≤ digitVal m1 * 10 + digitVal m2) (a2 : digitVal m1 * 10 + digitVal m2 ≤ 12) :
    parseMonth s = some (digitsVal [y1, y2, y3, y4], digitVal m1 * 10 + digitVal m2) := by
  unfold parseMonth
  rw [hdata]
  have b1 : ¬ (digitVal m1 * 10 + digitVal m2 = 0) := by omega
  have b2 : ¬ (12 < digitVal m1 * 10 + digitVal m2) := by omega
  simp [hy1, hy2, hy3, hy4, getnum, hm1, hm2, b1, b2]

/-- The parser of months accepts exactly the valid month texts. -/
theorem parseMonth_isSome_iff (s : String) :
    (parseMonth s).isSome = true ↔ isValidMonthText s = true := by
  constructor
  · intro h
    obtain ⟨ym, hn⟩ := Option.isSome_iff_exists.mp h
    obtain ⟨y, m⟩ := ym
    obtain ⟨y1, y2, y3, y4, m1, m2, hdata, ⟨hy1, hy2, hy3, hy4, hm1, hm2⟩, _, rfl, a1, a2⟩ :=
      parseMonth_inv s y m hn
    unfold isValidMonthText
    rw [hdata]
    simp [hy1, hy2, hy3, hy4, hm1, hm2, a1, a2]
  · intro h
    unfold isValidMonthText at h
    split at h
    · rename_i y1 y2 y3 y4 m1 m2 hdata
      simp only [Bool.and_eq_true, decide_eq_true_eq] at h
      obtain ⟨⟨⟨⟨⟨⟨⟨hy1, hy2⟩, hy3⟩, hy4⟩, hm1⟩, hm2⟩, a1⟩, a2⟩ := h
      rw [parseMonth_of_chars s y1 y2 y3 y4 m1 m2 hdata hy1 hy2 hy3 hy4 hm1 hm2 a1 a2]
      rfl
    · exact absurd h (by simp)

/-! ## Lemmas on the listing -/

theorem join_foldl (l : List String) (acc : String) :
    l.foldl (fun r s => r ++ s) acc = acc ++ String.join l := by
  induction l generalizing acc with
  | nil => simp [String.join]
  | cons x xs ih =>
    simp only [List.foldl_cons, String.join]
    rw [ih (acc ++ x), ih ("" ++ x)]
    simp [String.join, String.append_assoc]

theorem join_cons (x : String) (xs : List String) :
    String.join (x :: xs) = x ++ String.join xs := by
  have h := join_foldl xs ("" ++ x)
  simp only [String.join, List.foldl_cons]
  rw [h]
  simp [String.join]

theorem listLoop_eq (clockText : Time → String) (notes : List Note) (i : Nat) (acc : String) :
    listLoop clockText notes i acc =
      acc ++ String.join ((notes.enumFrom i).map (listLine clockText)) := by
  induction notes generalizing i acc with
  | nil => simp [listLoop, String.join]
  | cons n ns ih =>
    simp only [listLoop, List.enumFrom_cons, List.map_cons]
    rw [ih, join_cons, String.append_assoc]
    rfl

/-! ## Lemmas on the IDs of a bucket and on what `Save` changes -/

theorem UniqueIDs_of_perm (l l' : List Note) (h : l'.Perm l) (hu : UniqueIDs l) :
    UniqueIDs l' := by
  unfold UniqueIDs at *
  exact (h.map _).nodup_iff.mpr hu

theorem UniqueIDs_upsert (l : List Note) (n : Note) (hu : UniqueIDs l) :
    UniqueIDs (upsert l n) := by
  by_cases h : ∃ e ∈ l, e.ID = n.ID
  · obtain ⟨pre, e, post, hsplit, hid, _, hrep⟩ := replaceByID_of_mem n l h
    unfold UniqueIDs at *
    simp only [upsert, hrep, if_true]
    rw [hsplit] at hu
    simpa [hid] using hu
  · have h' : ∀ e ∈ l, e.ID ≠ n.ID := fun e he hid => h ⟨e, he, hid⟩
    unfold UniqueIDs at *
    simp only [upsert, replaceByID_of_not_mem n l h', Bool.false_eq_true, if_false,
      List.map_append, List.map_cons, List.map_nil]
    rw [List.nodup_append]
    refine ⟨hu, by simp, ?_⟩
    intro a ha hb
    simp only [List.mem_singleton] at hb
    obtain ⟨e, he, hea⟩ := List.mem_map.mp ha
    exact h' e he (hea.trans hb)

theorem migrateLines_brackets (date : String) :
    migrateLines date [['['], [']']] = [] := by
  rw [migrateLines_eq]
  have h1 : legacyNote date ['['] = none := by
    cases h : legacyNote date ['['] with
    | none => rfl
    | some n =>
      obtain ⟨timeStr, content, t, hcut, -, -⟩ := (legacyNote_eq_some_iff date _ n).mp h
      have hc : cut [']', ' '] (TrimSpace ['[']) = none := by decide
      rw [hc] at hcut
      cases hcut
  have h2 : legacyNote date [']'] = none := by
    cases h : legacyNote date [']'] with
    | none => rfl
    | some n =>
      obtain ⟨timeStr, content, t, hcut, -, -⟩ := (legacyNote_eq_some_iff date _ n).mp h
      have hc : cut [']', ' '] (TrimSpace [']']) = none := by decide
      rw [hc] at hcut
      cases hcut
  simp [h1, h2]

/-- In a store that only `Save` has written to, the bucket of a date is read
without a change of the files: the read gives its notes, whose IDs are
pairwise distinct, or an error. -/
theorem SavedStore_read (fs : FS) (p date : String) (h : SavedStore fs) :
    (∃ loaded, readNotesFromFile fs p date = (.ok loaded, fs) ∧ UniqueIDs loaded) ∨
    (∃ e, readNotesFromFile fs p date = (.error e, fs)) := by
  have hmig : (∃ loaded, migrateFromTextFormat fs p date = (.ok loaded, fs) ∧
      UniqueIDs loaded) ∨ (∃ e, migrateFromTextFormat fs p date = (.error e, fs)) := by
    unfold migrateFromTextFormat
    simp only
    rcases Open_cases fs (textPath p) with ⟨data, w, he, ho⟩ | ⟨data, he, ho⟩ | ⟨he, ho⟩ |
      ⟨he, _, ho⟩ | ⟨he, _, ho⟩
    · rw [ho]
      rcases h _ _ he with ⟨l, hl, _⟩ | hl
      · simp only [Entry.file.injEq] at hl
        obtain ⟨rfl, _⟩ := hl
        left
        refine ⟨[], ?_, by simp [UniqueIDs]⟩
        have hs : scanLines (FileData.notes l).scanText.data = some [['['], [']']] := by
          show scanLines "[\n]\n".data = some [['['], [']']]
          decide
        simp only [hs, migrateLines_brackets]
        rfl
      · simp only [Entry.file.injEq] at hl
        obtain ⟨rfl, _⟩ := hl
        left
        refine ⟨[], ?_, by simp [UniqueIDs]⟩
        have hs : scanLines (FileData.text "").scanText.data = some [] := by decide
        simp only [hs]
        rfl
    · rcases h _ _ he with ⟨l, hl, _⟩ | hl
      · cases hl
      · cases hl
    · rcases h _ _ he with ⟨l, hl, _⟩ | hl
      · cases hl
      · cases hl
    · rw [ho]
      exact Or.inr ⟨_, rfl⟩
    · rw [ho]
      exact Or.inl ⟨[], rfl, by simp [UniqueIDs]⟩
  unfold readNotesFromFile
  rcases Open_cases fs p with ⟨data, w, he, ho⟩ | ⟨data, he, ho⟩ | ⟨he, ho⟩ |
    ⟨he, _, ho⟩ | ⟨he, _, ho⟩
  · rw [ho]
    rcases h _ _ he with ⟨l, hl, hu⟩ | hl
    · simp only [Entry.file.injEq] at hl
      obtain ⟨rfl, _⟩ := hl
      left
      exact ⟨sortSlice bucketLess l, rfl, UniqueIDs_of_perm _ _ (perm_sortSlice _ _) hu⟩
    · simp only [Entry.file.injEq] at hl
      obtain ⟨rfl, _⟩ := hl
      exact hmig
  · rcases h _ _ he with ⟨l, hl, _⟩ | hl
    · cases hl
    · cases hl
  · rcases h _ _ he with ⟨l, hl, _⟩ | hl
    · cases hl
    · cases hl
  · rw [ho]
    exact Or.inr ⟨_, rfl⟩
  · rw [ho]
    exact Or.inl ⟨[], rfl, by simp [UniqueIDs]⟩

/-- `Save` keeps a store that only `Save` has written to in that state. -/
theorem SavedStore_Save (r : fileRepository) (fs : FS) (n : Note) (h : SavedStore fs) :
    SavedStore (Save r fs n).2 := by
  unfold Save
  cases hd : MkdirAll fs r.notesDir with
  | error e => exact h
  | ok fs0 =>
    obtain ⟨rfl, -⟩ := MkdirAll_ok fs fs0 _ hd
    simp only
    rcases SavedStore_read fs0 (r.bucketPath n.Date) n.Date h with ⟨loaded, hr, hu⟩ | ⟨e, hr⟩
    · simp only [hr]
      rcases writeNotesToFile_cases fs0 (r.bucketPath n.Date) (upsert loaded n) with
        ⟨e, hw⟩ | ⟨_, hw⟩ | hw
      · rw [hw]; exact h
      · rw [hw]
        intro path e he
        simp only at he
        by_cases hpath : path = r.bucketPath n.Date
        · subst hpath
          rw [Function.update_same] at he
          cases he
          exact Or.inl ⟨_, rfl, UniqueIDs_upsert loaded n hu⟩
        · rw [Function.update_noteq hpath] at he
          exact h path e he
      · rw [hw]
        intro path e he
        simp only at he
        by_cases hpath : path = r.bucketPath n.Date
        · subst hpath
          rw [Function.update_same] at he
          cases he
          exact Or.inr rfl
        · rw [Function.update_noteq hpath] at he
          exact h path e he
    · simp only [hr]
      exact h

theorem SavedStore_saveAll (r : fileRepository) (notes : List Note) :
    ∀ fs, SavedStore fs → SavedStore (saveAll r fs notes) := by
  induction notes with
  | nil => intro fs h; exact h
  | cons n ns ih =>
    intro fs h
    exact ih _ (SavedStore_Save r fs n h)

/-- The legacy path of a clean date is the bucket path of no date that is one
path element. -/
theorem textPath_ne_bucketPath_any (r : fileRepository) (d other : String) (h : CleanDate d)
    (ho : '/' ∉ other.data) :
    textPath (r.bucketPath d) ≠ r.bucketPath other := by
  intro he
  have hd : (textPath (r.bucketPath d)).data = (r.bucketPath other).data := by rw [he]
  rw [bucketPath_data_eq r other ho] at hd
  rcases textPath_data_eq r d h with ⟨a, b, hc, e1⟩ | ⟨_, e1⟩
  · have hp := cut_eq_some _ _ _ _ hc
    rw [e1, hp] at hd
    simp only [List.append_assoc] at hd
    have := List.append_cancel_left hd
    simp at this
  · rw [e1] at hd
    simp only [List.append_assoc] at hd
    have h2 := List.append_cancel_left hd
    have h3 := congrArg List.reverse h2
    simp at h3

theorem Save_frame (r : fileRepository) (fs : FS) (n : Note) (q : String)
    (hq1 : q ≠ r.bucketPath n.Date) (hq2 : q ≠ textPath (r.bucketPath n.Date)) :
    (Save r fs n).2 q = fs q := by
  unfold Save
  cases hd : MkdirAll fs r.notesDir with
  | error e => rfl
  | ok fs0 =>
    obtain ⟨rfl, -⟩ := MkdirAll_ok fs fs0 _ hd
    simp only
    have hf := read_frame fs0 (r.bucketPath n.Date) n.Date q hq1 hq2
    cases hr : readNotesFromFile fs0 (r.bucketPath n.Date) n.Date with
    | mk res fs1 =>
      rw [hr] at hf
      simp only at hf
      cases res with
      | error e => exact hf
      | ok notes =>
        simp only
        have hw := writeNotesToFile_frame fs1 (r.bucketPath n.Date) q (upsert notes n) hq1
        rcases writeNotesToFile_cases fs1 (r.bucketPath n.Date) (upsert notes n) with
          ⟨e, hw1⟩ | ⟨_, hw1⟩ | hw1
        · rw [hw1]; exact hf
        · rw [hw1] at hw ⊢
          exact hw.trans hf
        · rw [hw1] at hw ⊢
          exact hw.trans hf

theorem cleanDate_of_parseDate (s : String) (k : Nat) (h : parseDate s = some k) :
    CleanDate s := by
  have := formatDate_cleanDate k (parseDate_lt s k h)
  rw [formatDate_parseDate s k h] at this
  exact this

/-! ## Lemmas on the comparator, on trimmed lines and on migrated notes -/

theorem pendingReminder_eq (n : Note) : pendingReminder n = isReminderPending n := by
  unfold pendingReminder isReminderPending NoteTypeReminder StatusToDo
  cases h1 : decide (n.Typ = "reminder") <;>
    cases h2 : decide (n.Metadata.Status = "") <;>
    cases h3 : decide (n.Metadata.Status = "por_hacer") <;>
    simp_all

theorem bucketLess_irrefl (a : Note) : bucketLess a a = false := by
  cases h : bucketLess a a with
  | false => rfl
  | true => have := bucketLess_asymm a a h; rw [h] at this; exact Bool.noConfusion this

theorem bucketLess_trans (a b c : Note) (h1 : bucketLess a b = true)
    (h2 : bucketLess b c = true) : bucketLess a c = true := by
  cases h : bucketLess a c with
  | true => rfl
  | false =>
    have hcb := bucketLess_asymm b c h2
    have := bucketLess_negtrans a c b h hcb
    rw [h1] at this
    exact Bool.noConfusion this

theorem bucketLess_incomparable_iff (a b : Note) :
    (bucketLess a b = false ∧ bucketLess b a = false) ↔
      (isReminderPending a = isReminderPending b ∧ a.UpdatedAt = b.UpdatedAt) := by
  have hle : (a.UpdatedAt ≤ b.UpdatedAt ∧ b.UpdatedAt ≤ a.UpdatedAt) ↔
      a.UpdatedAt = b.UpdatedAt :=
    ⟨fun h => le_antisymm h.1 h.2, fun h => ⟨le_of_eq h, le_of_eq h.symm⟩⟩
  unfold bucketLess
  cases ha : isReminderPending a <;> cases hb : isReminderPending b <;>
    simp [After_false_iff, hle]
  
theorem sublist_pair_of_mem {α : Type} (a b : α) (hab : a ≠ b) (l : List α)
    (ha : a ∈ l) (hb : b ∈ l) : List.Sublist [a, b] l ∨ List.Sublist [b, a] l := by
  induction l with
  | nil => cases ha
  | cons x xs ih =>
    by_cases hxa : x = a
    · subst hxa
      have hb1 : b ∈ xs := by
        rcases List.mem_cons.mp hb with h | h
        · exact absurd h.symm hab
        · exact h
      left
      exact List.Sublist.cons₂ _ (List.singleton_sublist.mpr hb1)
    · by_cases hxb : x = b
      · subst hxb
        have ha1 : a ∈ xs := by
          rcases List.mem_cons.mp ha with h | h
          · exact absurd h.symm hxa
          · exact h
        right
        exact List.Sublist.cons₂ _ (List.singleton_sublist.mpr ha1)
      · have ha1 : a ∈ xs := by
          rcases List.mem_cons.mp ha with h | h
          · exact absurd h.symm hxa
          · exact h
        have hb1 : b ∈ xs := by
          rcases List.mem_cons.mp hb with h | h
          · exact absurd h.symm hxb
          · exact h
        rcases ih ha1 hb1 with h | h
        · exact Or.inl (List.Sublist.cons _ h)
        · exact Or.inr (List.Sublist.cons _ h)

theorem isReminderPending_iff (n : Note) :
    isReminderPending n = true ↔
      n.Typ = "reminder" ∧ (n.Metadata.Status = "" ∨ n.Metadata.Status = "por_hacer") := by
  simp [isReminderPending, NoteTypeReminder, StatusToDo]
  intro _
  exact Or.comm

theorem mem_of_mem_TrimSpace (l : List Char) (c : Char) (h : c ∈ TrimSpace l) : c ∈ l := by
  unfold TrimSpace at h
  have h1 := List.mem_reverse.mp h
  have h2 := (List.dropWhile_sublist isSpace).subset h1
  have h3 := List.mem_reverse.mp h2
  exact (List.dropWhile_sublist isSpace).subset h3

theorem legacyNote_none_of_no_bracket (date : String) (text : List Char)
    (h : '[' ∉ text) : legacyNote date text = none := by
  cases hn : legacyNote date text with
  | none => rfl
  | some n =>
    obtain ⟨timeStr, content, t, hcut, -, -⟩ := (legacyNote_eq_some_iff date text n).mp hn
    have := cut_eq_some _ _ _ _ hcut
    have hm : '[' ∈ TrimSpace text := by
      rw [this]
      simp
    exact absurd (mem_of_mem_TrimSpace text '[' hm) h

theorem TrimSpace_getLast (l : List Char) (c : Char) (h : (TrimSpace l).getLast? = some c) :
    isSpace c = false := by
  unfold TrimSpace at h
  rw [List.getLast?_reverse] at h
  cases hd : List.dropWhile isSpace (l.dropWhile isSpace).reverse with
  | nil => rw [hd] at h; simp at h
  | cons x xs =>
    rw [hd] at h
    simp at h
    subst h
    have := List.head_dropWhile_not isSpace (l.dropWhile isSpace).reverse (by rw [hd]; simp)
    simp only [hd, List.head_cons] at this
    simpa using this

theorem getLast_append_cons {α : Type} (a : List α) (x : α) (xs : List α) :
    (a ++ x :: xs).getLast? = (x :: xs).getLast? := by
  rw [List.getLast?_append]
  cases h : (x :: xs).getLast? with
  | none => simp at h
  | some y => rfl

theorem legacyNote_content (date : String) (text : List Char) (n : Note)
    (h : legacyNote date text = some n) :
    (∃ timeStr, cut [']', ' '] (TrimSpace text) = some ('[' :: timeStr, n.Content.data)) ∧
    n.Content.data ≠ [] ∧ TrimSpace n.Content.data ≠ [] := by
  obtain ⟨timeStr, content, t, hcut, -, hn⟩ := (legacyNote_eq_some_iff date text n).mp h
  have hc : n.Content.data = content := by rw [hn]
  have heq := cut_eq_some _ _ _ _ hcut
  have hne : content ≠ [] := by
    intro h0
    have hl : (TrimSpace text).getLast? = some ' ' := by
      rw [heq, h0, List.append_nil]
      exact getLast_append_cons ('[' :: timeStr ++ [']']) ' ' [] |> fun e => by
        simpa using e
    have := TrimSpace_getLast text ' ' hl
    exact absurd this (by decide)
  have hlast : (TrimSpace text).getLast? = content.getLast? := by
    rw [heq]
    cases content with
    | nil => exact absurd rfl hne
    | cons x xs => exact getLast_append_cons _ x xs
  refine ⟨⟨timeStr, by rw [hc]; exact hcut⟩, by rw [hc]; exact hne, ?_⟩
  rw [hc]
  intro hall
  have hall2 := (TrimSpace_eq_nil_iff content).mp hall
  cases hl : content.getLast? with
  | none => exact hne (List.getLast?_eq_none_iff.mp hl)
  | some c =>
    have hmem : c ∈ content := List.mem_of_getLast?_eq_some hl
    have h1 := hall2 c hmem
    have h2 := TrimSpace_getLast text c (by rw [hlast, hl])
    rw [h1] at h2
    exact Bool.noConfusion h2

theorem migrate_ok_mem (fs fs' : FS) (filepath date : String) (notes : List Note)
    (h : migrateFromTextFormat fs filepath date = (.ok notes, fs')) :
    ∀ n ∈ notes, ∃ text, legacyNote date text = some n := by
  unfold migrateFromTextFormat at h
  simp only at h
  split at h
  · simp at h
    intro n hn
    rw [h.1] at hn
    cases hn
  · simp at h
  · split at h
    · simp at h
    · rename_i lines hl
      have key : ∀ n ∈ migrateLines date lines, ∃ text, legacyNote date text = some n := by
        intro n hn
        rw [migrateLines_eq] at hn
        obtain ⟨text, -, ht⟩ := List.mem_filterMap.mp hn
        exact ⟨text, ht⟩
      split_ifs at h with hpos
      · split at h
        · simp at h
        · simp at h
          rw [← h.1]
          exact key
      · simp at h
        rw [← h.1]
        exact key

/-! ## Lemmas on the legacy path, the scanner and the root command -/

theorem digitsVal_foldl_lt (ds : List Char) (h : ∀ c ∈ ds, c.isDigit = true) :
    ∀ acc : Nat, ds.foldl (fun acc c => acc * 10 + digitVal c) acc < (acc + 1) * 10 ^ ds.length := by
  induction ds with
  | nil => intro acc; simp
  | cons c cs ih =>
    intro acc
    have hc := digitVal_le c (h c (List.mem_cons_self _ _))
    have := ih (fun x hx => h x (List.mem_cons_of_mem _ hx)) (acc * 10 + digitVal c)
    simp only [List.foldl_cons, List.length_cons]
    calc _ < (acc * 10 + digitVal c + 1) * 10 ^ cs.length := this
      _ ≤ ((acc + 1) * 10) * 10 ^ cs.length :=
          Nat.mul_le_mul_right _ (by omega)
      _ = (acc + 1) * 10 ^ (cs.length + 1) := by ring

theorem digitsVal_lt (ds : List Char) (h : ∀ c ∈ ds, c.isDigit = true) :
    digitsVal ds < 10 ^ ds.length := by
  have := digitsVal_foldl_lt ds h 0
  simpa [digitsVal] using this

theorem parseFraction_lt (value : List Char) : (parseFraction value).1 < 1000000000 := by
  unfold parseFraction
  split
  · rename_i c d rest
    split_ifs with hcd
    · simp only
      have hdig : ∀ x ∈ ((d :: rest).takeWhile Char.isDigit).take 9, x.isDigit = true := by
        intro x hx
        have h1 := List.mem_of_mem_take hx
        exact (List.mem_takeWhile_imp h1)
      have hlen : (((d :: rest).takeWhile Char.isDigit).take 9).length ≤ 9 := by
        rw [List.length_take]
        exact Nat.min_le_left _ _
      have hv := digitsVal_lt _ hdig
      set used := ((d :: rest).takeWhile Char.isDigit).take 9 with hused
      calc digitsVal used * 10 ^ (9 - used.length)
          < 10 ^ used.length * 10 ^ (9 - used.length) :=
            Nat.mul_lt_mul_of_pos_right hv (by positivity)
        _ = 10 ^ 9 := by rw [← pow_add]; congr 1; omega
        _ = 1000000000 := by norm_num
    · simp
  · simp

/-- A clock time that `time.Parse` accepts lies on the first day of the year
0. -/
theorem parseClock_range (s : List Char) (t : Time) (h : parseClock s = some t) :
    yearZeroUnix * 1000000000 ≤ t ∧ t < (yearZeroUnix + 86400) * 1000000000 := by
  unfold parseClock at h
  split at h
  · cases h
  · rename_i hour v1 _
    split_ifs at h with hh
    split at h
    · rename_i v2
      split at h
      · cases h
      · rename_i mn v3 _
        split_ifs at h with hm
        split at h
        · rename_i v4
          split at h
          · cases h
          · rename_i sec v5 _
            split_ifs at h with hs
            have hf := parseFraction_lt v5
            split at h
            · rename_i nsec hpf
              rw [hpf] at hf
              simp only at hf
              simp only [Option.some.injEq] at h
              rw [← h]
              unfold yearZeroUnix
              push_cast
              constructor
              · nlinarith
              · have h1 : (hour : Int) ≤ 23 := by omega
                have h2 : (mn : Int) ≤ 59 := by omega
                have h3 : (sec : Int) ≤ 59 := by omega
                have h4 : (nsec : Int) < 1000000000 := by exact_mod_cast hf
                nlinarith
            · cases h
        · cases h
    · cases h

theorem marshalable_parseClock (s : List Char) (t : Time) (h : parseClock s = some t) :
    marshalable t = true := by
  obtain ⟨h1, h2⟩ := parseClock_range s t h
  unfold marshalable
  simp only [Bool.and_eq_true, decide_eq_true_eq]
  refine ⟨h1, lt_trans h2 ?_⟩
  unfold yearZeroUnix yearTenThousandUnix
  norm_num

/-- The encoder takes every note that the migration makes. -/
theorem legacyNote_encodable (date : String) (text : List Char) (n : Note)
    (h : legacyNote date text = some n) : n.encodable = true := by
  obtain ⟨timeStr, content, t, -, ht, rfl⟩ := (legacyNote_eq_some_iff date text n).mp h
  have := marshalable_parseClock timeStr t ht
  simp [Note.encodable, this, Metadata.empty]

theorem migrateLines_encodable (date : String) (lines : List (List Char)) :
    (migrateLines date lines).all Note.encodable = true := by
  rw [migrateLines_eq, List.all_eq_true]
  intro n hn
  obtain ⟨text, -, ht⟩ := List.mem_filterMap.mp hn
  exact legacyNote_encodable date text n ht

theorem filepathJoin_txt (r : fileRepository) (date : String) (h : '/' ∉ date.data) :
    (filepathJoin r.notesDir (date ++ ".txt")).data =
      dirPrefix r ++ date.data ++ ".txt".data := by
  unfold dirPrefix
  have hd : (date ++ ".txt").data = date.data ++ ".txt".data := by
    simp [String.data_append]
  have h4 : ".txt".data.length = 4 := by decide
  rw [filepathJoin_plain r.notesDir (date ++ ".txt"), hd, List.append_assoc]
  · rw [hd]
    intro hm
    rcases List.mem_append.mp hm with h1 | h1
    · exact h h1
    · exact absurd h1 (by decide)
  · rw [hd]
    intro e
    have := congrArg List.length e
    simp only [List.length_append, List.length_cons, List.length_nil] at this
    omega
  · rw [hd]
    intro e
    have := congrArg List.length e
    simp only [List.length_append, List.length_cons, List.length_nil] at this
    omega
  · rw [hd]
    intro e
    have := congrArg List.length e
    simp only [List.length_append, List.length_cons, List.length_nil] at this
    omega

theorem textPath_eq_join (r : fileRepository) (date : String) (hdate : CleanDate date)
    (hdir : cut ".json".data (dirPrefix r) = none) :
    textPath (r.bucketPath date) = filepathJoin r.notesDir (date ++ ".txt") := by
  apply String.ext
  rcases textPath_data_eq r date hdate with ⟨a, b, hc, -⟩ | ⟨-, h⟩
  · rw [hdir] at hc
    cases hc
  · rw [h, filepathJoin_txt r date hdate.2.2]

theorem splitLines_replicate (n : Nat) (c : Char) (hc : c ≠ '\n') :
    splitLines (List.replicate (n + 1) c) = [List.replicate (n + 1) c] := by
  induction n with
  | zero => simp [splitLines, hc]
  | succ k ih =>
    have : splitLines (List.replicate (k + 1 + 1) c) =
        (match splitLines (List.replicate (k + 1) c) with
          | [] => [[c]]
          | l :: ls => (c :: l) :: ls) := by
      rw [List.replicate_succ]
      conv => lhs; unfold splitLines
      simp only [List.foldr_cons, hc, if_false]
      rfl
    rw [this, ih]
    rfl

theorem byteLen_replicate (n : Nat) (c : Char) :
    byteLen (List.replicate n c) = n * c.utf8Size := by
  induction n with
  | zero => simp [byteLen]
  | succ k ih =>
    unfold byteLen at *
    rw [List.replicate_succ, List.map_cons, List.sum_cons, ih]
    ring

theorem scanLines_long_line (n : Nat) (h : MaxScanTokenSize ≤ n) :
    scanLines (List.replicate n 'x') = none := by
  obtain ⟨k, rfl⟩ : ∃ k, n = k + 1 := by
    refine ⟨n - 1, ?_⟩
    have : 0 < MaxScanTokenSize := by decide
    omega
  unfold scanLines
  simp only [splitLines_replicate k 'x' (by decide)]
  have hb : byteLen (List.replicate (k + 1) 'x') = k + 1 := by
    rw [byteLen_replicate]
    have : 'x'.utf8Size = 1 := by decide
    rw [this]
    omega
  simp [hb]
  omega

theorem read_unscannable (r : fileRepository) (fs : FS) (date : String)
    (d legacy : FileData) (w w2 : Bool)
    (hjson : fs (r.bucketPath date) = some (.file d w)) (hdec : d.decode = none)
    (htext : fs (textPath (r.bucketPath date)) = some (.file legacy w2))
    (hscan : scanLines legacy.scanText.data = none) :
    GetNotesByDate r fs date = (.error .readTextFile, fs) := by
  simp [GetNotesByDate, readNotesFromFile, Open_file _ _ _ _ hjson, hdec,
    migrateFromTextFormat, Open_file _ _ _ _ htext, hscan]

theorem read_no_note (r : fileRepository) (fs : FS) (date : String)
    (d legacy : FileData) (w w2 : Bool) (lines : List (List Char))
    (hjson : fs (r.bucketPath date) = some (.file d w)) (hdec : d.decode = none)
    (htext : fs (textPath (r.bucketPath date)) = some (.file legacy w2))
    (hscan : scanLines legacy.scanText.data = some lines)
    (hnone : ∀ line ∈ lines, legacyNote date line = none) :
    GetNotesByDate r fs date = (.ok [], fs) := by
  have hm : migrateLines date lines = [] := by
    rw [migrateLines_eq]
    apply List.filterMap_eq_nil_iff.mpr
    exact hnone
  simp [GetNotesByDate, readNotesFromFile, Open_file _ _ _ _ hjson, hdec,
    migrateFromTextFormat, Open_file _ _ _ _ htext, hscan, hm]

theorem mem_dropCR (line : List Char) (c : Char) (h : c ∈ dropCR line) : c ∈ line := by
  unfold dropCR at h
  split at h
  · exact (List.dropLast_sublist line).subset h
  · exact h

theorem cut_space_isSome_iff (l : List Char) : (cut [' '] l).isSome = true ↔ ' ' ∈ l := by
  induction l with
  | nil => simp [cut]
  | cons x xs ih =>
    unfold cut
    by_cases hx : x = ' '
    · subst hx
      simp
    · have hx2 : ¬ ' ' = x := fun h => hx h.symm
      have hp : List.isPrefixOf [' '] (x :: xs) = false := by
        simp [List.isPrefixOf, hx2]
      rw [hp]
      simp only [Bool.false_eq_true, if_false, List.mem_cons, hx2, false_or]
      rw [← ih]
      cases cut [' '] xs with
      | none => simp
      | some p => simp

theorem Contains_space_iff (s : String) : Contains s " " = true ↔ ' ' ∈ s.data :=
  cut_space_isSome_iff s.data

theorem flagCount_eq_zero (f : RootFlags) (h : flagCount f = 0) : f = noFlags := by
  obtain ⟨l, ld, lm, n, t, c, r, i⟩ := f
  unfold flagCount at h
  simp only at h
  by_cases h1 : ld = "" <;> by_cases h2 : lm = "" <;>
    cases l <;> cases n <;> cases t <;> cases c <;> cases r <;> cases i <;>
    simp [h1, h2, noFlags] at h ⊢

theorem handleRootCommand_many_flags {σ : Type} (cli : CLI σ)
    (handlers : Selected → σ → Clock → Outcome σ) (st : σ) (c : Clock)
    (flags : RootFlags) (args : List String) (h : 1 < flagCount flags) :
    cli.handleRootCommand handlers st c flags args =
      { state := st, printed := [.onlyOneFlag, .usage], exit := none } := by
  unfold CLI.handleRootCommand
  rw [if_pos h]

/-! ## The claims -/

/-- C1: when the ID of `n` already occurs in the bucket that `Save` loads for
`n.Date`, a successful `Save` writes the loaded list with the first entry of
that ID replaced by `n` in place: the entries before and after it are
unchanged and the bucket keeps its size. -/
theorem save_replaces_in_place (r : fileRepository) (fs fs' fs1 : FS) (n : Note)
    (loaded : List Note)
    (hload : readNotesFromFile fs (r.bucketPath n.Date) n.Date = (.ok loaded, fs1))
    (hmem : ∃ e ∈ loaded, e.ID = n.ID)
    (hsave : Save r fs n = (.ok (), fs')) :
    ∃ pre e post, loaded = pre ++ e :: post ∧ e.ID = n.ID ∧ (∀ x ∈ pre, x.ID ≠ n.ID) ∧
      fs' (r.bucketPath n.Date) = some (.file (.notes (pre ++ n :: post)) true) ∧
      (pre ++ n :: post).length = loaded.length := by
  obtain ⟨notes, fs1', hread, hfs⟩ := Save_ok_inv r fs fs' n hsave
  rw [hload] at hread
  obtain ⟨rfl, rfl⟩ : loaded = notes ∧ fs1 = fs1' := by
    simpa using hread
  obtain ⟨pre, e, post, hsplit, hid, hpre, hrep⟩ := replaceByID_of_mem n loaded hmem
  refine ⟨pre, e, post, hsplit, hid, hpre, ?_, by simp [hsplit]⟩
  rw [hfs]
  simp [upsert, hrep]

/-- Witness of C1: saving the edited `exNoteA2` into the bucket that holds
`exNoteA` and `exNoteB`. -/
theorem save_replaces_in_place_witness :
    ∃ pre e post, sortSlice bucketLess [exNoteA, exNoteB] = pre ++ e :: post ∧
      e.ID = exNoteA2.ID ∧ (∀ x ∈ pre, x.ID ≠ exNoteA2.ID) ∧
      (Save exRepo exFS exNoteA2).2 (exRepo.bucketPath exNoteA2.Date) =
        some (.file (.notes (pre ++ exNoteA2 :: post)) true) ∧
      (pre ++ exNoteA2 :: post).length = (sortSlice bucketLess [exNoteA, exNoteB]).length :=
  save_replaces_in_place exRepo exFS (Save exRepo exFS exNoteA2).2 exFS exNoteA2
    (sortSlice bucketLess [exNoteA, exNoteB]) (by rfl) ⟨exNoteA, by decide, by decide⟩ (by rfl)

/-- C2: when the ID of `n` occurs nowhere in the list that `Save` loads for
`n.Date` (the empty list when the bucket file is absent), a successful `Save`
writes the loaded list followed by `n`; the next `GetNotesByDate` for that
date returns these notes, one more than were loaded. -/
theorem save_appends_new (r : fileRepository) (fs fs' fs1 : FS) (n : Note)
    (loaded : List Note)
    (hload : readNotesFromFile fs (r.bucketPath n.Date) n.Date = (.ok loaded, fs1))
    (hnew : ∀ e ∈ loaded, e.ID ≠ n.ID)
    (hsave : Save r fs n = (.ok (), fs')) :
    fs' (r.bucketPath n.Date) = some (.file (.notes (loaded ++ [n])) true) ∧
      (∃ out, GetNotesByDate r fs' n.Date = (.ok out, fs') ∧ out.Perm (loaded ++ [n]) ∧
        out.length = loaded.length + 1) ∧
      (fs (r.bucketPath n.Date) = none → loaded = []) := by
  obtain ⟨notes, fs1', hread, hfs⟩ := Save_ok_inv r fs fs' n hsave
  rw [hload] at hread
  obtain ⟨rfl, rfl⟩ : loaded = notes ∧ fs1 = fs1' := by
    simpa using hread
  have hfile : fs' (r.bucketPath n.Date) = some (.file (.notes (loaded ++ [n])) true) := by
    rw [hfs]
    simp [upsert, replaceByID_of_not_mem n loaded hnew]
  refine ⟨hfile, ?_, ?_⟩
  · refine ⟨sortSlice bucketLess (loaded ++ [n]),
      GetNotesByDate_decoded r fs' n.Date _ true hfile, perm_sortSlice _ _, ?_⟩
    rw [(perm_sortSlice bucketLess (loaded ++ [n])).length_eq]
    simp
  · intro habsent
    rcases Open_cases fs (r.bucketPath n.Date) with ⟨_, _, he, _⟩ | ⟨_, he, _⟩ | ⟨he, _⟩ |
      ⟨_, _, ho⟩ | ⟨_, _, ho⟩
    · rw [he] at habsent; cases habsent
    · rw [he] at habsent; cases habsent
    · rw [he] at habsent; cases habsent
    · simp [readNotesFromFile, ho] at hload
    · simp [readNotesFromFile, ho] at hload
      exact hload.1

/-- Witness of C2: saving `exNoteC`, whose ID is new, into the bucket of
2025-01-01 in `exFS`, which is loaded as `exNoteB`, `exNoteA`, leaves the
bucket with `exNoteB`, `exNoteA`, `exNoteC`. -/
theorem save_appends_new_witness :
    (Save exRepo exFS exNoteC).2 (exRepo.bucketPath exNoteC.Date) =
      some (.file (.notes [exNoteB, exNoteA, exNoteC]) true) :=
  (save_appends_new exRepo exFS (Save exRepo exFS exNoteC).2 exFS exNoteC [exNoteB, exNoteA]
    (by rfl) (by decide) (by rfl)).1

/-- C3: after a successful `Save` of `n`, `GetNotesByDate` for `n.Date`
succeeds, leaves the files as they are, and returns a list that contains `n`
itself (the same ID and all the same fields). -/
theorem save_then_get_contains (r : fileRepository) (fs fs' : FS) (n : Note)
    (hsave : Save r fs n = (.ok (), fs')) :
    ∃ out, GetNotesByDate r fs' n.Date = (.ok out, fs') ∧ n ∈ out ∧
      ∃ m ∈ out, m.ID = n.ID ∧ m = n := by
  obtain ⟨notes, fs1, _, hfs⟩ := Save_ok_inv r fs fs' n hsave
  have hfile : fs' (r.bucketPath n.Date) = some (.file (.notes (upsert notes n)) true) := by
    rw [hfs]; simp
  have hin : n ∈ sortSlice bucketLess (upsert notes n) :=
    (mem_sortSlice _ _ _).mpr (mem_upsert notes n)
  exact ⟨sortSlice bucketLess (upsert notes n),
    GetNotesByDate_decoded r fs' n.Date _ true hfile, hin, n, hin, rfl, rfl⟩

/-- Witness of C3: saving `exNoteA2` over the bucket of `exFS`. -/
theorem save_then_get_contains_witness :
    ∃ out, GetNotesByDate exRepo (Save exRepo exFS exNoteA2).2 exNoteA2.Date =
        (.ok out, (Save exRepo exFS exNoteA2).2) ∧ exNoteA2 ∈ out ∧
      ∃ m ∈ out, m.ID = exNoteA2.ID ∧ m = exNoteA2 :=
  save_then_get_contains exRepo exFS (Save exRepo exFS exNoteA2).2 exNoteA2 (by rfl)

/-- The three notes of the ordering example load in one order only. -/
theorem sort_three (p c k : Note) (l : List Note)
    (hp : isReminderPending p = true) (hc2 : c.Metadata.Status = StatusCompleted)
    (hk : k.Typ = NoteTypeTask) (h23 : c.UpdatedAt < k.UpdatedAt)
    (hl : l.Perm [p, c, k]) : sortSlice bucketLess l = [p, k, c] := by
  have hc : isReminderPending c = false := by
    simp [isReminderPending, hc2, StatusCompleted, StatusToDo]
  have hkp : isReminderPending k = false := by
    simp [isReminderPending, hk, NoteTypeTask, NoteTypeReminder]
  have hpc : bucketLess p c = true := by simp [bucketLess, hp, hc]
  have hpk : bucketLess p k = true := by simp [bucketLess, hp, hkp]
  have hkc : bucketLess k c = true := by
    simp only [bucketLess, hc, hkp, After]
    simpa using h23
  have hord := ordered_sortSlice bucketLess bucketLess_asymm bucketLess_negtrans l
  have hperm : (sortSlice bucketLess l).Perm [p, c, k] := (perm_sortSlice bucketLess l).trans hl
  have hmem := List.mem_permutations'.mpr hperm
  generalize sortSlice bucketLess l = out at hord hmem
  simp [List.permutations', List.permutations'Aux] at hmem
  unfold Ordered at hord
  rcases hmem with rfl | rfl | rfl | rfl | rfl | rfl <;>
    simp [hpc, hpk, hkc] at hord ⊢

/-- C4: `GetNotesByDate` on a bucket file that decodes returns the notes of
the file with every pending reminder (a note of type `reminder` whose status
is empty or `por_hacer`, the to-do status) before every other note, whatever
the update times: the result is its pending reminders followed by its other
notes, and no note that is not a pending reminder stands before one that is.
A bucket that holds, in any order, a pending reminder, a completed reminder
updated later and a task updated later still loads as pending reminder, task,
completed reminder. -/
theorem pending_reminders_first (r : fileRepository) (fs : FS) (date : String)
    (l : List Note) (w : Bool)
    (hfile : fs (r.bucketPath date) = some (.file (.notes l) w)) :
    ∃ out, GetNotesByDate r fs date = (.ok out, fs) ∧ out.Perm l ∧
      out = out.filter pendingReminder ++ out.filter (fun n => !pendingReminder n) ∧
      (∀ a b : Note, List.Sublist [a, b] out →
        b.Typ = "reminder" → (b.Metadata.Status = "" ∨ b.Metadata.Status = "por_hacer") →
        a.Typ = "reminder" ∧ (a.Metadata.Status = "" ∨ a.Metadata.Status = "por_hacer")) ∧
      ∀ p c k : Note, p.Typ = "reminder" →
        (p.Metadata.Status = "" ∨ p.Metadata.Status = "por_hacer") →
        c.Typ = "reminder" → c.Metadata.Status = "completed" →
        k.Typ = "task" →
        p.UpdatedAt < c.UpdatedAt → c.UpdatedAt < k.UpdatedAt →
        l.Perm [p, c, k] → out = [p, k, c] := by
  have hord := pending_first_of_ordered _
    (ordered_sortSlice bucketLess bucketLess_asymm bucketLess_negtrans l)
  have hfun : pendingReminder = isReminderPending := funext pendingReminder_eq
  refine ⟨sortSlice bucketLess l, GetNotesByDate_decoded r fs date l w hfile,
    perm_sortSlice _ _, ?_, ?_, ?_⟩
  · rw [hfun]
    exact eq_filter_append_of_pairwise _ _ hord
  · intro a b hsub hbt hbs
    have h2 := List.Pairwise.sublist hsub hord
    have h3 := (List.pairwise_cons.mp h2).1 b (List.mem_singleton.mpr rfl)
      ((isReminderPending_iff b).mpr ⟨hbt, hbs⟩)
    exact (isReminderPending_iff a).mp h3
  · intro p c k hpt hps _ hc2 hk _ h23 hl
    exact sort_three p c k l ((isReminderPending_iff p).mpr ⟨hpt, hps⟩) hc2 hk h23 hl

/-- Witness of C4: the bucket of 2025-01-02 in `exFS2`, stored as completed
reminder, task, pending reminder, loads as pending reminder, task, completed
reminder. -/
theorem pending_reminders_first_witness :
    GetNotesByDate exRepo exFS2 "2025-01-02" = (.ok [exPending, exTask, exCompleted], exFS2) :=
  let ⟨_, h1, _, _, _, h5⟩ := pending_reminders_first exRepo exFS2 "2025-01-02"
    [exCompleted, exTask, exPending] true (by rfl)
  by rw [h1, h5 exPending exCompleted exTask (by decide) (by decide) (by decide) (by decide)
    (by decide) (by decide) (by decide) (by decide)]

/-- C5: in the list that `GetNotesByDate` returns for a bucket file that
decodes, the pending reminders are in descending order of `UpdatedAt`, and so
are the other notes. -/
theorem groups_descending (r : fileRepository) (fs : FS) (date : String)
    (l : List Note) (w : Bool)
    (hfile : fs (r.bucketPath date) = some (.file (.notes l) w)) :
    ∃ out, GetNotesByDate r fs date = (.ok out, fs) ∧ out.Perm l ∧
      (out.filter isReminderPending).Pairwise (fun a b => b.UpdatedAt ≤ a.UpdatedAt) ∧
      (out.filter (fun n => !isReminderPending n)).Pairwise
        (fun a b => b.UpdatedAt ≤ a.UpdatedAt) := by
  have hord := ordered_sortSlice bucketLess bucketLess_asymm bucketLess_negtrans l
  refine ⟨sortSlice bucketLess l, GetNotesByDate_decoded r fs date l w hfile,
    perm_sortSlice _ _, ?_, ?_⟩
  · exact filter_descending isReminderPending true (fun n hn => hn) _ hord
  · exact filter_descending (fun n => !isReminderPending n) false
      (fun n hn => by simpa using hn) _ hord

/-- Witness of C5: the bucket of 2025-01-01 in `exFS`. -/
theorem groups_descending_witness :
    ∃ out, GetNotesByDate exRepo exFS "2025-01-01" = (.ok out, exFS) ∧
      out.Perm [exNoteA, exNoteB] ∧
      (out.filter isReminderPending).Pairwise (fun a b => b.UpdatedAt ≤ a.UpdatedAt) ∧
      (out.filter (fun n => !isReminderPending n)).Pairwise
        (fun a b => b.UpdatedAt ≤ a.UpdatedAt) :=
  groups_descending exRepo exFS "2025-01-01" [exNoteA, exNoteB] true (by rfl)

/-- C6, as stated, fails: the path of the notes directory is a regular file,
so the JSON file of 2025-01-01 is absent, and `GetNotesByDate` returns the
error of `os.Open`, not the empty list. -/
theorem notes_dir_a_file_fails_the_read :
    exFSNotesIsFile (exRepo.bucketPath "2025-01-01") = none ∧
    exFSNotesIsFile "/notes" = some (.file (.text "") true) ∧
    GetNotesByDate exRepo exFSNotesIsFile "2025-01-01" =
      (.error (.openFile "/notes/2025-01-01.json"), exFSNotesIsFile) :=
  ⟨by rfl, by rfl, by rfl⟩

/-- C6, amended: when the JSON file of a date is absent, `GetNotesByDate`
leaves the file system as it is, whatever else it holds (a legacy text file
of that date included). It returns the empty list without an error when the
way to the file is free, so that `os.Open` reports that the file does not
exist; it returns the error of `os.Open` when the way is blocked: a text that
stands before one of the slashes of the path names something that is not a
directory. -/
theorem absent_bucket_reads_empty (r : fileRepository) (fs : FS) (date : String)
    (habsent : fs (r.bucketPath date) = none) :
    (Blocked fs (r.bucketPath date) = false → GetNotesByDate r fs date = (.ok [], fs)) ∧
    (Blocked fs (r.bucketPath date) = true →
      GetNotesByDate r fs date = (.error (.openFile (r.bucketPath date)), fs)) ∧
    (Blocked fs (r.bucketPath date) = true ↔
      ∃ a rest, (r.bucketPath date).data = a ++ '/' :: rest ∧ a ≠ [] ∧
        (fs (String.mk a)).isSome = true) := by
  refine ⟨?_, ?_, Blocked_iff fs _⟩
  · intro hb
    simp [GetNotesByDate, readNotesFromFile, Open_absent fs _ habsent hb]
  · intro hb
    simp [GetNotesByDate, readNotesFromFile, Open_blocked fs _ habsent hb]

/-- Witness of C6, amended: the JSON file of 2025-01-03 is absent from
`exFSLegacyOnly`, which holds the legacy text file of that date and nothing
at `/notes`. -/
theorem absent_bucket_reads_empty_witness :
    GetNotesByDate exRepo exFSLegacyOnly "2025-01-03" = (.ok [], exFSLegacyOnly) :=
  (absent_bucket_reads_empty exRepo exFSLegacyOnly "2025-01-03" (by rfl)).1 (by rfl)

/-- Counterexample to C7 as stated: with the legacy file of 2025-01-03 on disk
and no JSON file for that date, `GetNotesByDate` returns no note at all,
although the first line of the legacy file is well formed. -/
theorem legacy_file_alone_not_migrated :
    exFSLegacyOnly (textPath (exRepo.bucketPath "2025-01-03")) =
        some (.file (.text "[09:00:00] buy milk\nnot a note\n") true) ∧
      legacyNote "2025-01-03" "[09:00:00] buy milk".data = some exMigrated ∧
      GetNotesByDate exRepo exFSLegacyOnly "2025-01-03" = (.ok [], exFSLegacyOnly) :=
  ⟨by rfl, by rfl, by rfl⟩

/-- C7, amended: when the JSON file of the date exists, can be written and
does not decode, and the lines of the legacy file fit the buffer of the
scanner, `GetNotesByDate` returns without an error one note for each line
that makes one and none for the others. A line makes a note
exactly when its trimmed text is a bracket, a clock time that `time.Parse`
accepts, a closing bracket and a space, and then the content; in particular
a line `[HH:MM:SS] content` makes the text note with that content, the parsed
time as `CreatedAt` and `UpdatedAt`, and the date of the bucket. The legacy
file with the lines `[09:00:00] buy milk` and `not a note` gives one note,
with content `buy milk`. -/
theorem migration_result (r : fileRepository) (fs : FS) (date : String)
    (d legacy : FileData) (w : Bool) (lines : List (List Char))
    (hjson : fs (r.bucketPath date) = some (.file d true)) (hdec : d.decode = none)
    (htext : fs (textPath (r.bucketPath date)) = some (.file legacy w))
    (hscan : scanLines legacy.scanText.data = some lines) :
    (∃ fs', GetNotesByDate r fs date = (.ok (lines.filterMap (legacyNote date)), fs')) ∧
    (∀ text n, legacyNote date text = some n ↔
      ∃ timeStr content t, cut [']', ' '] (TrimSpace text) = some ('[' :: timeStr, content) ∧
        parseClock timeStr = some t ∧
        n = { ID := date ++ "-" ++ String.mk timeStr, Typ := NoteTypeText,
              Content := String.mk content, CreatedAt := t, UpdatedAt := t, Date := date,
              Metadata := Metadata.empty }) ∧
    (∀ (text content : List Char) (h1 h2 m1 m2 s1 s2 : Char),
      (h1.isDigit = true ∧ h2.isDigit = true ∧ m1.isDigit = true ∧ m2.isDigit = true ∧
        s1.isDigit = true ∧ s2.isDigit = true) →
      digitVal h1 * 10 + digitVal h2 < 24 →
      digitVal m1 * 10 + digitVal m2 < 60 →
      digitVal s1 * 10 + digitVal s2 < 60 →
      TrimSpace text = ['[', h1, h2, ':', m1, m2, ':', s1, s2, ']', ' '] ++ content →
      legacyNote date text = some
        { ID := date ++ "-" ++ String.mk [h1, h2, ':', m1, m2, ':', s1, s2],
          Typ := NoteTypeText,
          Content := String.mk content,
          CreatedAt := (yearZeroUnix + ((digitVal h1 * 10 + digitVal h2) * 3600 +
            (digitVal m1 * 10 + digitVal m2) * 60 + (digitVal s1 * 10 + digitVal s2) : Nat))
              * 1000000000,
          UpdatedAt := (yearZeroUnix + ((digitVal h1 * 10 + digitVal h2) * 3600 +
            (digitVal m1 * 10 + digitVal m2) * 60 + (digitVal s1 * 10 + digitVal s2) : Nat))
              * 1000000000,
          Date := date,
          Metadata := Metadata.empty }) ∧
    (legacy.scanText = "[09:00:00] buy milk\nnot a note\n" →
      lines.filterMap (legacyNote date) =
        [{ ID := date ++ "-" ++ "09:00:00", Typ := NoteTypeText, Content := "buy milk",
           CreatedAt := -62167186800000000000, UpdatedAt := -62167186800000000000,
           Date := date, Metadata := Metadata.empty }]) := by
  refine ⟨?_, legacyNote_eq_some_iff date, ?_, ?_⟩
  · unfold GetNotesByDate readNotesFromFile
    simp only [Open_file _ _ _ _ hjson, hdec]
    unfold migrateFromTextFormat
    simp only [Open_file _ _ _ _ htext, hscan, migrateLines_eq]
    by_cases hlen : 0 < (lines.filterMap (legacyNote date)).length
    · simp only [hlen, if_true]
      have henc := migrateLines_encodable date lines
      rw [migrateLines_eq] at henc
      have hw : writeNotesToFile fs (r.bucketPath date) (lines.filterMap (legacyNote date)) =
          (.ok (), Function.update fs (r.bucketPath date)
            (some (.file (.notes (lines.filterMap (legacyNote date))) true))) := by
        simp only [writeNotesToFile, hjson, encodeInto, henc, if_true]
      simp only [hw]
      exact ⟨_, rfl⟩
    · simp only [hlen, if_false]
      exact ⟨_, rfl⟩
  · intro text content h1 h2 m1 m2 s1 s2 hd hh hm hs ht
    exact legacyNote_wellFormed date text content h1 h2 m1 m2 s1 s2 hd hh hm hs ht
  · intro hex
    rw [hex] at hscan
    have hl : scanLines "[09:00:00] buy milk\nnot a note\n".data =
        some ["[09:00:00] buy milk".data, "not a note".data] := by decide
    rw [hl] at hscan
    cases hscan
    rfl

/-- Witness of C7: the migration of the legacy file of 2025-01-03 in
`exFSMigrate`. -/
theorem migration_result_witness :
    ∃ fs', GetNotesByDate exRepo exFSMigrate "2025-01-03" =
      (.ok (["[09:00:00] buy milk".data, "not a note".data].filterMap
        (legacyNote "2025-01-03")), fs') :=
  (migration_result exRepo exFSMigrate "2025-01-03" (.text "") (.text exLegacyText) true
    ["[09:00:00] buy milk".data, "not a note".data] (by rfl) (by rfl) (by rfl) (by decide)).1

/-- C8: the legacy file of 2025-01-12 holds one well-formed line and is a
file that the system does not let be removed. `GetNotesByDate` migrates it:
it returns the note of the line and writes it to the JSON file of the date,
and a second `GetNotesByDate` returns the same note from the JSON file
without migrating again; but the legacy file is still there after the
migration, with its content. -/
theorem kept_legacy_file_stays :
    GetNotesByDate exRepo exFSKept "2025-01-12" =
      (.ok [exMilk12], Function.update exFSKept "/notes/2025-01-12.json"
        (some (.file (.notes [exMilk12]) true))) ∧
    (GetNotesByDate exRepo exFSKept "2025-01-12").2
        (textPath (exRepo.bucketPath "2025-01-12")) =
      some (.kept (.text "[09:00:00] buy milk\n")) ∧
    textPath (exRepo.bucketPath "2025-01-12") = "/notes/2025-01-12.txt" ∧
    GetNotesByDate exRepo (GetNotesByDate exRepo exFSKept "2025-01-12").2 "2025-01-12" =
      (.ok [exMilk12], (GetNotesByDate exRepo exFSKept "2025-01-12").2) :=
  ⟨by rfl, by rfl, by rfl, by rfl⟩

/-- C9: for two dates that parse, `GetNotesByDateRange` succeeds and returns
a permutation of the notes that `GetNotesByDate` returns for the days from the
start date to the end date, both included, each read on the file system the
query started from; the first and last of these days are the two dates given.
A day without a JSON file gives no notes and changes nothing, and it is read
as the empty list, without an error, when the way to the file is free. -/
theorem range_is_union_of_days (r : fileRepository) (fs : FS) (startDate endDate : String)
    (start stop : Nat)
    (hs : parseDate startDate = some start) (he : parseDate endDate = some stop) :
    ∃ out fs', GetNotesByDateRange r fs startDate endDate = (.ok out, fs') ∧
      out.Perm ((daysOfRange start stop).map
        (fun d => notesOf (GetNotesByDate r fs (formatDate d)).1)).flatten ∧
      (∀ d, d ∈ daysOfRange start stop ↔ start ≤ d ∧ d ≤ stop) ∧
      formatDate start = startDate ∧ formatDate stop = endDate ∧
      (∀ d, fs (r.bucketPath (formatDate d)) = none →
        notesOf (GetNotesByDate r fs (formatDate d)).1 = [] ∧
        (GetNotesByDate r fs (formatDate d)).2 = fs ∧
        (Blocked fs (r.bucketPath (formatDate d)) = false →
          GetNotesByDate r fs (formatDate d) = (.ok [], fs))) := by
  have hmem : ∀ d, d ∈ daysOfRange start stop ↔ start ≤ d ∧ d ≤ stop := by
    intro d
    unfold daysOfRange
    rw [List.mem_range'_1]
    omega
  have hstop := parseDate_lt endDate stop he
  have hloop := rangeLoop_fst r fs (daysOfRange start stop) fs []
    (List.nodup_range' _ _) (fun d hd => by have := (hmem d).mp hd; omega)
    (fun d _ => ⟨rfl, rfl, rfl, rfl⟩)
  refine ⟨_, _, GetNotesByDateRange_eq r fs startDate endDate start stop hs he, ?_, hmem,
    formatDate_parseDate _ _ hs, formatDate_parseDate _ _ he, ?_⟩
  · rw [hloop]
    simpa using perm_sortSlice rangeLess _
  · intro d hd
    cases hb : Blocked fs (r.bucketPath (formatDate d)) with
    | false =>
      have : GetNotesByDate r fs (formatDate d) = (.ok [], fs) := by
        simp [GetNotesByDate, readNotesFromFile, Open_absent fs _ hd hb]
      rw [this]
      exact ⟨rfl, rfl, fun _ => rfl⟩
    | true =>
      have : GetNotesByDate r fs (formatDate d) =
          (.error (.openFile (r.bucketPath (formatDate d))), fs) := by
        simp [GetNotesByDate, readNotesFromFile, Open_blocked fs _ hd hb]
      rw [this]
      exact ⟨rfl, rfl, fun h => by cases h⟩

/-- Witness of C9: the range query over the January of 2025 in `exFS2`. -/
theorem range_is_union_of_days_witness :
    ∃ out fs', GetNotesByDateRange exRepo exFS2 "2025-01-01" "2025-01-31" = (.ok out, fs') ∧
      out.Perm ((daysOfRange (dayNumber 2025 1 1) (dayNumber 2025 1 31)).map
        (fun d => notesOf (GetNotesByDate exRepo exFS2 (formatDate d)).1)).flatten ∧
      (∀ d, d ∈ daysOfRange (dayNumber 2025 1 1) (dayNumber 2025 1 31) ↔
        dayNumber 2025 1 1 ≤ d ∧ d ≤ dayNumber 2025 1 31) ∧
      formatDate (dayNumber 2025 1 1) = "2025-01-01" ∧
      formatDate (dayNumber 2025 1 31) = "2025-01-31" ∧
      (∀ d, exFS2 (exRepo.bucketPath (formatDate d)) = none →
        notesOf (GetNotesByDate exRepo exFS2 (formatDate d)).1 = [] ∧
        (GetNotesByDate exRepo exFS2 (formatDate d)).2 = exFS2 ∧
        (Blocked exFS2 (exRepo.bucketPath (formatDate d)) = false →
          GetNotesByDate exRepo exFS2 (formatDate d) = (.ok [], exFS2))) :=
  range_is_union_of_days exRepo exFS2 "2025-01-01" "2025-01-31"
    (dayNumber 2025 1 1) (dayNumber 2025 1 31) (by decide) (by decide)

/-- Counterexample to C10 as stated: the range query over 2025-01-02 returns
the task and the completed reminder before the pending reminder, which was
updated before them. -/
theorem range_puts_pending_reminder_last :
    (GetNotesByDateRange exRepo exFS2 "2025-01-02" "2025-01-02").1 =
        .ok [exTask, exCompleted, exPending] ∧
      isReminderPending exPending = true ∧ isReminderPending exTask = false ∧
      isReminderPending exCompleted = false := by
  decide

/-- C10, amended: for every pair of dates that parse, the list returned by
`GetNotesByDateRange` is in descending order of `UpdatedAt` as a whole, and
so within the pending reminders and within the other notes; the same holds
for every list that `GetNotesByMonth` returns. Pending reminders are not
moved to the front. -/
theorem range_descending_by_update_time (r : fileRepository) (fs : FS)
    (startDate endDate : String) (start stop : Nat)
    (hs : parseDate startDate = some start) (he : parseDate endDate = some stop) :
    (∃ out fs', GetNotesByDateRange r fs startDate endDate = (.ok out, fs') ∧
      out.Pairwise (fun a b => b.UpdatedAt ≤ a.UpdatedAt) ∧
      (out.filter isReminderPending).Pairwise (fun a b => b.UpdatedAt ≤ a.UpdatedAt) ∧
      (out.filter (fun n => !isReminderPending n)).Pairwise
        (fun a b => b.UpdatedAt ≤ a.UpdatedAt)) ∧
    (∀ monthStr out fs', GetNotesByMonth r fs monthStr = (.ok out, fs') →
      out.Pairwise (fun a b => b.UpdatedAt ≤ a.UpdatedAt)) := by
  constructor
  · have h := GetNotesByDateRange_eq r fs startDate endDate start stop hs he
    have hd := sortSlice_rangeLess_descending (rangeLoop r fs (daysOfRange start stop) []).1
    exact ⟨_, _, h, hd, hd.filter _, hd.filter _⟩
  · intro monthStr out fs' hm
    unfold GetNotesByMonth at hm
    cases hp : parseMonth monthStr with
    | none => simp [hp] at hm
    | some ym =>
      obtain ⟨year, month⟩ := ym
      simp only [hp] at hm
      exact GetNotesByDateRange_descending r fs fs' _ _ out hm

/-- Witness of C10: the range query over the January of 2025 in `exFS2`. -/
theorem range_descending_by_update_time_witness :
    (∃ out fs', GetNotesByDateRange exRepo exFS2 "2025-01-01" "2025-01-31" = (.ok out, fs') ∧
      out.Pairwise (fun a b => b.UpdatedAt ≤ a.UpdatedAt) ∧
      (out.filter isReminderPending).Pairwise (fun a b => b.UpdatedAt ≤ a.UpdatedAt) ∧
      (out.filter (fun n => !isReminderPending n)).Pairwise
        (fun a b => b.UpdatedAt ≤ a.UpdatedAt)) ∧
    (∀ monthStr out fs', GetNotesByMonth exRepo exFS2 monthStr = (.ok out, fs') →
      out.Pairwise (fun a b => b.UpdatedAt ≤ a.UpdatedAt)) :=
  range_descending_by_update_time exRepo exFS2 "2025-01-01" "2025-01-31"
    (dayNumber 2025 1 1) (dayNumber 2025 1 31) (by decide) (by decide)

/-- C11: for every month text `YYYY-MM` that parses, `GetNotesByMonth` is
`GetNotesByDateRange` from `YYYY-MM-01` to the day of the same month and year
whose number is the length of the month: 28 or 29 for February by the leap
year rule, 30 for April, June, September and November, 31 otherwise, December
included. Its result is a permutation of the notes that `GetNotesByDate`
returns for the days from the first to the last of the month. For `2025-02`
the range is `2025-02-01` to `2025-02-28`, and with one note in the bucket of
2025-02-28 and one in that of 2025-03-01 only the first is returned. -/
theorem month_is_range_to_last_day (r : fileRepository) (fs : FS) (monthStr : String)
    (year month : Nat) (h : parseMonth monthStr = some (year, month)) :
    GetNotesByMonth r fs monthStr =
      GetNotesByDateRange r fs (monthStr ++ "-01")
        (monthStr ++ "-" ++ String.mk (padded 2 (daysIn month year))) ∧
    parseDate (monthStr ++ "-01") = some (dayNumber year month 1) ∧
    parseDate (monthStr ++ "-" ++ String.mk (padded 2 (daysIn month year))) =
      some (dayNumber year month (daysIn month year)) ∧
    daysIn month year =
      (if month = 2 then
        (if year % 4 = 0 ∧ (year % 100 ≠ 0 ∨ year % 400 = 0) then 29 else 28)
       else if month = 4 ∨ month = 6 ∨ month = 9 ∨ month = 11 then 30 else 31) ∧
    (∃ out fs', GetNotesByMonth r fs monthStr = (.ok out, fs') ∧
      out.Perm ((daysOfRange (dayNumber year month 1)
        (dayNumber year month (daysIn month year))).map
          (fun d => notesOf (GetNotesByDate r fs (formatDate d)).1)).flatten) ∧
    (monthStr = "2025-02" →
      GetNotesByMonth r fs monthStr = GetNotesByDateRange r fs "2025-02-01" "2025-02-28") ∧
    (GetNotesByMonth exRepo exFSMonth "2025-02").1 = .ok [exFebNote] := by
  have heq := GetNotesByMonth_eq r fs monthStr year month h
  have hfirst := parseDate_month_first monthStr year month h
  have hlast := parseDate_month_last monthStr year month h
  refine ⟨heq, hfirst, hlast, ?_, ?_, ?_, by decide⟩
  · unfold daysIn
    by_cases hl : isLeap year = true
    · have := (isLeap_iff year).mp hl
      simp [hl, this, or_assoc]
    · have hn : ¬ (year % 4 = 0 ∧ (year % 100 ≠ 0 ∨ year % 400 = 0)) :=
        fun c => hl ((isLeap_iff year).mpr c)
      simp [hl, hn, or_assoc]
  · have hstop := parseDate_lt _ _ hlast
    have hmem : ∀ d, d ∈ daysOfRange (dayNumber year month 1)
        (dayNumber year month (daysIn month year)) →
        d < daysBeforeYear 10000 := by
      intro d hd
      unfold daysOfRange at hd
      rw [List.mem_range'_1] at hd
      omega
    have hloop := rangeLoop_fst r fs (daysOfRange (dayNumber year month 1)
      (dayNumber year month (daysIn month year))) fs [] (List.nodup_range' _ _) hmem
      (fun d _ => ⟨rfl, rfl, rfl, rfl⟩)
    refine ⟨_, _, heq.trans (GetNotesByDateRange_eq r fs _ _ _ _ hfirst hlast), ?_⟩
    rw [hloop]
    simpa using perm_sortSlice rangeLess _
  · intro hm
    subst hm
    have hp : parseMonth "2025-02" = some (2025, 2) := by decide
    rw [hp] at h
    simp only [Option.some.injEq, Prod.mk.injEq] at h
    obtain ⟨rfl, rfl⟩ := h
    rw [heq]
    rfl

/-- Witness of C11: February of the leap year 2024. -/
theorem month_is_range_to_last_day_witness :
    GetNotesByMonth exRepo exFSMonth "2024-02" =
      GetNotesByDateRange exRepo exFSMonth "2024-02-01" "2024-02-29" :=
  (month_is_range_to_last_day exRepo exFSMonth "2024-02" 2024 2 (by decide)).1

/-- C12: `DeleteNote` of the store returns the error that the operation is
not supported, whatever the ID and the state, and leaves every file as it
is; so it does in `exFS` for the ID of `exNoteA`, a note of the bucket of
2025-01-01. -/
theorem store_delete_not_supported (r : fileRepository) (fs : FS) (id : String) :
    DeleteNote r fs id = (.error .deleteNotSupported, fs) ∧
    (∀ path, (DeleteNote r fs id).2 path = fs path) ∧
    (∃ n ∈ [exNoteA, exNoteB], n.ID = exNoteA.ID) ∧
    (DeleteNote exRepo exFS exNoteA.ID).1 = .error .deleteNotSupported ∧
    (DeleteNote exRepo exFS exNoteA.ID).2 (exRepo.bucketPath exNoteA.Date) =
      some (.file (.notes [exNoteA, exNoteB]) true) :=
  ⟨rfl, fun _ => rfl, ⟨exNoteA, by decide, rfl⟩, rfl, by rfl⟩

/-- C14: for a content that is empty or white space only, `CreateNote` and
`SaveNote` of the service return the empty-content error, whatever repository
stands behind the service, and leave its state as it is (its `Save` is not
called); `SaveNote` leaves the note as it is, `UpdatedAt` included. -/
theorem blank_content_rejected {σ : Type} (s : noteService σ) (st : σ) (c : Clock)
    (content : String) (hblank : ∀ ch ∈ content.data, isSpace ch = true) :
    s.CreateNote st c content = (.error .emptyContent, st) ∧
    ∀ note : Note, note.Content = content →
      s.SaveNote st c note = (.error .emptyContent, note, st) := by
  have h := (TrimSpace_eq_nil_iff content.data).mpr hblank
  constructor
  · simp [noteService.CreateNote, h]
  · intro note hnote
    subst hnote
    simp [noteService.SaveNote, h]

/-- Witness of C14: a content of a space, a tab and a line feed, on a
repository that counts the calls of `Save`. -/
theorem blank_content_rejected_witness :
    (NewNoteService countingRepository).CreateNote 0 exClock " \t\n" =
      (.error .emptyContent, 0) ∧
    ∀ note : Note, note.Content = " \t\n" →
      (NewNoteService countingRepository).SaveNote 0 exClock note =
        (.error .emptyContent, note, 0) :=
  blank_content_rejected (NewNoteService countingRepository) 0 exClock " \t\n" (by decide)

/-- C16: for a note whose content is not blank, when `Save` of the store
succeeds, `SaveNote` of the service at the clock time `now` succeeds, hands
the note back with `UpdatedAt` set to `now`, and the bucket of the date of
the note then holds a note with `UpdatedAt = now` and with the ID, type,
content, `CreatedAt`, date and metadata that were passed in. -/
theorem save_note_stamps_update_time (r : fileRepository) (fs fs' : FS) (c : Clock)
    (note : Note) (hcontent : TrimSpace note.Content.data ≠ [])
    (hsave : Save r fs { note with UpdatedAt := c.now } = (.ok (), fs')) :
    (NewNoteService r.asRepository).SaveNote fs c note =
      (.ok (), { note with UpdatedAt := c.now }, fs') ∧
    ∃ l, fs' (r.bucketPath note.Date) = some (.file (.notes l) true) ∧
      ∃ p ∈ l, p.UpdatedAt = c.now ∧ p.ID = note.ID ∧ p.Typ = note.Typ ∧
        p.Content = note.Content ∧ p.CreatedAt = note.CreatedAt ∧ p.Date = note.Date ∧
        p.Metadata = note.Metadata := by
  obtain ⟨notes, fs1, _, hfs⟩ := Save_ok_inv r fs fs' _ hsave
  constructor
  · have hs : r.asRepository.Save fs { note with UpdatedAt := c.now } = (.ok (), fs') := hsave
    simp [noteService.SaveNote, NewNoteService, hcontent, hs]
  · refine ⟨upsert notes { note with UpdatedAt := c.now }, ?_, _, mem_upsert notes _,
      rfl, rfl, rfl, rfl, rfl, rfl, rfl⟩
    rw [hfs]
    exact Function.update_same _ _ _

/-- Witness of C16: saving `exNoteA2` on `exFS` at the time of `exClock`. -/
theorem save_note_stamps_update_time_witness :
    (NewNoteService exRepo.asRepository).SaveNote exFS exClock exNoteA2 =
      (.ok (), { exNoteA2 with UpdatedAt := exClock.now },
        (Save exRepo exFS { exNoteA2 with UpdatedAt := exClock.now }).2) :=
  (save_note_stamps_update_time exRepo exFS
    (Save exRepo exFS { exNoteA2 with UpdatedAt := exClock.now }).2 exClock exNoteA2
    (by decide) (by rfl)).1

/-- C17: `GetNotesByDate` of the service returns the date-format error, whatever
repository stands behind it and without a change of its state, for every text
that is not a valid date written `YYYY-MM-DD`; for a valid one it returns the
notes that the repository returns, or the error of the repository wrapped.
`GetNotesByMonth` does the same with the valid months written `YYYY-MM`. -/
theorem service_validates_dates {σ : Type} (s : noteService σ) (st : σ) (text : String) :
    (isValidDateText text = false →
      s.GetNotesByDate st text = (.error .invalidDateFormat, st)) ∧
    (isValidDateText text = true →
      (∀ notes st1, s.repository.GetNotesByDate st text = (.ok notes, st1) →
        s.GetNotesByDate st text = (.ok notes, st1)) ∧
      (∀ e st1, s.repository.GetNotesByDate st text = (.error e, st1) →
        s.GetNotesByDate st text = (.error (.dateFailed text e), st1))) ∧
    (isValidMonthText text = false →
      s.GetNotesByMonth st text = (.error .invalidMonthFormat, st)) ∧
    (isValidMonthText text = true →
      (∀ notes st1, s.repository.GetNotesByMonth st text = (.ok notes, st1) →
        s.GetNotesByMonth st text = (.ok notes, st1)) ∧
      (∀ e st1, s.repository.GetNotesByMonth st text = (.error e, st1) →
        s.GetNotesByMonth st text = (.error (.monthFailed text e), st1))) := by
  refine ⟨?_, ?_, ?_, ?_⟩
  · intro h
    have hp : parseDate text = none := by
      cases hc : parseDate text with
      | none => rfl
      | some n =>
        have := (parseDate_isSome_iff text).mp (by rw [hc]; rfl)
        rw [h] at this
        exact Bool.noConfusion this
    simp [noteService.GetNotesByDate, hp]
  · intro h
    have hp := (parseDate_isSome_iff text).mpr h
    obtain ⟨n, hn⟩ := Option.isSome_iff_exists.mp hp
    constructor
    · intro notes st1 hr
      simp [noteService.GetNotesByDate, hn, hr]
    · intro e st1 hr
      simp [noteService.GetNotesByDate, hn, hr]
  · intro h
    have hp : parseMonth text = none := by
      cases hc : parseMonth text with
      | none => rfl
      | some n =>
        have := (parseMonth_isSome_iff text).mp (by rw [hc]; rfl)
        rw [h] at this
        exact Bool.noConfusion this
    simp [noteService.GetNotesByMonth, hp]
  · intro h
    have hp := (parseMonth_isSome_iff text).mpr h
    obtain ⟨n, hn⟩ := Option.isSome_iff_exists.mp hp
    constructor
    · intro notes st1 hr
      simp [noteService.GetNotesByMonth, hn, hr]
    · intro e st1 hr
      simp [noteService.GetNotesByMonth, hn, hr]

/-- Witness of C17: the texts `2025-02-30` and `2025-13` are refused, the
texts `2025-01-01` and `2025-01` are passed on to the file repository. -/
theorem service_validates_dates_witness :
    (NewNoteService countingRepository).GetNotesByDate 0 "2025-02-30" =
      (.error .invalidDateFormat, 0) ∧
    (NewNoteService exRepo.asRepository).GetNotesByDate exFS "2025-01-01" =
      (.ok [exNoteB, exNoteA], exFS) ∧
    (NewNoteService countingRepository).GetNotesByMonth 0 "2025-13" =
      (.error .invalidMonthFormat, 0) ∧
    (NewNoteService exRepo.asRepository).GetNotesByMonth exFS "2025-01" =
      (.ok [exNoteB, exNoteA], (GetNotesByMonth exRepo exFS "2025-01").2) :=
  ⟨(service_validates_dates (NewNoteService countingRepository) 0 "2025-02-30").1 (by decide),
   ((service_validates_dates (NewNoteService exRepo.asRepository) exFS "2025-01-01").2.1
     (by decide)).1 _ _ (by rfl),
   (service_validates_dates (NewNoteService countingRepository) 0 "2025-13").2.2.1 (by decide),
   ((service_validates_dates (NewNoteService exRepo.asRepository) exFS "2025-01").2.2.2
     (by decide)).1 _ _ (by rfl)⟩

/-- C18: `ListNotes` returns `No notes found.` for the empty list, and for
a list of `n` notes the header with the count `n` followed by `n` entries in
the order of the list, the entry of the note at index `i` being the number
`i + 1`, a period, a space, the rendering of the note by `String` and a line
feed. -/
theorem list_notes_numbered (clockText : Time → String) (notes : List Note) :
    (notes = [] → ListNotes clockText notes = "No notes found.") ∧
    (notes ≠ [] →
      ListNotes clockText notes =
        "📝 Notes (" ++ toString notes.length ++ " found):\n\n" ++
          String.join (notes.enum.map (fun p =>
            toString (p.1 + 1) ++ ". " ++ p.2.String clockText ++ "\n"))) ∧
    (notes.enum.map (fun p =>
      toString (p.1 + 1) ++ ". " ++ p.2.String clockText ++ "\n")).length = notes.length ∧
    (∀ (i : Nat) (note : Note), notes[i]? = some note →
      (notes.enum.map (fun p =>
        toString (p.1 + 1) ++ ". " ++ p.2.String clockText ++ "\n"))[i]? =
        some (toString (i + 1) ++ ". " ++ note.String clockText ++ "\n")) := by
  refine ⟨?_, ?_, by simp, ?_⟩
  · intro h
    simp [ListNotes, h]
  · intro h
    have hl : ¬ notes.length = 0 := by
      intro h0
      exact h (List.length_eq_zero.mp h0)
    unfold ListNotes
    simp only [hl, if_false]
    rw [listLoop_eq]
    rfl
  · intro i note hi
    rw [List.getElem?_map, List.getElem?_enum, hi]
    rfl

/-- Witness of C18: the listing of `exNoteA` and `exTask`, with the clock
times in UTC. -/
theorem list_notes_numbered_witness :
    ListNotes (clockText 0) [exNoteA, exTask] =
      "📝 Notes (2 found):\n\n1. [10:00:00] buy milk\n2. [11:00:00] write report [high, por_hacer]\n" := by
  have h := ((list_notes_numbered (clockText 0) [exNoteA, exTask]).2.1 (by simp))
  rw [h]
  decide

/-- C19: when the list that `Save` loads for the date of the note has
pairwise distinct IDs, the bucket that a successful `Save` writes has
pairwise distinct IDs again; and every bucket of a store reached from the
empty file system by a sequence of calls of `Save` has pairwise distinct
IDs. -/
theorem save_keeps_ids_unique (r : fileRepository) :
    (∀ (fs fs' fs1 : FS) (n : Note) (loaded : List Note),
      readNotesFromFile fs (r.bucketPath n.Date) n.Date = (.ok loaded, fs1) →
      UniqueIDs loaded → Save r fs n = (.ok (), fs') →
      ∃ l, fs' (r.bucketPath n.Date) = some (.file (.notes l) true) ∧ UniqueIDs l) ∧
    (∀ notes : List Note, AllBucketsUnique (saveAll r emptyFS notes)) := by
  constructor
  · intro fs fs' fs1 n loaded hload hu hsave
    obtain ⟨notes, fs1', hread, hfs⟩ := Save_ok_inv r fs fs' n hsave
    rw [hload] at hread
    obtain ⟨rfl, rfl⟩ : loaded = notes ∧ fs1 = fs1' := by
      simpa using hread
    refine ⟨upsert loaded n, ?_, UniqueIDs_upsert loaded n hu⟩
    rw [hfs]
    exact Function.update_same _ _ _
  · intro notes path l w hfile
    have hs := SavedStore_saveAll r notes emptyFS (fun _ _ he => by simp [emptyFS] at he)
    rcases hs path _ hfile with ⟨l', he, hu⟩ | he
    · cases he
      exact hu
    · cases he

/-- Witness of C19: saving `exNoteA2` into the bucket of `exFS`. -/
theorem save_keeps_ids_unique_witness :
    ∃ l, (Save exRepo exFS exNoteA2).2 (exRepo.bucketPath exNoteA2.Date) =
      some (.file (.notes l) true) ∧ UniqueIDs l :=
  (save_keeps_ids_unique exRepo).1 exFS (Save exRepo exFS exNoteA2).2 exFS exNoteA2
    (sortSlice bucketLess [exNoteA, exNoteB]) (by rfl) (by unfold UniqueIDs; decide) (by rfl)

/-- C20, as stated, fails: `Save` of a note whose date text is `./2025-01-01`
succeeds and rewrites the bucket file of the date `2025-01-01`, which is
another date text. -/
theorem dotted_date_rewrites_other_bucket :
    ("2025-01-01" : String) ≠ exDotNote.Date ∧
    exRepo.bucketPath exDotNote.Date = exRepo.bucketPath "2025-01-01" ∧
    exFS (exRepo.bucketPath "2025-01-01") = some (.file (.notes [exNoteA, exNoteB]) true) ∧
    (Save exRepo exFS exDotNote).1 = .ok () ∧
    (Save exRepo exFS exDotNote).2 (exRepo.bucketPath "2025-01-01") =
      some (.file (.notes [exNoteB, exNoteA, exDotNote]) true) :=
  ⟨by decide, by decide, by rfl, by rfl, by rfl⟩

/-- C20, amended: `Save` of a note whose date is a calendar date written
`YYYY-MM-DD`, successful or not, leaves the bucket file of every other date
whose text has no slash in it as it was, so that of every other calendar
date, and it leaves the legacy file of every other calendar date as it
was. -/
theorem save_touches_own_bucket_only (r : fileRepository) (fs : FS) (n : Note) (k : Nat)
    (other : String) (hdate : parseDate n.Date = some k) (hother : other ≠ n.Date) :
    ('/' ∉ other.data →
      (Save r fs n).2 (r.bucketPath other) = fs (r.bucketPath other)) ∧
    ((parseDate other).isSome = true →
      (Save r fs n).2 (r.bucketPath other) = fs (r.bucketPath other) ∧
      (Save r fs n).2 (textPath (r.bucketPath other)) = fs (textPath (r.bucketPath other))) := by
  have hc := cleanDate_of_parseDate _ _ hdate
  have h1 : '/' ∉ other.data →
      (Save r fs n).2 (r.bucketPath other) = fs (r.bucketPath other) := by
    intro hs
    exact Save_frame r fs n _ (fun he => hother (bucketPath_inj r _ _ hs hc.2.2 he))
      (fun he => textPath_ne_bucketPath_any r _ _ hc hs he.symm)
  refine ⟨h1, ?_⟩
  intro ho
  obtain ⟨j, hj⟩ := Option.isSome_iff_exists.mp ho
  have hco := cleanDate_of_parseDate _ _ hj
  exact ⟨h1 hco.2.2,
    Save_frame r fs n _ (fun he => textPath_ne_bucketPath_any r _ _ hco hc.2.2 he)
      (fun he => hother (textPath_inj r _ _ hco hc he))⟩

/-- Witness of C20, amended: saving `exFebNote`, a note of 2025-02-28, into
`exFSMonth` leaves the bucket of 2025-03-01 with `exMarNote`. -/
theorem save_touches_own_bucket_only_witness :
    (Save exRepo exFSMonth exFebNote).2 (exRepo.bucketPath "2025-03-01") =
      some (.file (.notes [exMarNote]) true) :=
  ((save_touches_own_bucket_only exRepo exFSMonth exFebNote (dayNumber 2025 2 28) "2025-03-01"
    (by decide) (by decide)).2 (by decide)).1.trans (by rfl)

/-- C21: with the flags `--list` and `--note` both set, whatever the service,
the other handlers, the store and the arguments, `handleRootCommand` prints
the error and the usage text and returns: no handler runs, `CreateNote` is
not called and the store is unchanged, but the process ends with status 0.
The same holds for every combination of flags of which more than one is
set. -/
theorem two_flags_exit_status_zero {σ : Type} (cli : CLI σ)
    (handlers : Selected → σ → Clock → Outcome σ) (st : σ) (c : Clock)
    (args : List String) :
    flagCount exTwoFlags = 2 ∧
    cli.handleRootCommand handlers st c exTwoFlags args =
      { state := st, printed := [.onlyOneFlag, .usage], exit := none } ∧
    main cli handlers st c exTwoFlags args = (0, st) ∧
    (∀ flags : RootFlags,
      (if 1 < flagCount flags then main cli handlers st c flags args else (0, st)) =
        (0, st)) ∧
    main exCLI exHandlers exFS exClock exTwoFlags [] = (0, exFS) := by
  have hgen : ∀ flags : RootFlags, 1 < flagCount flags →
      main cli handlers st c flags args = (0, st) := by
    intro flags h
    unfold main
    rw [handleRootCommand_many_flags cli handlers st c flags args h]
  refine ⟨by decide, handleRootCommand_many_flags cli handlers st c exTwoFlags args
    (by decide), hgen exTwoFlags (by decide), ?_, by rfl⟩
  intro flags
  split
  · rename_i h
    exact hgen flags h
  · rfl

/-- C22: when no selector flag is set and there are arguments, the root
command looks at the arguments joined by spaces. If the joined text has no
space in it, the command prints that the text is not a valid command and
returns; the state of the store is what it was, whatever the service would do
when called, and the process ends with status 0. If the joined text has a
space in it, the command does what `addNote` does: it calls `CreateNote` with
the joined text as the content, and the store ends in the state that
`CreateNote` leaves; it prints that the note was saved when `CreateNote`
succeeds and ends the process with status 1 when it fails. -/
theorem single_word_rejected {σ : Type} (cli : CLI σ)
    (handlers : Selected → σ → Clock → Outcome σ) (st : σ) (c : Clock)
    (flags : RootFlags) (args : List String)
    (hflags : flagCount flags = 0) (hargs : args ≠ []) :
    (' ' ∉ (Join args " ").data →
      cli.handleRootCommand handlers st c flags args =
        { state := st, printed := [.notValidCommand (Join args " "), .quoteHint, .flagsHint],
          exit := none } ∧
      main cli handlers st c flags args = (0, st)) ∧
    (' ' ∈ (Join args " ").data →
      cli.handleRootCommand handlers st c flags args = cli.addNote st c args ∧
      (cli.handleRootCommand handlers st c flags args).state =
        (cli.noteService.CreateNote st c (Join args " ")).2 ∧
      (∀ note st1, cli.noteService.CreateNote st c (Join args " ") = (.ok note, st1) →
        cli.handleRootCommand handlers st c flags args =
          { state := st1, printed := [.noteSaved], exit := none }) ∧
      (∀ e st1, cli.noteService.CreateNote st c (Join args " ") = (.error e, st1) →
        cli.handleRootCommand handlers st c flags args =
          { state := st1, printed := [.createError e], exit := some 1 })) := by
  have hf := flagCount_eq_zero flags hflags
  subst hf
  have hlen : ¬ args.length = 0 := fun h => hargs (List.length_eq_zero.mp h)
  constructor
  · intro hno
    have hc : Contains (Join args " ") " " = false := by
      cases h : Contains (Join args " ") " " with
      | false => rfl
      | true => exact absurd ((Contains_space_iff _).mp h) hno
    have hrun : cli.handleRootCommand handlers st c noFlags args =
        { state := st, printed := [.notValidCommand (Join args " "), .quoteHint, .flagsHint],
          exit := none } := by
      simp [CLI.handleRootCommand, flagCount, noFlags, hlen, hc]
    refine ⟨hrun, ?_⟩
    unfold main
    rw [hrun]
  · intro hsp
    have hc : Contains (Join args " ") " " = true := (Contains_space_iff _).mpr hsp
    have hrun : cli.handleRootCommand handlers st c noFlags args = cli.addNote st c args := by
      simp [CLI.handleRootCommand, flagCount, noFlags, hlen, hc]
    refine ⟨hrun, ?_, ?_, ?_⟩
    · rw [hrun]
      unfold CLI.addNote
      rw [if_neg hlen]
      simp only
      split <;> rename_i h <;> rw [h]
    · intro note st1 h
      rw [hrun]
      unfold CLI.addNote
      rw [if_neg hlen]
      simp only [h]
    · intro e st1 h
      rw [hrun]
      unfold CLI.addNote
      rw [if_neg hlen]
      simp only [h]

/-- Witness of C22: the single word `hello` is rejected and the counter of
the repository stays at 0, though `CreateNote` would raise it; the words
`buy` and `milk` are saved as the note `buy milk`, and the counter is 1. -/
theorem single_word_rejected_witness :
    ((exCountingCLI.noteService.CreateNote 0 exClock "hello").2 = 1 ∧
      main exCountingCLI exIdleHandlers 0 exClock noFlags ["hello"] = (0, 0)) ∧
    ((exCountingCLI.handleRootCommand exIdleHandlers 0 exClock noFlags ["buy", "milk"]).state =
        (exCountingCLI.noteService.CreateNote 0 exClock "buy milk").2 ∧
      (exCountingCLI.noteService.CreateNote 0 exClock "buy milk").2 = 1) :=
  ⟨⟨by decide,
    ((single_word_rejected exCountingCLI exIdleHandlers 0 exClock noFlags ["hello"]
      (by decide) (by decide)).1 (by decide)).2⟩,
   ⟨((single_word_rejected exCountingCLI exIdleHandlers 0 exClock noFlags ["buy", "milk"]
      (by decide) (by decide)).2 (by decide)).2.1, by decide⟩⟩

/-- C23, as stated, fails: a reminder stored with the status text `to-do` is
not a pending reminder for the comparator, and the bucket that holds it and a
text note updated later is loaded with the text note first. -/
theorem to_do_text_is_not_pending :
    exToDoReminder.Typ = "reminder" ∧ exToDoReminder.Metadata.Status = "to-do" ∧
    exLaterText.Typ ≠ "reminder" ∧ exToDoReminder.UpdatedAt < exLaterText.UpdatedAt ∧
    isReminderPending exToDoReminder = false ∧
    GetNotesByDate exRepo exFSToDo "2025-01-06" =
      (.ok [exLaterText, exToDoReminder], exFSToDo) :=
  ⟨by decide, by decide, by decide, by decide, by decide, by rfl⟩

/-- C23, amended: the comparator treats a note as a pending reminder exactly
when its type is `reminder` and its status is empty or `por_hacer`, the value
of `StatusToDo`; in the list that `GetNotesByDate` returns for a bucket, a
reminder stored with that status (or none) comes before every note of the
bucket that is not a reminder, whatever their update times, and never after
it. -/
theorem pending_reminder_status (r : fileRepository) (fs : FS) (date : String)
    (l : List Note) (w : Bool) (p k : Note)
    (hfile : fs (r.bucketPath date) = some (.file (.notes l) w))
    (hp : p ∈ l) (hk : k ∈ l) (hptyp : p.Typ = "reminder")
    (hpst : p.Metadata.Status = "por_hacer" ∨ p.Metadata.Status = "")
    (hktyp : k.Typ ≠ "reminder") :
    (∀ n : Note, isReminderPending n = true ↔
      n.Typ = "reminder" ∧ (n.Metadata.Status = "" ∨ n.Metadata.Status = "por_hacer")) ∧
    StatusToDo = "por_hacer" ∧
    ∃ out, GetNotesByDate r fs date = (.ok out, fs) ∧
      List.Sublist [p, k] out ∧ ¬ List.Sublist [k, p] out := by
  have hpp : isReminderPending p = true :=
    (isReminderPending_iff p).mpr ⟨hptyp, hpst.symm⟩
  have hkp : isReminderPending k = false := by
    cases h : isReminderPending k with
    | false => rfl
    | true => exact absurd ((isReminderPending_iff k).mp h).1 hktyp
  refine ⟨isReminderPending_iff, rfl, sortSlice bucketLess l,
    GetNotesByDate_decoded r fs date l w hfile, ?_, ?_⟩
  · have hord := pending_first_of_ordered _
      (ordered_sortSlice bucketLess bucketLess_asymm bucketLess_negtrans l)
    have hne : p ≠ k := by
      intro h
      rw [h, hkp] at hpp
      exact Bool.noConfusion hpp
    rcases sublist_pair_of_mem p k hne _ ((mem_sortSlice bucketLess p l).mpr hp)
      ((mem_sortSlice bucketLess k l).mpr hk) with h | h
    · exact h
    · have h2 := List.Pairwise.sublist h hord
      have h3 := (List.pairwise_cons.mp h2).1 p (List.mem_singleton.mpr rfl) hpp
      rw [hkp] at h3
      exact Bool.noConfusion h3
  · intro h
    have hord := pending_first_of_ordered _
      (ordered_sortSlice bucketLess bucketLess_asymm bucketLess_negtrans l)
    have h2 := List.Pairwise.sublist h hord
    have h3 := (List.pairwise_cons.mp h2).1 p (List.mem_singleton.mpr rfl) hpp
    rw [hkp] at h3
    exact Bool.noConfusion h3

/-- Witness of C23, amended: the bucket of 2025-01-06 that holds a text note
and a reminder of status `por_hacer` updated before it is loaded with the
reminder first. -/
theorem pending_reminder_status_witness :
    ∃ out, GetNotesByDate exRepo exFSPorHacer "2025-01-06" = (.ok out, exFSPorHacer) ∧
      List.Sublist [exPorHacerReminder, exLaterText] out ∧
      ¬ List.Sublist [exLaterText, exPorHacerReminder] out :=
  (pending_reminder_status exRepo exFSPorHacer "2025-01-06"
    [exLaterText, exPorHacerReminder] true exPorHacerReminder exLaterText
    (by rfl) (by decide) (by decide) (by decide) (by decide) (by decide)).2.2

/-- C24: the legacy file of 2025-01-05 holds the lines of 09:00:00 and of
10:00:00, in that order. The `GetNotesByDate` that migrates it returns the two
notes in the order of the lines, the older one first, though the comparator
puts the newer one first; the next `GetNotesByDate` reads the bucket that the
migration wrote and returns the newer one first. -/
theorem migrating_read_keeps_line_order :
    GetNotesByDate exRepo exFSTwoLines "2025-01-05" =
      (.ok [exFirstLine, exSecondLine],
        Remove (Function.update exFSTwoLines "/notes/2025-01-05.json"
          (some (.file (.notes [exFirstLine, exSecondLine]) true))) "/notes/2025-01-05.txt") ∧
    exFirstLine.UpdatedAt < exSecondLine.UpdatedAt ∧
    sortSlice bucketLess [exFirstLine, exSecondLine] = [exSecondLine, exFirstLine] ∧
    (GetNotesByDate exRepo
      (GetNotesByDate exRepo exFSTwoLines "2025-01-05").2 "2025-01-05").1 =
        .ok [exSecondLine, exFirstLine] :=
  ⟨by rfl, by decide, by decide, by rfl⟩

/-- C25: the legacy file of 2025-01-07 holds two well-formed lines of the
time 09:00:00. The `GetNotesByDate` that migrates it returns two notes that
differ in their content and have the same ID, and writes both to the
bucket. -/
theorem same_time_lines_share_id :
    GetNotesByDate exRepo exFSTwins "2025-01-07" =
      (.ok [exTwinA, exTwinB],
        Remove (Function.update exFSTwins "/notes/2025-01-07.json"
          (some (.file (.notes [exTwinA, exTwinB]) true))) "/notes/2025-01-07.txt") ∧
    exTwinA.ID = exTwinB.ID ∧ exTwinA ≠ exTwinB ∧ ¬ UniqueIDs [exTwinA, exTwinB] :=
  ⟨by rfl, by decide, by decide, by unfold UniqueIDs; decide⟩

/-- C26: the comparator of `readNotesFromFile` is a strict weak ordering. No
note is less than itself; less-than is transitive; two notes are incomparable
exactly when they are both pending reminders or both not and have the same
update time, and incomparability is transitive. Sorting a bucket with it
gives a rearrangement of the bucket in which no note is less than an earlier
one. -/
theorem bucket_order_strict_weak :
    (∀ a, bucketLess a a = false) ∧
    (∀ a b c, bucketLess a b = true → bucketLess b c = true → bucketLess a c = true) ∧
    (∀ a b, (bucketLess a b = false ∧ bucketLess b a = false) ↔
      (isReminderPending a = isReminderPending b ∧ a.UpdatedAt = b.UpdatedAt)) ∧
    (∀ a b c, (bucketLess a b = false ∧ bucketLess b a = false) →
      (bucketLess b c = false ∧ bucketLess c b = false) →
      (bucketLess a c = false ∧ bucketLess c a = false)) ∧
    (∀ l, (sortSlice bucketLess l).Perm l ∧ Ordered bucketLess (sortSlice bucketLess l)) := by
  refine ⟨bucketLess_irrefl, bucketLess_trans, bucketLess_incomparable_iff, ?_, ?_⟩
  · intro a b c h1 h2
    exact ⟨bucketLess_negtrans a b c h1.1 h2.1, bucketLess_negtrans c b a h2.2 h1.2⟩
  · intro l
    exact ⟨perm_sortSlice bucketLess l,
      ordered_sortSlice bucketLess bucketLess_asymm bucketLess_negtrans l⟩

/-- Witness of C26: the pending reminder of the examples is less than the
task, the task is less than the completed reminder, and so the pending
reminder is less than the completed one; a note is incomparable with
itself. -/
theorem bucket_order_strict_weak_witness :
    bucketLess exPending exCompleted = true ∧
    (bucketLess exTask exTask = false ∧ bucketLess exTask exTask = false) :=
  ⟨bucket_order_strict_weak.2.1 exPending exTask exCompleted (by decide) (by decide),
   bucket_order_strict_weak.2.2.2.1 exTask exTask exTask ⟨by decide, by decide⟩
     ⟨by decide, by decide⟩⟩

/-- C27, as stated, fails: the JSON file of 2025-01-11 does not decode and
there is no legacy file, but `Save` of a note of that date whose update time
lies in the year 10000 returns the error of the encoder and leaves the file
empty. -/
theorem far_note_is_not_saved :
    exFSUndecodable (exRepo.bucketPath "2025-01-11") = some (.file (.text "") true) ∧
    exFSUndecodable (textPath (exRepo.bucketPath "2025-01-11")) = none ∧
    exFarNote.Date = "2025-01-11" ∧
    Save exRepo exFSUndecodable exFarNote =
      (.error (.writeNotes .encodeNotes),
        Function.update exFSUndecodable "/notes/2025-01-11.json"
          (some (.file (.text "") true))) :=
  ⟨by rfl, by rfl, by rfl, by rfl⟩

/-- C27, amended: when the JSON file of a date exists and does not decode,
and `os.Open` finds no legacy file in its place, `GetNotesByDate` returns the
empty list without an error and changes nothing. `Save` of a note of that
date then leaves the bucket with exactly that note in the place of the former
content, and the next `GetNotesByDate` returns it, provided the file can be
written, `os.MkdirAll` accepts the notes directory and the encoder takes the
times of the note (years 0 to 9999); when the encoder does not take them,
`Save` returns its error and leaves the file empty. `os.MkdirAll` accepts a
directory path that is not empty when neither its clean form nor a text before
one of its slashes names something that is not a directory. For a notes
directory without `.json` in its path and a date written `YYYY-MM-DD`, the
legacy file in question is `<notesDir>/<date>.txt`. -/
theorem undecodable_bucket_overwritten (r : fileRepository) (fs : FS) (date : String)
    (d : FileData) (w : Bool) (n : Note)
    (hjson : fs (r.bucketPath date) = some (.file d w)) (hdec : d.decode = none)
    (hno : fs (textPath (r.bucketPath date)) = none)
    (hway : Blocked fs (textPath (r.bucketPath date)) = false) (hdate : n.Date = date) :
    GetNotesByDate r fs date = (.ok [], fs) ∧
    (w = true → MkdirAll fs r.notesDir = .ok fs → n.encodable = true →
      Save r fs n =
        (.ok (), Function.update fs (r.bucketPath date) (some (.file (.notes [n]) true))) ∧
      GetNotesByDate r (Save r fs n).2 date = (.ok [n], (Save r fs n).2)) ∧
    (w = true → MkdirAll fs r.notesDir = .ok fs → n.encodable = false →
      Save r fs n =
        (.error (.writeNotes .encodeNotes),
          Function.update fs (r.bucketPath date) (some (.file (.text "") true)))) ∧
    (MkdirAll fs r.notesDir = .ok fs ↔
      r.notesDir ≠ "" ∧ fs (Clean r.notesDir) = none ∧
        Blocked fs (Clean r.notesDir) = false) ∧
    (CleanDate date → cut ".json".data (dirPrefix r) = none →
      textPath (r.bucketPath date) = filepathJoin r.notesDir (date ++ ".txt")) := by
  have hread : readNotesFromFile fs (r.bucketPath date) date = (.ok [], fs) := by
    simp [readNotesFromFile, Open_file _ _ _ _ hjson, hdec, migrateFromTextFormat,
      Open_absent _ _ hno hway]
  refine ⟨hread, ?_, ?_, ?_, fun h1 h2 => textPath_eq_join r date h1 h2⟩
  · intro hw hdir henc
    subst hw
    have hsave : Save r fs n =
        (.ok (), Function.update fs (r.bucketPath date) (some (.file (.notes [n]) true))) := by
      simp [Save, hdir, hdate, hread, writeNotesToFile, hjson, upsert, replaceByID,
        encodeInto, henc]
    refine ⟨hsave, ?_⟩
    rw [hsave]
    have := GetNotesByDate_decoded r
      (Function.update fs (r.bucketPath date) (some (.file (.notes [n]) true))) date [n] true
      (by simp)
    rw [this]
    rfl
  · intro hw hdir henc
    subst hw
    simp [Save, hdir, hdate, hread, writeNotesToFile, hjson, upsert, replaceByID,
      encodeInto, henc]
  · constructor
    · intro h
      obtain ⟨_, h1, h2, h3⟩ := MkdirAll_ok fs fs _ h
      exact ⟨h1, h2, h3⟩
    · rintro ⟨h1, h2, h3⟩
      simp [MkdirAll, h1, h2, h3]

/-- Witness of C27, amended: the empty JSON file of 2025-01-11, with no
legacy file beside it, reads as the empty list, and `Save` of a note of that
date leaves the bucket with that note alone. -/
theorem undecodable_bucket_overwritten_witness :
    GetNotesByDate exRepo exFSUndecodable "2025-01-11" = (.ok [], exFSUndecodable) ∧
    (Save exRepo exFSUndecodable exNote11 =
        (.ok (), Function.update exFSUndecodable (exRepo.bucketPath "2025-01-11")
          (some (.file (.notes [exNote11]) true))) ∧
      GetNotesByDate exRepo (Save exRepo exFSUndecodable exNote11).2 "2025-01-11" =
        (.ok [exNote11], (Save exRepo exFSUndecodable exNote11).2)) :=
  ⟨(undecodable_bucket_overwritten exRepo exFSUndecodable "2025-01-11" (.text "") true
      exNote11 (by rfl) (by rfl) (by rfl) (by rfl) (by rfl)).1,
   (undecodable_bucket_overwritten exRepo exFSUndecodable "2025-01-11" (.text "") true
      exNote11 (by rfl) (by rfl) (by rfl) (by rfl) (by rfl)).2.1 rfl (by rfl) (by rfl)⟩

/-- C28: for the notes directory `/data.json/notes` and the date 2025-01-08,
the legacy path that the migration computes is
`/data.txt/notes/2025-01-08.json`, not `/data.json/notes/2025-01-08.txt`. A
legacy file at the latter path is neither read nor deleted and the bucket
reads as empty; a file at the former path is migrated into the bucket and
deleted. -/
theorem legacy_path_rewrites_directory :
    textPath (exJsonDirRepo.bucketPath "2025-01-08") = "/data.txt/notes/2025-01-08.json" ∧
    filepathJoin exJsonDirRepo.notesDir ("2025-01-08" ++ ".txt") =
      "/data.json/notes/2025-01-08.txt" ∧
    GetNotesByDate exJsonDirRepo exFSJsonDir "2025-01-08" = (.ok [], exFSJsonDir) ∧
    GetNotesByDate exJsonDirRepo exFSJsonDirOther "2025-01-08" =
      (.ok [exMilk8],
        Remove (Function.update exFSJsonDirOther "/data.json/notes/2025-01-08.json"
          (some (.file (.notes [exMilk8]) true))) "/data.txt/notes/2025-01-08.json") :=
  ⟨by decide, by decide, by rfl, by rfl⟩

/-- C29, as stated, fails: the legacy file of 2025-01-09 holds one line of
65536 letters and so no well-formed line, yet `GetNotesByDate` returns the
error of the scanner, not the empty list. -/
theorem long_line_fails_the_read :
    splitLines exLongLine.data = [exLongLineChars] ∧
    (∀ line ∈ splitLines exLongLine.data, legacyNote "2025-01-09" (dropCR line) = none) ∧
    GetNotesByDate exRepo exFSLongLine "2025-01-09" =
      (.error .readTextFile, exFSLongLine) := by
  have hsplit : splitLines exLongLine.data = [exLongLineChars] :=
    splitLines_replicate 65535 'x' (by decide)
  refine ⟨hsplit, ?_, ?_⟩
  · intro line hline
    rw [hsplit] at hline
    have hl : line = exLongLineChars := List.mem_singleton.mp hline
    apply legacyNote_none_of_no_bracket
    intro hmem
    have h1 := mem_dropCR line '[' hmem
    rw [hl] at h1
    have h2 := (List.mem_replicate.mp h1).2
    exact absurd h2 (by decide)
  · exact read_unscannable exRepo exFSLongLine "2025-01-09" (.text "") (.text exLongLine)
      true true (by rfl) (by rfl) (by rfl) (scanLines_long_line 65536 (by decide))

/-- C29, amended: when the JSON file of a date does not decode and no line of
the legacy file makes a note, `GetNotesByDate` changes nothing on disk; it
returns the empty list without an error when every line of the legacy file is
shorter than the 65536 bytes that the scanner takes, and the error of the
scanner when some line is not. -/
theorem blank_legacy_file_left_alone (r : fileRepository) (fs : FS) (date : String)
    (d legacy : FileData) (w w2 : Bool)
    (hjson : fs (r.bucketPath date) = some (.file d w)) (hdec : d.decode = none)
    (htext : fs (textPath (r.bucketPath date)) = some (.file legacy w2))
    (hnone : ∀ line ∈ splitLines legacy.scanText.data, legacyNote date (dropCR line) = none) :
    ((∀ line ∈ splitLines legacy.scanText.data, byteLen line < MaxScanTokenSize) →
      GetNotesByDate r fs date = (.ok [], fs)) ∧
    ((∃ line ∈ splitLines legacy.scanText.data, MaxScanTokenSize ≤ byteLen line) →
      GetNotesByDate r fs date = (.error .readTextFile, fs)) := by
  constructor
  · intro hshort
    have hscan : scanLines legacy.scanText.data =
        some ((splitLines legacy.scanText.data).map dropCR) := by
      unfold scanLines
      simp only
      rw [if_pos]
      exact List.all_eq_true.mpr (fun l hl => decide_eq_true (hshort l hl))
    apply read_no_note r fs date d legacy w w2 _ hjson hdec htext hscan
    intro line hline
    obtain ⟨raw, hraw, rfl⟩ := List.mem_map.mp hline
    exact hnone raw hraw
  · rintro ⟨line, hline, hlong⟩
    apply read_unscannable r fs date d legacy w w2 hjson hdec htext
    unfold scanLines
    simp only
    rw [if_neg]
    intro hall
    have := of_decide_eq_true (List.all_eq_true.mp hall line hline)
    omega

/-- Witness of C29, amended: the legacy file of 2025-01-10, a blank line and
a malformed line, is read as the empty list and nothing changes. -/
theorem blank_legacy_file_left_alone_witness :
    GetNotesByDate exRepo exFSBlankLegacy "2025-01-10" = (.ok [], exFSBlankLegacy) :=
  (blank_legacy_file_left_alone exRepo exFSBlankLegacy "2025-01-10" (.text "")
    (.text "  \nnot a note\n") true true (by rfl) (by rfl) (by rfl) (by decide)).1 (by decide)

/-- C30: every note that the legacy migration makes has a content that is not
empty and not blank. A line makes a note only when its trimmed text has text
after its first `] `, and that text, the content of the note, does not end in
white space. So the notes that a migrating `GetNotesByDate` returns, which
are the notes it writes to the bucket, all have such a content. -/
theorem migrated_content_not_blank (r : fileRepository) (fs fs' : FS) (date : String)
    (d : FileData) (w : Bool) (notes : List Note)
    (hjson : fs (r.bucketPath date) = some (.file d w)) (hdec : d.decode = none)
    (hread : GetNotesByDate r fs date = (.ok notes, fs')) :
    (∀ n ∈ notes, n.Content ≠ "" ∧ TrimSpace n.Content.data ≠ []) ∧
    (notes ≠ [] → fs' (r.bucketPath date) = some (.file (.notes notes) true)) ∧
    (∀ text n, legacyNote date text = some n →
      (∃ timeStr,
        cut [']', ' '] (TrimSpace text) = some ('[' :: timeStr, n.Content.data)) ∧
      n.Content ≠ "" ∧ TrimSpace n.Content.data ≠ []) := by
  have hline : ∀ text n, legacyNote date text = some n →
      (∃ timeStr,
        cut [']', ' '] (TrimSpace text) = some ('[' :: timeStr, n.Content.data)) ∧
      n.Content ≠ "" ∧ TrimSpace n.Content.data ≠ [] := by
    intro text n h
    obtain ⟨h1, h2, h3⟩ := legacyNote_content date text n h
    refine ⟨h1, ?_, h3⟩
    intro h0
    rw [h0] at h2
    exact h2 rfl
  have hm : migrateFromTextFormat fs (r.bucketPath date) date = (.ok notes, fs') := by
    simpa [GetNotesByDate, readNotesFromFile, Open_file _ _ _ _ hjson, hdec] using hread
  refine ⟨?_, ?_, hline⟩
  · intro n hn
    obtain ⟨text, ht⟩ := migrate_ok_mem fs fs' _ date notes hm n hn
    exact (hline text n ht).2
  · intro hne
    rcases migrate_ok_inv fs fs' _ date notes hm with ⟨h0, -⟩ | ⟨-, hfs⟩
    · exact absurd h0 hne
    · rw [hfs, Remove_of_ne _ _ _ (textPath_ne r date).symm, Function.update_same]

/-- Witness of C30: the note migrated from the legacy file of 2025-01-03 has
the content `buy milk`. -/
theorem migrated_content_not_blank_witness :
    exMigrated.Content ≠ "" ∧ TrimSpace exMigrated.Content.data ≠ [] :=
  (migrated_content_not_blank exRepo exFSMigrate
    (GetNotesByDate exRepo exFSMigrate "2025-01-03").2 "2025-01-03" (.text "") true
    [exMigrated] (by rfl) (by rfl) (by rfl)).1 exMigrated (List.mem_singleton.mpr rfl)

end JotterXpress
